import Mathlib

/-!
# Deterministic reservations: `speculative_for` and `reservation`

A shallow embedding of `src/speculative_for.h` (PBBS library) and theorems about it.

Modelling conventions.

* `long` values are mathematical integers (`Int`); the development covers the runs in which no
  signed overflow of a `long` occurs (signed overflow is undefined in the source language).
  `/` on `long` truncates towards zero, so it is `Int.tdiv`.
* `intT`, the type of the indices held in `I` and `Ihold` and passed to the step, and hence
  `max_int = numeric_limits<intT>::max()`, are declared outside the given sources.  The
  conversion of a `long` to `intT`, made when `numberDone + i` is stored in `I[i]`, is the
  parameter `toIntT` of the driver: `wrapIntT max_int` for a two's complement `intT` with
  maximum `max_int`, `id` for an `intT` that is as wide as `long`.  `max_int` is a parameter of
  the register operations.
* A `Step` object has fields of its own (type `τ`) and may point to shared memory (type `σ`,
  typically an array of reservation registers).  With `hasState` the driver keeps one copy of
  the step per slot (`state[i]`), without it all slots use the single object `step`.
* `parallel_for (0, size, body)` is executed as the loop `for i = 0, ..., size-1`, which is one
  of its admissible schedules; the barrier between the two phases is the sequencing of the two
  loops.
* The buffers `I`, `keep`, `Ihold` and `state` are lists.  `I`, `keep` and `state` are built
  with `(size_t)maxRoundSize` elements (`pbbs::sequence`, declared outside the given sources):
  with a negative `maxRoundSize` that is more than any memory holds, and the run ends there
  (`Outcome.allocFailure`).  `I` and `keep` carry nothing from one round to the next: every
  round overwrites their first `size` slots, and the model rebuilds these slots as lists of
  `size` entries.
* The two floating point tests of the resizing rule are modelled in IEEE 754 binary32
  arithmetic with round to nearest, ties to even (`fracGt`, `fracLt`).
* The driver is instrumented with a ghost history `rounds` recording, for every round, the
  driver variables at its start, the index list `I`, and the `keep` flags after each loop.
-/


namespace SpecFor

/-! ## Reservation register -/

/-- Modelled from the spec: `pbbs::write_min(&a, b, less)` (its header is not among the sources):
the cell `a` ends up holding `b` when `less b a`, and is unchanged otherwise. -/
def write_min (a b : Int) (less : Int → Int → Bool) : Int :=
  if less b a then b else a

/-- The C++ `struct reservation`: one cell `r`. -/
structure reservation where
  r : Int
deriving DecidableEq, Repr

namespace reservation

/-- Constructor `reservation() : r(max_int)`. -/
def new (max_int : Int) : reservation := ⟨max_int⟩

/-- Method `reserve(i)`: `write_min(&r, i, std::less)`. -/
def reserve (x : reservation) (i : Int) : reservation :=
  ⟨write_min x.r i (fun a b => decide (a < b))⟩

/-- Method `reserved()`: `r < max_int`. -/
def reserved (max_int : Int) (x : reservation) : Bool := decide (x.r < max_int)

/-- Method `reset()`: `r = max_int`. -/
def reset (max_int : Int) (_x : reservation) : reservation := ⟨max_int⟩

/-- Method `check(i)`: `r == i`. -/
def check (x : reservation) (i : Int) : Bool := decide (x.r = i)

/-- Method `checkReset(i)`: `if (r==i) { r = max_int; return 1;} else return 0;`. -/
def checkReset (max_int : Int) (x : reservation) (i : Int) : Bool × reservation :=
  if x.r = i then (true, ⟨max_int⟩) else (false, x)

end reservation

/-- Function `reserveLoc(x, i)`: `write_min(&x, i, std::less)`; returns the new content of `x`. -/
def reserveLoc (x i : Int) : Int := write_min x i (fun a b => decide (a < b))

/-! ## The two floating point tests of the resizing rule

`float(numberKeep)/float(size) > .2` and `... < .1`: the operands are converted to binary32,
the quotient is a binary32 division (round to nearest, ties to even), and the comparison is made
after the exact promotion of the quotient to binary64, against the binary64 constants nearest to
`0.2` and `0.1`.  Within the range of `long` no exponent overflow or underflow can occur, so a
rounded value is represented by an exact fraction. -/

/-- How often the denominator must be doubled until `N / D < 2^24`. -/
def scaleDown : Nat → Nat → Nat → Nat
  | 0, _, _ => 0
  | fuel + 1, N, D => if 2 ^ 24 ≤ N / D then 1 + scaleDown fuel N (2 * D) else 0

/-- How often the numerator must be doubled until `2^23 ≤ N / D`. -/
def scaleUp : Nat → Nat → Nat → Nat
  | 0, _, _ => 0
  | fuel + 1, N, D => if N / D < 2 ^ 23 then 1 + scaleUp fuel (2 * N) D else 0

/-- The binary32 value nearest to the positive fraction `N / D` (ties to even), as a fraction
`(numerator, denominator)`; the significand has 24 bits. -/
def roundF32 (N D : Nat) : Nat × Nat :=
  if N = 0 then (0, 1) else
  let up := scaleUp 192 N D
  let down := scaleDown 192 N D
  let N1 := N * 2 ^ up
  let D1 := D * 2 ^ down
  let q := N1 / D1
  let rem := N1 % D1
  let m := if D1 < 2 * rem ∨ (2 * rem = D1 ∧ q % 2 = 1) then q + 1 else q
  (m * 2 ^ down, 2 ^ up)

/-- The binary32 quotient `float(k)/float(n)` for `k, n > 0`, as a fraction. -/
def quotF32 (k n : Nat) : Nat × Nat :=
  let fk := roundF32 k 1
  let fn := roundF32 n 1
  roundF32 (fk.1 * fn.2) (fk.2 * fn.1)

/-- The significand of the binary64 constants `.2 = dconst / 2^54` and `.1 = dconst / 2^55`. -/
def dconst : Nat := 3602879701896397

/-- The test `float(numberKeep)/float(size) > .2`.  A zero divisor gives an infinity or a NaN;
a quotient that is zero or negative is not above `.2`. -/
def fracGt (numberKeep size : Int) : Bool :=
  if size = 0 then decide (0 < numberKeep)
  else if (0 < numberKeep ∧ 0 < size) ∨ (numberKeep < 0 ∧ size < 0) then
    let q := quotF32 numberKeep.natAbs size.natAbs
    decide (dconst * q.2 < q.1 * 2 ^ 54)
  else false

/-- The test `float(numberKeep)/float(size) < .1`. -/
def fracLt (numberKeep size : Int) : Bool :=
  if size = 0 then decide (numberKeep < 0)
  else if (0 < numberKeep ∧ 0 < size) ∨ (numberKeep < 0 ∧ size < 0) then
    let q := quotF32 numberKeep.natAbs size.natAbs
    decide (q.1 * 2 ^ 55 < dconst * q.2)
  else true

/-- The list `a, a+1, ..., a+n-1`. -/
def irange (a : Int) (n : Nat) : List Int := (List.range n).map (fun (j : Nat) => a + (j : Int))

/-- The conversion of a `long` to a two's complement integer type whose largest value is
`max_int` (for a 32-bit `intT`, `max_int = 2147483647`): the value is reduced modulo
`2 * (max_int + 1)` into `[-(max_int + 1), max_int]`. -/
def wrapIntT (max_int : Int) (x : Int) : Int :=
  (x + (max_int + 1)) % (2 * (max_int + 1)) - (max_int + 1)

/-! ## Steps and the memory they act on -/

/-- The template parameter `S`: a step has the methods `reserve(i)` and `commit(i)`, each of
which may read and write the fields of the object it is called on (`τ`) and the shared memory
the object refers to (`σ`). -/
structure Step (σ τ : Type) where
  reserve : Int → τ → σ → Bool × τ × σ
  commit : Int → τ → σ → Bool × τ × σ

/-- What the step calls of a run can touch: the shared memory, the driver's by-value copy `step`,
and the per-slot copies `state` (empty unless `hasState`). -/
structure Mem (σ τ : Type) where
  shared : σ
  step : τ
  state : List τ

/-- The call `state[slot].reserve(idx)` (with `hasState`) or `step.reserve(idx)` (without). -/
def callReserve {σ τ : Type} (S : Step σ τ) (hasState : Bool) (slot : Nat) (idx : Int)
    (m : Mem σ τ) : Bool × Mem σ τ :=
  if hasState then
    let out := S.reserve idx (m.state.getD slot m.step) m.shared
    (out.1, { shared := out.2.2, step := m.step, state := m.state.set slot out.2.1 })
  else
    let out := S.reserve idx m.step m.shared
    (out.1, { shared := out.2.2, step := out.2.1, state := m.state })

/-- The call `state[slot].commit(idx)` (with `hasState`) or `step.commit(idx)` (without). -/
def callCommit {σ τ : Type} (S : Step σ τ) (hasState : Bool) (slot : Nat) (idx : Int)
    (m : Mem σ τ) : Bool × Mem σ τ :=
  if hasState then
    let out := S.commit idx (m.state.getD slot m.step) m.shared
    (out.1, { shared := out.2.2, step := m.step, state := m.state.set slot out.2.1 })
  else
    let out := S.commit idx m.step m.shared
    (out.1, { shared := out.2.2, step := out.2.1, state := m.state })

/-- Modelled from the spec: `pbbs::pack(In, flags)` (its header is not among the sources): the
order-preserving compaction of the elements whose flag is set. -/
def pack {α : Type} : List α → List Bool → List α
  | x :: xs, b :: bs => if b then x :: pack xs bs else pack xs bs
  | _, _ => []

/-! ## The driver -/

/-- Ghost record of one round. -/
structure RoundRec where
  /-- Value of `numberDone` at the start of the round -/
  numberDone : Int
  /-- Content of `Ihold` at the start of the round -/
  pending : List Int
  /-- Value of `currentRoundSize` at the start of the round -/
  currentRoundSize : Int
  /-- The local `size` -/
  size : Int
  /-- The slots `I[0..size)` as filled in by the first loop -/
  I : List Int
  /-- The flags `keep[0..size)` after the reserve loop -/
  reserved : List Bool
  /-- The flags `keep[0..size)` after the commit loop -/
  keep : List Bool
  /-- Value of `currentRoundSize` after the adjustment at the end of the round -/
  nextRoundSize : Int
deriving DecidableEq, Repr

/-- The local variables of `speculative_for` that live across rounds, with the memory the step
acts on and the ghost history (oldest round first). -/
structure Loop (σ τ : Type) where
  mem : Mem σ τ
  Ihold : List Int
  round : Int
  numberDone : Int
  numberKeep : Int
  totalProcessed : Int
  currentRoundSize : Int
  rounds : List RoundRec

/-- How a call of `speculative_for` ends. `allocFailure` is the end at the construction of
the buffers `I`, `keep` and `state` when `maxRoundSize` is negative; `undefined` stands for
executions the source does not define (division by zero, a round over a negative `size`);
`outOfFuel` is an artefact of the fuel of `whileLoop` and is never produced by
`speculative_for`. -/
inductive Outcome where
  | returned (totalProcessed : Int)
  | aborted
  | allocFailure
  | undefined
  | outOfFuel
deriving DecidableEq, Repr

/-- The index put into slot `i`: `I[i] = (i < numberKeep) ? Ihold[i] : numberDone + i`, where
`Ihold[i]` is an `intT` already and `numberDone + i` is converted to `intT` by the
assignment. -/
def slotIndex (toIntT : Int → Int) (Ihold : List Int) (numberKeep numberDone : Int) (i : Nat) :
    Int :=
  if (i : Int) < numberKeep then Ihold.getD i 0 else toIntT (numberDone + i)

/-- Modelled from the spec: `parallel_for (start, end, f)` (its header is not among the
sources), the primitive that applies `f` to every index of a contiguous range, here in the
schedule that takes the indices in increasing order.  The body acts on the state `α`. -/
def parallel_for {α : Type} (start stop : Nat) (f : Nat → α → α) (a : α) : α :=
  (List.range' start (stop - start)).foldl (fun acc i => f i acc) a

/-- First loop of a round (lines 75-85): fills `I[i]` and sets `keep[i]` to the result of
`reserve(I[i])`, for `i = 0, ..., size-1`.  The state of the loop is `(I, keep, memory)`. -/
def reservePhase {σ τ : Type} (toIntT : Int → Int) (S : Step σ τ) (hasState : Bool)
    (Ihold : List Int) (numberKeep numberDone : Int) (size : Nat) (m : Mem σ τ) :
    List Int × List Bool × Mem σ τ :=
  parallel_for 0 size
    (fun i acc =>
      let idx := slotIndex toIntT Ihold numberKeep numberDone i
      let out := callReserve S hasState i idx acc.2.2
      (acc.1 ++ [idx], acc.2.1 ++ [out.1], out.2))
    ([], [], m)

/-- Second loop of a round (lines 87-93): `if (keep[i]) keep[i] = !commit(I[i])`, for
`i = 0, ..., size-1`.  `I` and `keep` are as the first loop left them; the state of the loop
is `(keep, memory)`. -/
def commitPhase {σ τ : Type} (S : Step σ τ) (hasState : Bool) (I : List Int)
    (keep : List Bool) (size : Nat) (m : Mem σ τ) : List Bool × Mem σ τ :=
  parallel_for 0 size
    (fun i acc =>
      if keep.getD i false then
        let out := callCommit S hasState i (I.getD i 0) acc.2
        (acc.1 ++ [!out.1], out.2)
      else (acc.1 ++ [false], acc.2))
    ([], m)

/-- The adjustment of `currentRoundSize` at the end of a round (lines 101-105). -/
def resize (maxRoundSize currentRoundSize numberKeep size : Int) : Int :=
  if fracGt numberKeep size then
    max (currentRoundSize.tdiv 2) (max (maxRoundSize.tdiv 64 + 1) numberKeep)
  else if fracLt numberKeep size then
    min (currentRoundSize * 2) maxRoundSize
  else currentRoundSize

/-- One execution of the loop body from line 70 on (the test of `round` has passed and `round`
has been incremented). -/
def roundBody {σ τ : Type} (toIntT : Int → Int) (S : Step σ τ) (hasState : Bool)
    (e maxRoundSize : Int) (st : Loop σ τ) : Loop σ τ :=
  let size := min st.currentRoundSize (e - st.numberDone)
  let p1 := reservePhase toIntT S hasState st.Ihold st.numberKeep st.numberDone size.toNat st.mem
  let p2 := commitPhase S hasState p1.1 p1.2.1 size.toNat p1.2.2
  let Ihold := pack p1.1 p2.1
  let numberKeep : Int := Ihold.length
  let crs := resize maxRoundSize st.currentRoundSize numberKeep size
  { mem := p2.2
    Ihold := Ihold
    round := st.round
    numberDone := st.numberDone + (size - numberKeep)
    numberKeep := numberKeep
    totalProcessed := st.totalProcessed + size
    currentRoundSize := crs
    rounds := st.rounds ++ [{ numberDone := st.numberDone, pending := st.Ihold,
                              currentRoundSize := st.currentRoundSize, size := size,
                              I := p1.1, reserved := p1.2.1, keep := p2.1,
                              nextRoundSize := crs }] }

/-- The increment in `round++`. -/
def bump {σ τ : Type} (st : Loop σ τ) : Loop σ τ := { st with round := st.round + 1 }

/-- The `while (numberDone < e)` loop; `fuel` bounds the number of evaluations of its test.
`if (round++ > maxTries) abort();` compares the old value of `round`. -/
def whileLoop {σ τ : Type} (toIntT : Int → Int) (S : Step σ τ) (hasState : Bool)
    (e maxTries maxRoundSize : Int) : Nat → Loop σ τ → Outcome × Loop σ τ
  | 0, st => (Outcome.outOfFuel, st)
  | fuel + 1, st =>
    if st.numberDone < e then
      if st.round > maxTries then (Outcome.aborted, bump st)
      else if min st.currentRoundSize (e - st.numberDone) < 0 then
        (Outcome.undefined, bump st)
      else
        whileLoop toIntT S hasState e maxTries maxRoundSize fuel
          (roundBody toIntT S hasState e maxRoundSize (bump st))
    else (Outcome.returned st.totalProcessed, st)

/-- The ceiling in force: `if (maxTries < 0) maxTries = 100 + 200*granularity`. -/
def effMaxTries (granularity maxTries : Int) : Int :=
  if maxTries < 0 then 100 + 200 * granularity else maxTries

/-- The value `maxRoundSize = (e-s)/granularity+1`. -/
def maxRoundSizeOf (s e granularity : Int) : Int := (e - s).tdiv granularity + 1

/-- The state in which the `while` loop is entered, the buffers having been built
(`maxRoundSize ≥ 0`): `state` holds `maxRoundSize` copies of `step` with `hasState` and is
empty without; `I` and `keep` hold nothing a round reads before writing it. -/
def initLoop {σ τ : Type} (step : τ) (shared : σ) (s e granularity : Int) (hasState : Bool) :
    Loop σ τ :=
  { mem := { shared := shared, step := step,
             state := if hasState then
                 List.replicate (maxRoundSizeOf s e granularity).toNat step else [] }
    Ihold := []
    round := 0
    numberDone := s
    numberKeep := 0
    totalProcessed := 0
    currentRoundSize := maxRoundSizeOf s e granularity
    rounds := [] }

/-- The function `speculative_for(step, s, e, granularity, hasState, maxTries)`, run on the
shared memory `shared`, with `toIntT` the conversion from `long` to `intT`.  The defaults of
the source are `hasState = true`, `maxTries = -1`.  The division by `granularity = 0` is
undefined; the sequences `I` and `keep` (and `state`) of `(size_t)maxRoundSize` elements
cannot be built when `maxRoundSize` is negative.  The result is how the call ends, with the
final values of the driver variables. -/
def speculative_for {σ τ : Type} (toIntT : Int → Int) (S : Step σ τ) (step : τ) (shared : σ)
    (s e granularity : Int) (hasState : Bool) (maxTries : Int) : Outcome × Loop σ τ :=
  if granularity = 0 then (Outcome.undefined, initLoop step shared s e granularity hasState)
  else if maxRoundSizeOf s e granularity < 0 then
    (Outcome.allocFailure, initLoop step shared s e granularity hasState)
  else
    whileLoop toIntT S hasState e (effMaxTries granularity maxTries)
      (maxRoundSizeOf s e granularity)
      ((effMaxTries granularity maxTries + 1).toNat + 1)
      (initLoop step shared s e granularity hasState)

/-! ## Example steps -/

/-- A step over an array of reservation registers, one per resource: `reserve(i)` reserves the
register of resource `f i` with `i` and asks for a commit; `commit(i)` is `checkReset(i)` on
that register.  The step object has no fields of its own. -/
def resStep (max_int : Int) (f : Int → Nat) : Step (Nat → reservation) Unit where
  reserve := fun i _ R => (true, (), Function.update R (f i) ((R (f i)).reserve i))
  commit := fun i _ R =>
    let out := (R (f i)).checkReset max_int i
    (out.1, (), Function.update R (f i) out.2)


/-- The registers of `resStep` as they are constructed: all unreserved. -/
def freshRegisters (max_int : Int) : Nat → reservation := fun _ => reservation.new max_int

/-- The step in which all indices contend for one register (sentinel 100). -/
def contendStep : Step (Nat → reservation) Unit := resStep 100 (fun _ => 0)

/-- The run of `contendStep` on `[0, 2)` with granularity 1 and the default ceiling. -/
def contendRun : Outcome × Loop (Nat → reservation) Unit :=
  speculative_for (wrapIntT 100) contendStep () (freshRegisters 100) 0 2 1 true (-1)

namespace RoundRec

/-- Indices of the round that need no further attempt: the slots whose `keep` flag is off after
the commit loop (`reserve` returned false, or `commit` was called and returned true). -/
def resolved (r : RoundRec) : List Int := pack r.I (r.keep.map (fun b => !b))

/-- Indices carried over to the next round: `pack(I, keep)`. -/
def carried (r : RoundRec) : List Int := pack r.I r.keep

/-- Indices whose `commit` was called in the round: the slots whose `reserve` returned true. -/
def commitCalls (r : RoundRec) : List Int := pack r.I r.reserved

/-- Indices whose `commit` returned true in the round. -/
def committed (r : RoundRec) : List Int :=
  pack r.I (List.zipWith (fun a b => a && !b) r.reserved r.keep)

end RoundRec

/-- All indices resolved in the rounds of a history, in order of resolution. -/
def resolvedAll : List RoundRec → List Int
  | [] => []
  | r :: rs => r.resolved ++ resolvedAll rs

/-- All indices whose `commit` returned true in the rounds of a history. -/
def committedAll : List RoundRec → List Int
  | [] => []
  | r :: rs => r.committed ++ committedAll rs


/-! ## The driver over converted indices

A run that converts each fresh index to `intT` when it stores it makes the same calls as the run
that stores the index unconverted and converts it at each call of the step: the two runs
differ only in what the lists `I` and `Ihold` hold.  The definitions below state this
correspondence; they are used in proofs only. -/

/-- The step that converts the index it is called with to `intT` before handing it to `S`. -/
def Step.onIntT {σ τ : Type} (toIntT : Int → Int) (S : Step σ τ) : Step σ τ where
  reserve := fun i => S.reserve (toIntT i)
  commit := fun i => S.commit (toIntT i)

/-- The record of a round with `f` applied to the indices it lists. -/
def RoundRec.mapIdx (f : Int → Int) (r : RoundRec) : RoundRec :=
  { r with pending := r.pending.map f, I := r.I.map f }

/-- The driver variables with `f` applied to the indices in `Ihold` and in the history. -/
def Loop.mapIdx {σ τ : Type} (f : Int → Int) (st : Loop σ τ) : Loop σ τ :=
  { st with Ihold := st.Ihold.map f, rounds := st.rounds.map (RoundRec.mapIdx f) }

/-! ## Invariants of the loop -/

/-- What holds of every round of a run on `[s, e)` with `maxRoundSize = M ≥ 1`. -/
structure RoundOK (s e M : Int) (r : RoundRec) : Prop where
  sizePos : 1 ≤ r.size
  sizeEq : r.size = min r.currentRoundSize (e - r.numberDone)
  crsLe : r.currentRoundSize ≤ M
  crsLo : max (M.tdiv 64 + 1) r.pending.length ≤ r.currentRoundSize
  pendLe : (r.pending.length : Int) ≤ r.size
  startLe : s ≤ r.numberDone
  idx : r.I = r.pending
          ++ irange (r.numberDone + r.pending.length) (r.size.toNat - r.pending.length)
  lenR : r.reserved.length = r.size.toNat
  lenK : r.keep.length = r.size.toNat
  keepLe : ∀ i, r.keep.getD i false = true → r.reserved.getD i false = true
  inRange : ∀ x ∈ r.I, s ≤ x ∧ x < e
  sorted : r.I.Pairwise (fun a b => a < b)
  next : r.nextRoundSize = resize M r.currentRoundSize r.carried.length r.size
  nextHi : r.nextRoundSize ≤ M
  nextLo : max (M.tdiv 64 + 1) r.carried.length ≤ r.nextRoundSize

/-- How a round continues the round before it. -/
def Linked (r r' : RoundRec) : Prop :=
  r'.pending = r.carried
  ∧ r'.numberDone = r.numberDone + (r.size - r.carried.length)
  ∧ r'.currentRoundSize = r.nextRoundSize

/-- Invariant of the `while` loop, at its test, for a run on `[s, e)` with
`maxRoundSize = M ≥ 1`. -/
structure Inv {σ τ : Type} (s e M : Int) (st : Loop σ τ) : Prop where
  keepLen : st.numberKeep = st.Ihold.length
  startLe : s ≤ st.numberDone
  doneLe : st.numberDone + st.numberKeep ≤ e
  sizeLo : max (M.tdiv 64 + 1) st.numberKeep ≤ st.currentRoundSize
  sizeHi : st.currentRoundSize ≤ M
  cover : (resolvedAll st.rounds ++ st.Ihold).Perm
            (irange s (st.numberDone + st.numberKeep - s).toNat)
  sorted : st.Ihold.Pairwise (fun a b => a < b)
  total : st.totalProcessed = (st.rounds.map RoundRec.size).sum
  carriedSum : st.totalProcessed
      = (st.numberDone - s) + (st.rounds.map (fun r => (r.carried.length : Int))).sum
  roundsLen : (st.rounds.length : Int) = st.round
  roundsOK : ∀ r ∈ st.rounds, RoundOK s e M r
  linked : st.rounds.Chain' Linked
  last : ∀ r ∈ st.rounds.getLast?, st.Ihold = r.carried
      ∧ st.numberDone = r.numberDone + (r.size - r.carried.length)
      ∧ st.currentRoundSize = r.nextRoundSize
  first : ∀ r ∈ st.rounds.head?, r.numberDone = s ∧ r.pending = [] ∧ r.currentRoundSize = M
  atStart : st.rounds = [] → st.numberDone = s ∧ st.Ihold = [] ∧ st.currentRoundSize = M
  noLater : st.rounds.Pairwise (fun r r' => ∀ x ∈ r.resolved, x ∉ r'.I)

/-! ## Further notions and example runs -/

/-- The ceiling of `a / b` for `b ≥ 1`, written after the spec's `ceil((e - s) / granularity)`. -/
def ceilDiv (a b : Int) : Int := (a + b - 1) / b

/-- The sentinel of the example runs below: the largest 32-bit `int`. -/
def intMax : Int := 2147483647

/-- The step of the mod-3 scenario: `reserve(i)` reserves register `i mod 3` with `i` and
returns true; `commit(i)` succeeds iff that register holds `i`, releasing it. -/
def mod3Step : Step (Nat → reservation) Unit := resStep intMax (fun i => (i % 3).toNat)

/-- The run of `mod3Step` on `[0, 8)` with granularity 1 and the default ceiling. -/
def mod3Run (hasState : Bool) : Outcome × Loop (Nat → reservation) Unit :=
  speculative_for (wrapIntT intMax) mod3Step () (freshRegisters intMax) 0 8 1 hasState (-1)

/-- A step in which indices 0 and 5 contend for register 0 and every other index has a
register of its own. -/
def pairStep : Step (Nat → reservation) Unit :=
  resStep intMax (fun i => if i = 5 then 0 else i.toNat)

/-- The run of `pairStep` on `[0, 12)` with granularity 2 and the default ceiling. -/
def pairRun : Outcome × Loop (Nat → reservation) Unit :=
  speculative_for (wrapIntT intMax) pairStep () (freshRegisters intMax) 0 12 2 true (-1)

/-- A step in which indices 0 and 4 contend for register 0 and every other index has a
register of its own. -/
def fifthStep : Step (Nat → reservation) Unit :=
  resStep intMax (fun i => if i = 4 then 0 else i.toNat)

/-- The run of `fifthStep` on `[0, 5)` with granularity 1 and the default ceiling: its first
round has 5 slots, of which one is retried. -/
def fifthRun : Outcome × Loop (Nat → reservation) Unit :=
  speculative_for (wrapIntT intMax) fifthStep () (freshRegisters intMax) 0 5 1 true (-1)

/-- All indices passed to `reserve` in the rounds of a history, in the order of the calls. -/
def presentedAll : List RoundRec → List Int
  | [] => []
  | r :: rs => r.I ++ presentedAll rs

/-- A step that never resolves index `j`: every `reserve` returns true, and `commit(i)`
returns true unless `i = j`. -/
def stuckStep (j : Int) : Step Unit Unit where
  reserve := fun _ _ _ => (true, (), ())
  commit := fun i _ _ => (decide (i ≠ j), (), ())

/-- The run of `stuckStep 1` on `[0, 3)` with granularity 1 and ceiling 2. -/
def stuckRun : Outcome × Loop Unit Unit :=
  speculative_for (wrapIntT intMax) (stuckStep 1) () () 0 3 1 true 2

/-- A step whose `reserve` always returns false. -/
def acceptStep : Step Unit Unit where
  reserve := fun _ _ _ => (false, (), ())
  commit := fun _ _ _ => (false, (), ())

/-- The record of the first round of `fifthRun`: 5 slots, index 4 carried over. -/
def fifthRound : RoundRec :=
  { numberDone := 0, pending := [], currentRoundSize := 6, size := 5, I := [0, 1, 2, 3, 4],
    reserved := [true, true, true, true, true], keep := [false, false, false, false, true],
    nextRoundSize := 3 }

/-- The run of `acceptStep` over the two indices 2147483647 and 2147483648, with granularity 1
and the default ceiling, for a 32-bit `intT`. -/
def edgeRun : Outcome × Loop Unit Unit :=
  speculative_for (wrapIntT intMax) acceptStep () () 2147483647 2147483649 1 true (-1)

/-- The run of `stuckStep 2147483648` over the two indices 2147483647 and 2147483648, with
granularity 1 and ceiling 5, for a 32-bit `intT`. -/
def edgeStuckRun : Outcome × Loop Unit Unit :=
  speculative_for (wrapIntT intMax) (stuckStep 2147483648) () () 2147483647 2147483649 1 true 5

/-- The run of `acceptStep` over the 4294967297 indices of `[0, 4294967297)`, one more than a
32-bit `intT` has values, with granularity 4294967298 (so that every round has one slot) and
the default ceiling. -/
def longRun : Outcome × Loop Unit Unit :=
  speculative_for (wrapIntT intMax) acceptStep () () 0 4294967297 4294967298 true (-1)

/-! ## Integer sort (`src/integer_sort.h`)

Conventions.  A buffer (sequence or slice) is the list of its elements; an element is a value,
so `move_uninitialized(a, b)` and `a = b` both copy.  Keys are natural numbers, the values of
an unsigned type of `width` bits (the type of the results of the key function `g`, after
promotion; `size_t` has 64 bits).  `size_t` arithmetic that can wrap is taken modulo `2^64`.
A shift `x >> k` of a key is the mathematical one when `k < width`; with `k ≥ width` it is
undefined in the source language, and a function that evaluates such a shift has no result
(`none`).  The collaborators that are declared outside the given sources (`seq_count_sort_`,
`count_sort`, `delayed_seq`, `reduce` with `minmaxm`, `log2_up`, `slice_eq`) are modelled from
their documented roles. -/

/-- The constant `radix = 8`. -/
def radix : Nat := 8

/-- The constant `max_buckets = 1 << radix`. -/
def max_buckets : Nat := 1 <<< radix

/-- The key `g(In[i])` read by the `get_key` closures (0 outside the buffer, which is never
read). -/
def keyAt {α : Type} (g : α → Nat) (In : List α) (i : Nat) : Nat :=
  match In.get? i with
  | some x => g x
  | none => 0

/-- Modelled from the spec: `delayed_seq<T>(n, f)` (its header is not among the sources), the
sequence `f(0), ..., f(n-1)`. -/
def delayed_seq {β : Type} (n : Nat) (f : Nat → β) : List β := (List.range n).map f

/-- Modelled from the spec: `seq_count_sort_(In, Out, Keys, counts, num_buckets)` (its header
is not among the sources), which stably buckets `In` into `Out` by the keys it is given:
bucket after bucket, the elements whose key is that bucket, in their order in `In`.  The
result is the new content of `Out`. -/
def seq_count_sort_ {α : Type} (In : List α) (Keys : List Nat) (num_buckets : Nat) : List α :=
  (List.range num_buckets).flatMap (fun b => pack In (Keys.map (fun k => decide (k = b))))

/-- Modelled from the spec: `count_sort(In, Out, Keys, num_buckets)` (its header is not among
the sources), the parallel stable bucketing; it returns the bucket offsets, `offsets[i]` being
the number of keys below `i`, for `i = 0, ..., num_buckets`.  The result is the new content of
`Out` with the offsets. -/
def count_sort {α : Type} (In : List α) (Keys : List Nat) (num_buckets : Nat) :
    List α × List Nat :=
  (seq_count_sort_ In Keys num_buckets,
   (List.range (num_buckets + 1)).map (fun i => (Keys.filter (fun k => decide (k < i))).length))

/-- The `while (bits > 0)` loop of `seq_radix_sort_`, on keys of `width` bits.  `In` and `Out`
are the contents of the slices the two handles currently denote (`std::swap(In,Out)` exchanges
the handles); the result is these contents and `swapped` when the loop ends, or `none` when a
round shifts the keys by `bit_offset ≥ width` (the loop is entered with `n > 0` only, so the
shift is evaluated).  `fuel` bounds the number of rounds; `bits` rounds are never needed. -/
def radixLoop {α : Type} (width : Nat) (g : α → Nat) :
    Nat → List α → List α → Nat → Nat → Bool → Option (List α × List α × Bool)
  | 0, In, Out, _, _, swapped => some (In, Out, swapped)
  | fuel + 1, In, Out, bits, bit_offset, swapped =>
    if bits > 0 then
      if bit_offset < width then
        let round_bits := min radix bits
        let num_buckets := 1 <<< round_bits
        let mask := num_buckets - 1
        let get_key := fun i => (keyAt g In i >>> bit_offset) &&& mask
        let Out1 := seq_count_sort_ In (delayed_seq In.length get_key) num_buckets
        radixLoop width g fuel Out1 In (bits - round_bits) (bit_offset + round_bits) (!swapped)
      else none
    else some (In, Out, swapped)

/-- The function `seq_radix_sort_(In, Out, g, bits, inplace)`, a bottom up radix sort, on keys
of `width` bits.  The result is the final contents of the caller's slices `In` and `Out`, or
`none` when a shift is undefined. -/
def seq_radix_sort_ {α : Type} (width : Nat) (In Out : List α) (g : α → Nat) (bits : Nat)
    (inplace : Bool) : Option (List α × List α) :=
  if In.length = 0 then some (In, Out)
  else
    (radixLoop width g bits In Out bits 0 false).map (fun r =>
      let cur := if (inplace && r.2.2) || (!inplace && !r.2.2) then (r.1, r.1) else (r.1, r.2.1)
      if r.2.2 then (cur.2, cur.1) else cur)

/-- The three buffers a sort works on, with `same` telling that `In` and `Tmp` are the same
memory (`slice_eq(In.slice(), Tmp)`), in which case the two contents agree. -/
structure Bufs (α : Type) where
  In : List α
  Out : List α
  Tmp : List α
  same : Bool
deriving DecidableEq, Repr

namespace Bufs

/-- Overwrite `Out`. -/
def setOut {α : Type} (B : Bufs α) (v : List α) : Bufs α := { B with Out := v }

/-- Overwrite `Tmp`, and with it `In` when they are the same memory. -/
def setTmp {α : Type} (B : Bufs α) (v : List α) : Bufs α :=
  { B with Tmp := v, In := if B.same then v else B.In }

/-- Overwrite `In`, and with it `Tmp` when they are the same memory. -/
def setIn {α : Type} (B : Bufs α) (v : List α) : Bufs α :=
  { B with In := v, Tmp := if B.same then v else B.Tmp }

end Bufs

/-- The function `seq_radix_sort(In, Out, Tmp, g, key_bits, inplace)`, on keys of `width`
bits.  `key_bits - 1` is computed in `size_t`.  The result is `none` when a shift is
undefined. -/
def seq_radix_sort {α : Type} (width : Nat) (B : Bufs α) (g : α → Nat) (key_bits : Nat)
    (inplace : Bool) : Option (Bufs α) :=
  let odd := decide ((((key_bits + 2 ^ 64 - 1) % 2 ^ 64) / radix) &&& 1 ≠ 0)
  if B.same then
    if odd then
      let B1 := B.setTmp B.In
      (seq_radix_sort_ width B1.Tmp B1.Out g key_bits false).map
        (fun r => (B1.setTmp r.1).setOut r.2)
    else
      let B1 := B.setOut B.In
      (seq_radix_sort_ width B1.Out B1.Tmp g key_bits true).map
        (fun r => (B1.setOut r.1).setTmp r.2)
  else
    (seq_radix_sort_ width B.In B.Out g key_bits inplace).map
      (fun r => (B.setIn r.1).setOut r.2)

/-- Replace the elements of `l` from position `start` on by those of `v`. -/
def writeSlice {α : Type} (l : List α) (start : Nat) (v : List α) : List α :=
  l.take start ++ v ++ l.drop (start + v.length)

/-- The function `integer_sort_r(In, Out, Tmp, g, key_bits, inplace)`, a top down recursive
radix sort, on keys of `width` bits.  `fuel` bounds the depth of the recursion, in which
`key_bits` decreases by 8.  The result is `none` when a shift is undefined: in the recursive
case the keys of the `n ≥ 2^15` elements are shifted by `shift_bits`. -/
def integer_sort_r {α : Type} (width : Nat) (g : α → Nat) :
    Nat → Bufs α → Nat → Bool → Option (Bufs α)
  | fuel, B, key_bits, inplace =>
    if key_bits = 0 then
      if !inplace then some (B.setOut B.In) else some B
    else if B.In.length < 1 <<< 15 then
      seq_radix_sort width B g key_bits inplace
    else if key_bits ≤ radix then
      let num_buckets := 1 <<< key_bits
      let mask := num_buckets - 1
      let B1 := B.setOut
        (count_sort B.In (delayed_seq B.In.length (fun i => keyAt g B.In i &&& mask))
          num_buckets).1
      if inplace then some (B1.setIn B1.Out) else some B1
    else
      match fuel with
      | 0 => some B
      | fuel + 1 =>
        let bits := 8
        let shift_bits := key_bits - bits
        let buckets := 1 <<< bits
        let mask := buckets - 1
        if shift_bits < width then
          let cs := count_sort B.In
            (delayed_seq B.In.length (fun i => (keyAt g B.In i >>> shift_bits) &&& mask))
            buckets
          parallel_for 0 buckets
            (fun i (acc : Option (Bufs α)) =>
              acc.bind (fun B2 =>
                let start := cs.2.getD i 0
                let stop := cs.2.getD (i + 1) 0
                let a := (B2.Out.drop start).take (stop - start)
                let b := (B2.Tmp.drop start).take (stop - start)
                (integer_sort_r width g fuel { In := a, Out := b, Tmp := a, same := true }
                  shift_bits (!inplace)).map
                  (fun r =>
                    (B2.setOut (writeSlice B2.Out start r.In)).setTmp
                      (writeSlice B2.Tmp start r.Out))))
            (some (B.setOut cs.1))
        else none

/-- Modelled from the spec: `reduce(keys, minmaxm<size_t>())` (its headers are not among the
sources), the minimum and the maximum of the keys, from the identity
`(max size_t, 0)`. -/
def minmax (keys : List Nat) : Nat × Nat :=
  keys.foldl (fun acc k => (min acc.1 k, max acc.2 k)) (2 ^ 64 - 1, 0)

/-- The loop of `log2_up`: shift `b` right until it is zero, counting the shifts. -/
def log2_up_loop : Nat → Nat → Nat → Nat
  | 0, _, a => a
  | fuel + 1, b, a => if b > 0 then log2_up_loop fuel (b >>> 1) (a + 1) else a

/-- Modelled from the spec: `log2_up(i)` (its header is not among the sources), the base 2
logarithm rounded up, on `size_t`. -/
def log2_up (i : Nat) : Nat := log2_up_loop 64 ((i + 2 ^ 64 - 1) % 2 ^ 64) 0

/-- The function `integer_sort_(In, Out, Tmp, g, key_bits, inplace)`, on keys of `width`
bits.  `inIsOut` is `slice_eq(In.slice(), Out)`, on which the function aborts.  The shifted
key `g(a) - min_val` is a `size_t`, so it has `max width 64` bits.  The result is `none` when
the function aborts or a shift is undefined. -/
def integer_sort_ {α : Type} (width : Nat) (B : Bufs α) (inIsOut : Bool) (g : α → Nat)
    (key_bits : Nat) (inplace : Bool) : Option (Bufs α) :=
  if inIsOut then none
  else if key_bits = 0 then
    let mm := minmax (delayed_seq B.In.length (fun i => keyAt g B.In i))
    let min_val := mm.1
    let max_val := mm.2
    let key_bits1 := log2_up ((max_val + 2 ^ 64 - min_val + 1) % 2 ^ 64)
    if min_val > max_val / 4 then
      integer_sort_r (max width 64) (fun a => (g a + 2 ^ 64 - min_val) % 2 ^ 64) key_bits1 B
        key_bits1 inplace
    else integer_sort_r width g key_bits1 B key_bits1 inplace
  else integer_sort_r width g key_bits B key_bits inplace

/-- The function `integer_sort(In, g, key_bits)`, on keys of `width` bits: `Out` and `Tmp` are
fresh buffers of the length of `In`, whose unspecified initial contents are `out0` and `tmp0`;
the result is `Out`. -/
def integer_sort {α : Type} (width : Nat) (In : List α) (g : α → Nat) (key_bits : Nat)
    (out0 tmp0 : List α) : Option (List α) :=
  (integer_sort_ width { In := In, Out := out0, Tmp := tmp0, same := false } false g key_bits
    false).map (fun B => B.Out)

/-- The function `integer_sort_inplace(In, g, key_bits)`, on keys of `width` bits: `In` is
passed as `Tmp` too; the result is `In`. -/
def integer_sort_inplace {α : Type} (width : Nat) (In : List α) (g : α → Nat) (key_bits : Nat)
    (tmp0 : List α) : Option (List α) :=
  (integer_sort_ width { In := In, Out := tmp0, Tmp := In, same := true } false g key_bits
    true).map (fun B => B.In)

/-- A list `ys` is the stable sort of `xs` by `key`: a rearrangement of `xs` in non-decreasing
order of the keys in which the elements of any one key keep their order. -/
def IsStableSortBy {α : Type} (key : α → Nat) (xs ys : List α) : Prop :=
  ys.Perm xs ∧ ys.Pairwise (fun a b => key a ≤ key b)
    ∧ ∀ k, ys.filter (fun x => decide (key x = k)) = xs.filter (fun x => decide (key x = k))

/-! ## The contract of a step

The steps are not part of the source of the driver.  The comparison of the driver with the
unbatched loop is made for the steps that keep the contract the driver relies on, stated here
for steps whose resources are reservation registers. -/

theorem write_min_lt (a b : Int) : write_min a b (fun x y => decide (x < y)) = min a b := by
  unfold write_min
  by_cases h : b < a
  · simp [h, min_eq_right (le_of_lt h)]
  · simp [h, min_eq_left (not_lt.mp h)]

theorem reserve_r (x : reservation) (i : Int) : (x.reserve i).r = min x.r i :=
  write_min_lt x.r i

theorem foldl_reserve_r (is : List Int) : ∀ x : reservation,
    (is.foldl reservation.reserve x).r = is.foldl min x.r := by
  induction is with
  | nil => intro x; rfl
  | cons i is ih => intro x; simp only [List.foldl_cons]; rw [ih, reserve_r]

theorem foldl_min_le (is : List Int) : ∀ a : Int, is.foldl min a ≤ a := by
  induction is with
  | nil => intro a; exact le_refl a
  | cons i is ih => intro a; exact le_trans (ih (min a i)) (min_le_left a i)

theorem foldl_min_le_mem (is : List Int) : ∀ a : Int, ∀ j ∈ is, is.foldl min a ≤ j := by
  induction is with
  | nil => intro a j hj; cases hj
  | cons i is ih =>
    intro a j hj
    rcases List.mem_cons.mp hj with h | h
    · subst h; exact le_trans (foldl_min_le is (min a j)) (min_le_right a j)
    · exact ih (min a i) j h

theorem foldl_min_mem (is : List Int) : ∀ a : Int, is.foldl min a = a ∨ is.foldl min a ∈ is := by
  induction is with
  | nil => intro a; exact Or.inl rfl
  | cons i is ih =>
    intro a
    rcases ih (min a i) with h | h
    · rcases min_choice a i with h2 | h2
      · left; simp only [List.foldl_cons]; rw [h, h2]
      · right; simp only [List.foldl_cons]; rw [h, h2]; exact List.mem_cons_self i is
    · right; exact List.mem_cons_of_mem i h

theorem foldl_min_perm {is js : List Int} (h : is.Perm js) : ∀ a : Int,
    is.foldl min a = js.foldl min a := by
  induction h with
  | nil => intro a; rfl
  | cons x _ ih => intro a; exact ih (min a x)
  | swap x y l =>
    intro a
    simp only [List.foldl_cons]
    rw [min_assoc, min_comm y x, ← min_assoc]
  | trans _ _ ih1 ih2 => intro a; exact (ih1 a).trans (ih2 a)

/-- C8: `reserve(i)` and `reserveLoc` leave the register holding `min(r, i)`; after any sequence
of `reserve` calls the register holds the minimum of its starting value and the reserved
indices (it is below all of them and equal to one of them), whatever the order of the calls,
and the value after more calls is never above the value observed after fewer. -/
theorem reserve_write_min (x : reservation) (i : Int) (is js post : List Int) :
    (x.reserve i).r = min x.r i
    ∧ reserveLoc x.r i = min x.r i
    ∧ (is.foldl reservation.reserve x).r ≤ x.r
    ∧ (∀ j ∈ is, (is.foldl reservation.reserve x).r ≤ j)
    ∧ ((is.foldl reservation.reserve x).r = x.r ∨ (is.foldl reservation.reserve x).r ∈ is)
    ∧ (is.Perm js → is.foldl reservation.reserve x = js.foldl reservation.reserve x)
    ∧ ((is ++ post).foldl reservation.reserve x).r ≤ (is.foldl reservation.reserve x).r := by
  refine ⟨reserve_r x i, write_min_lt x.r i, ?_, ?_, ?_, ?_, ?_⟩
  · rw [foldl_reserve_r]; exact foldl_min_le is x.r
  · rw [foldl_reserve_r]; exact foldl_min_le_mem is x.r
  · rw [foldl_reserve_r]; exact foldl_min_mem is x.r
  · intro h
    have h1 := foldl_reserve_r is x
    have h2 := foldl_reserve_r js x
    rw [foldl_min_perm h] at h1
    cases hx : is.foldl reservation.reserve x
    cases hy : js.foldl reservation.reserve x
    rw [hx] at h1; rw [hy] at h2
    simp only at h1 h2
    rw [h1, h2]
  · rw [List.foldl_append, foldl_reserve_r post]
    exact foldl_min_le post _

/-- C8, at a concrete register: reserving 7, 3, 9 in either order from an unreserved register
(sentinel 100) leaves 3. -/
theorem reserve_write_min_witness :
    ([7, 3, 9].foldl reservation.reserve (reservation.new 100)).r = 3
    ∧ [7, 3, 9].foldl reservation.reserve (reservation.new 100)
        = [9, 7, 3].foldl reservation.reserve (reservation.new 100) :=
  ⟨by decide,
   (reserve_write_min (reservation.new 100) 7 [7, 3, 9] [9, 7, 3] []).2.2.2.2.2.1 (by decide)⟩

/-- C9: `checkReset(i)` returns what `check(i)` returns on the state before the call; when it
returns true the register is left at the sentinel (so `reserved()` is false), and when it
returns false the register is unchanged. -/
theorem checkReset_spec (max_int : Int) (x : reservation) (i : Int) :
    (reservation.checkReset max_int x i).1 = x.check i
    ∧ ((reservation.checkReset max_int x i).1 = true →
        (reservation.checkReset max_int x i).2.r = max_int
        ∧ reservation.reserved max_int (reservation.checkReset max_int x i).2 = false)
    ∧ ((reservation.checkReset max_int x i).1 = false →
        (reservation.checkReset max_int x i).2 = x) := by
  unfold reservation.checkReset reservation.check reservation.reserved
  by_cases h : x.r = i <;> simp [h]

/-- C9, at concrete registers: a register holding 4 (sentinel 100) is released by
`checkReset(4)`. -/
theorem checkReset_spec_witness :
    (reservation.checkReset 100 ⟨4⟩ 4).1 = true ∧ (reservation.checkReset 100 ⟨4⟩ 4).2.r = 100
    ∧ reservation.reserved 100 (reservation.checkReset 100 ⟨4⟩ 4).2 = false :=
  ⟨by decide, (checkReset_spec 100 ⟨4⟩ 4).2.1 (by decide)⟩
/-! ## Compaction and the two loops of a round -/

theorem pack_nil_left {α : Type} (bs : List Bool) : pack ([] : List α) bs = [] := by
  cases bs <;> rfl

theorem pack_perm {α : Type} : ∀ (xs : List α) (bs : List Bool), xs.length = bs.length →
    (pack xs (bs.map (fun b => !b)) ++ pack xs bs).Perm xs
  | [], bs, _ => by simp [pack_nil_left]
  | x :: xs, [], h => by simp at h
  | x :: xs, b :: bs, h => by
    have ih := pack_perm xs bs (by simpa using h)
    cases b
    · simpa [pack] using ih
    · simp only [pack, List.map_cons, Bool.not_true, if_true]
      exact (List.perm_middle).trans (List.Perm.cons x ih)

theorem pack_sublist {α : Type} : ∀ (xs : List α) (bs : List Bool), (pack xs bs).Sublist xs
  | [], bs => by simp [pack_nil_left]
  | x :: xs, [] => by simp [pack]
  | x :: xs, b :: bs => by
    cases b
    · simpa [pack] using (pack_sublist xs bs).cons x
    · simpa [pack] using (pack_sublist xs bs)

theorem parallel_for_zero {α : Type} (f : Nat → α → α) (a : α) : parallel_for 0 0 f a = a := rfl

theorem parallel_for_succ {α : Type} (n : Nat) (f : Nat → α → α) (a : α) :
    parallel_for 0 (n + 1) f a = f n (parallel_for 0 n f a) := by
  simp only [parallel_for, Nat.sub_zero, ← List.range_eq_range', List.range_succ,
    List.foldl_append, List.foldl_cons, List.foldl_nil]

theorem reservePhase_succ {σ τ : Type} (cv : Int → Int) (S : Step σ τ) (hasState : Bool) (Ihold : List Int)
    (numberKeep numberDone : Int) (n : Nat) (m : Mem σ τ) :
    reservePhase cv S hasState Ihold numberKeep numberDone (n + 1) m =
      ((reservePhase cv S hasState Ihold numberKeep numberDone n m).1
          ++ [slotIndex cv Ihold numberKeep numberDone n],
       (reservePhase cv S hasState Ihold numberKeep numberDone n m).2.1
          ++ [(callReserve S hasState n (slotIndex cv Ihold numberKeep numberDone n)
                (reservePhase cv S hasState Ihold numberKeep numberDone n m).2.2).1],
       (callReserve S hasState n (slotIndex cv Ihold numberKeep numberDone n)
                (reservePhase cv S hasState Ihold numberKeep numberDone n m).2.2).2) := by
  simp only [reservePhase, parallel_for_succ]

theorem reservePhase_fst {σ τ : Type} (cv : Int → Int) (S : Step σ τ) (hasState : Bool) (Ihold : List Int)
    (numberKeep numberDone : Int) (n : Nat) (m : Mem σ τ) :
    (reservePhase cv S hasState Ihold numberKeep numberDone n m).1
      = (List.range n).map (slotIndex cv Ihold numberKeep numberDone) := by
  induction n with
  | zero => simp [reservePhase, parallel_for_zero]
  | succ n ih => rw [reservePhase_succ cv]; simp [ih, List.range_succ]

theorem reservePhase_keep_length {σ τ : Type} (cv : Int → Int) (S : Step σ τ) (hasState : Bool)
    (Ihold : List Int) (numberKeep numberDone : Int) (n : Nat) (m : Mem σ τ) :
    (reservePhase cv S hasState Ihold numberKeep numberDone n m).2.1.length = n := by
  induction n with
  | zero => simp [reservePhase, parallel_for_zero]
  | succ n ih => rw [reservePhase_succ cv]; simp [ih]

theorem commitPhase_succ {σ τ : Type} (S : Step σ τ) (hasState : Bool) (I : List Int)
    (keep : List Bool) (n : Nat) (m : Mem σ τ) :
    commitPhase S hasState I keep (n + 1) m =
      if keep.getD n false then
        ((commitPhase S hasState I keep n m).1
            ++ [!(callCommit S hasState n (I.getD n 0) (commitPhase S hasState I keep n m).2).1],
         (callCommit S hasState n (I.getD n 0) (commitPhase S hasState I keep n m).2).2)
      else ((commitPhase S hasState I keep n m).1 ++ [false],
            (commitPhase S hasState I keep n m).2) := by
  simp only [commitPhase, parallel_for_succ]

theorem commitPhase_length {σ τ : Type} (S : Step σ τ) (hasState : Bool) (I : List Int)
    (keep : List Bool) (n : Nat) (m : Mem σ τ) :
    (commitPhase S hasState I keep n m).1.length = n := by
  induction n with
  | zero => simp [commitPhase, parallel_for_zero]
  | succ n ih => rw [commitPhase_succ]; split <;> simp [ih]

/-! ## The index list of a round -/

theorem map_getD_range (l : List Int) :
    (List.range l.length).map (fun i => l.getD i 0) = l := by
  apply List.ext_getElem
  · simp
  · intro i h1 h2
    simp [List.getD_eq_getElem?_getD, List.getElem?_eq_getElem h2]

theorem slotIndex_map (Ihold : List Int) (numberKeep numberDone : Int) (n : Nat)
    (hK : numberKeep = Ihold.length) (hn : Ihold.length ≤ n) :
    (List.range n).map (slotIndex id Ihold numberKeep numberDone)
      = Ihold ++ irange (numberDone + numberKeep) (n - Ihold.length) := by
  obtain ⟨k, rfl⟩ := Nat.exists_eq_add_of_le hn
  rw [List.range_add, List.map_append, Nat.add_sub_cancel_left]
  congr 1
  · conv_rhs => rw [← map_getD_range Ihold]
    apply List.map_congr_left
    intro i hi
    have : i < Ihold.length := List.mem_range.mp hi
    simp [slotIndex, hK, this]
  · rw [List.map_map, irange]
    apply List.map_congr_left
    intro j _
    simp [slotIndex, hK]
    omega

theorem irange_length (a : Int) (n : Nat) : (irange a n).length = n := by simp [irange]

theorem mem_irange {a : Int} {n : Nat} {x : Int} : x ∈ irange a n ↔ a ≤ x ∧ x < a + n := by
  simp only [irange, List.mem_map, List.mem_range]
  constructor
  · rintro ⟨j, hj, rfl⟩; omega
  · rintro ⟨h1, h2⟩
    refine ⟨(x - a).toNat, ?_, ?_⟩ <;> omega

theorem irange_append (a : Int) (n k : Nat) :
    irange a (n + k) = irange a n ++ irange (a + n) k := by
  simp only [irange, List.range_add, List.map_append, List.map_map]
  congr 1
  apply List.map_congr_left
  intro j _
  simp [Int.add_assoc]

theorem irange_nodup (a : Int) (n : Nat) : (irange a n).Nodup := by
  apply List.Nodup.map _ (List.nodup_range n)
  intro i j h
  simpa using h

theorem irange_sorted (a : Int) (n : Nat) : (irange a n).Pairwise (· < ·) := by
  rw [irange, List.pairwise_map]
  exact (List.pairwise_lt_range n).imp (by intro i j h; omega)
/-! ## What one round does to the driver variables -/

theorem commitPhase_getD {σ τ : Type} (S : Step σ τ) (hasState : Bool) (I : List Int)
    (keep : List Bool) (n : Nat) (m : Mem σ τ) (i : Nat)
    (h : (commitPhase S hasState I keep n m).1.getD i false = true) :
    keep.getD i false = true := by
  induction n with
  | zero => simp [commitPhase, parallel_for_zero] at h
  | succ n ih =>
    rw [commitPhase_succ] at h
    have hl := commitPhase_length S hasState I keep n m
    rcases Nat.lt_trichotomy i n with hi | hi | hi
    · apply ih
      split at h <;>
        simpa [List.getD_eq_getElem?_getD, List.getElem?_append_left (hl ▸ hi)] using h
    · subst hi
      split at h
      · assumption
      · rw [List.getD_eq_getElem?_getD, List.getElem?_append_right (by omega)] at h
        simp [hl] at h
    · split at h <;>
      · rw [List.getD_eq_getElem?_getD, List.getElem?_append_right (by omega)] at h
        rw [List.getElem?_eq_none (by simp; omega)] at h
        simp at h

/-- The effect of one round, with the two loops summarised by the flags they produce. -/
theorem roundBody_eq {σ τ : Type} (S : Step σ τ) (hasState : Bool) (e M : Int) (st : Loop σ τ)
    (hK : st.numberKeep = st.Ihold.length)
    (hle : (st.Ihold.length : Int) ≤ min st.currentRoundSize (e - st.numberDone)) :
    ∃ (reserved keep : List Bool) (mem : Mem σ τ),
      reserved.length = (min st.currentRoundSize (e - st.numberDone)).toNat
      ∧ keep.length = (min st.currentRoundSize (e - st.numberDone)).toNat
      ∧ (∀ i, keep.getD i false = true → reserved.getD i false = true)
      ∧ roundBody id S hasState e M st =
        { mem := mem
          Ihold := pack (st.Ihold ++ irange (st.numberDone + st.numberKeep)
                    ((min st.currentRoundSize (e - st.numberDone)).toNat - st.Ihold.length)) keep
          round := st.round
          numberDone := st.numberDone + (min st.currentRoundSize (e - st.numberDone)
            - ((pack (st.Ihold ++ irange (st.numberDone + st.numberKeep)
                ((min st.currentRoundSize (e - st.numberDone)).toNat - st.Ihold.length))
                  keep).length : Int))
          numberKeep := ((pack (st.Ihold ++ irange (st.numberDone + st.numberKeep)
                ((min st.currentRoundSize (e - st.numberDone)).toNat - st.Ihold.length))
                  keep).length : Int)
          totalProcessed := st.totalProcessed + min st.currentRoundSize (e - st.numberDone)
          currentRoundSize := resize M st.currentRoundSize
            ((pack (st.Ihold ++ irange (st.numberDone + st.numberKeep)
                ((min st.currentRoundSize (e - st.numberDone)).toNat - st.Ihold.length))
                  keep).length : Int) (min st.currentRoundSize (e - st.numberDone))
          rounds := st.rounds ++ [{
            numberDone := st.numberDone, pending := st.Ihold,
            currentRoundSize := st.currentRoundSize,
            size := min st.currentRoundSize (e - st.numberDone),
            I := st.Ihold ++ irange (st.numberDone + st.numberKeep)
                    ((min st.currentRoundSize (e - st.numberDone)).toNat - st.Ihold.length),
            reserved := reserved, keep := keep,
            nextRoundSize := resize M st.currentRoundSize
              ((pack (st.Ihold ++ irange (st.numberDone + st.numberKeep)
                ((min st.currentRoundSize (e - st.numberDone)).toNat - st.Ihold.length))
                  keep).length : Int) (min st.currentRoundSize (e - st.numberDone)) }] } := by
  have hI := reservePhase_fst id S hasState st.Ihold st.numberKeep st.numberDone
    (min st.currentRoundSize (e - st.numberDone)).toNat st.mem
  rw [slotIndex_map st.Ihold st.numberKeep st.numberDone _ hK (by omega)] at hI
  have hL := reservePhase_keep_length id S hasState st.Ihold st.numberKeep st.numberDone
    (min st.currentRoundSize (e - st.numberDone)).toNat st.mem
  have hR : roundBody id S hasState e M st = roundBody id S hasState e M st := rfl
  conv at hR => rhs; simp only [roundBody]
  generalize reservePhase id S hasState st.Ihold st.numberKeep st.numberDone
    (min st.currentRoundSize (e - st.numberDone)).toNat st.mem = p1 at hI hL hR
  refine ⟨p1.2.1, (commitPhase S hasState p1.1 p1.2.1
      (min st.currentRoundSize (e - st.numberDone)).toNat p1.2.2).1,
    (commitPhase S hasState p1.1 p1.2.1
      (min st.currentRoundSize (e - st.numberDone)).toNat p1.2.2).2,
    hL, commitPhase_length .., ?_, ?_⟩
  · intro i hi
    exact commitPhase_getD _ _ _ _ _ _ i hi
  · rw [hR, hI]
/-! ## The while loop -/

theorem bump_mem {σ τ : Type} (st : Loop σ τ) : (bump st).mem = st.mem := rfl
theorem bump_Ihold {σ τ : Type} (st : Loop σ τ) : (bump st).Ihold = st.Ihold := rfl
theorem bump_round {σ τ : Type} (st : Loop σ τ) : (bump st).round = st.round + 1 := rfl
theorem bump_numberDone {σ τ : Type} (st : Loop σ τ) : (bump st).numberDone = st.numberDone := rfl
theorem bump_numberKeep {σ τ : Type} (st : Loop σ τ) : (bump st).numberKeep = st.numberKeep := rfl
theorem bump_totalProcessed {σ τ : Type} (st : Loop σ τ) :
    (bump st).totalProcessed = st.totalProcessed := rfl
theorem bump_currentRoundSize {σ τ : Type} (st : Loop σ τ) :
    (bump st).currentRoundSize = st.currentRoundSize := rfl
theorem bump_rounds {σ τ : Type} (st : Loop σ τ) : (bump st).rounds = st.rounds := rfl

theorem whileLoop_fuel {σ τ : Type} (S : Step σ τ) (hasState : Bool) (e mt M : Int) :
    ∀ (fuel : Nat) (st : Loop σ τ), (mt + 1 - st.round).toNat + 1 ≤ fuel →
      (whileLoop id S hasState e mt M fuel st).1 ≠ Outcome.outOfFuel := by
  intro fuel
  induction fuel with
  | zero => intro st h; omega
  | succ n ih =>
    intro st h
    unfold whileLoop
    split
    · split
      · simp
      · split
        · simp
        · apply ih
          have : (roundBody id S hasState e M (bump st)).round = st.round + 1 := rfl
          rw [this]
          omega
    · simp

/-- Induction principle for the loop: a property that holds on entry and is preserved by every
executed round holds of the state in which the loop stops, and the way the loop ends is read
off from that state. -/
theorem whileLoop_spec {σ τ : Type} (S : Step σ τ) (hasState : Bool) (e mt M : Int)
    (P : Loop σ τ → Prop)
    (hstep : ∀ st, P st → st.numberDone < e → st.round ≤ mt →
      0 ≤ min st.currentRoundSize (e - st.numberDone) → P (roundBody id S hasState e M (bump st))) :
    ∀ (fuel : Nat) (st : Loop σ τ), P st → ∃ st', P st' ∧
      ((whileLoop id S hasState e mt M fuel st = (Outcome.returned st'.totalProcessed, st')
          ∧ e ≤ st'.numberDone)
      ∨ (whileLoop id S hasState e mt M fuel st = (Outcome.aborted, bump st')
          ∧ st'.numberDone < e ∧ mt < st'.round)
      ∨ (whileLoop id S hasState e mt M fuel st = (Outcome.undefined, bump st')
          ∧ st'.numberDone < e ∧ min st'.currentRoundSize (e - st'.numberDone) < 0)
      ∨ (whileLoop id S hasState e mt M fuel st = (Outcome.outOfFuel, st'))) := by
  intro fuel
  induction fuel with
  | zero => intro st h; exact ⟨st, h, Or.inr (Or.inr (Or.inr rfl))⟩
  | succ n ih =>
    intro st h
    unfold whileLoop
    by_cases h1 : st.numberDone < e
    · rw [if_pos h1]
      by_cases h2 : st.round > mt
      · rw [if_pos h2]; exact ⟨st, h, Or.inr (Or.inl ⟨rfl, h1, h2⟩)⟩
      · rw [if_neg h2]
        by_cases h3 : min st.currentRoundSize (e - st.numberDone) < 0
        · rw [if_pos h3]; exact ⟨st, h, Or.inr (Or.inr (Or.inl ⟨rfl, h1, h3⟩))⟩
        · rw [if_neg h3]
          exact ih _ (hstep st h h1 (not_lt.mp h2) (not_lt.mp h3))
    · rw [if_neg h1]; exact ⟨st, h, Or.inl ⟨rfl, not_lt.mp h1⟩⟩
/-! ## Preservation of the invariant -/

theorem resolvedAll_append (rs : List RoundRec) (r : RoundRec) :
    resolvedAll (rs ++ [r]) = resolvedAll rs ++ r.resolved := by
  induction rs with
  | nil => simp [resolvedAll]
  | cons a rs ih => simp [resolvedAll, ih]

theorem resize_bounds (M crs k size : Int) (hM : 1 ≤ M) (h1 : M.tdiv 64 + 1 ≤ crs)
    (h2 : crs ≤ M) (h3 : 0 ≤ k) (h4 : k ≤ crs) :
    max (M.tdiv 64 + 1) k ≤ resize M crs k size ∧ resize M crs k size ≤ M := by
  have e1 : M.tdiv 64 = M / 64 := Int.tdiv_eq_ediv (by omega) (by omega)
  have e2 : crs.tdiv 2 = crs / 2 := Int.tdiv_eq_ediv (by omega) (by omega)
  rw [e1] at h1 ⊢
  unfold resize
  rw [e1, e2]
  split
  · omega
  · split <;> omega

theorem pack_length_le {α : Type} (xs : List α) (bs : List Bool) :
    (pack xs bs).length ≤ xs.length := (pack_sublist xs bs).length_le

theorem mem_of_mem_pack {α : Type} {xs : List α} {bs : List Bool} {x : α}
    (h : x ∈ pack xs bs) : x ∈ xs := (pack_sublist xs bs).subset h
theorem Inv.mem_hold_lt {σ τ : Type} {s e M : Int} {st : Loop σ τ} (h : Inv s e M st)
    {x : Int} (hx : x ∈ st.Ihold) : s ≤ x ∧ x < st.numberDone + st.numberKeep := by
  have h1 : x ∈ resolvedAll st.rounds ++ st.Ihold := List.mem_append_right _ hx
  have h2 := (h.cover.mem_iff).mp h1
  have h3 := mem_irange.mp h2
  have := h.startLe
  have := h.keepLen
  omega

theorem Inv.mem_resolved_lt {σ τ : Type} {s e M : Int} {st : Loop σ τ} (h : Inv s e M st)
    {x : Int} (hx : x ∈ resolvedAll st.rounds) :
    s ≤ x ∧ x < st.numberDone + st.numberKeep ∧ x ∉ st.Ihold := by
  have h1 : x ∈ resolvedAll st.rounds ++ st.Ihold := List.mem_append_left _ hx
  have h2 := (h.cover.mem_iff).mp h1
  have h3 := mem_irange.mp h2
  have hnd : (resolvedAll st.rounds ++ st.Ihold).Nodup :=
    (h.cover.nodup_iff).mpr (irange_nodup _ _)
  have := h.startLe
  have := h.keepLen
  refine ⟨h3.1, by omega, ?_⟩
  intro hx2
  exact (List.nodup_append.mp hnd).2.2 hx hx2

theorem mem_resolvedAll {rs : List RoundRec} {x : Int} :
    x ∈ resolvedAll rs ↔ ∃ r ∈ rs, x ∈ r.resolved := by
  induction rs with
  | nil => simp [resolvedAll]
  | cons a rs ih => simp [resolvedAll, ih]

theorem Inv.init {σ τ : Type} (step : τ) (shared : σ) (s e g : Int) (hasState : Bool)
    (hse : s ≤ e) (hM : 1 ≤ maxRoundSizeOf s e g) :
    Inv s e (maxRoundSizeOf s e g) (initLoop step shared s e g hasState) := by
  have e1 : (maxRoundSizeOf s e g).tdiv 64 = maxRoundSizeOf s e g / 64 :=
    Int.tdiv_eq_ediv (by omega) (by omega)
  refine { keepLen := rfl, startLe := le_refl s, doneLe := ?_, sizeLo := ?_, sizeHi := le_refl _,
           cover := ?_, sorted := List.Pairwise.nil, total := rfl, carriedSum := ?_,
           roundsLen := rfl, roundsOK := ?_, linked := List.chain'_nil, last := ?_, first := ?_,
           atStart := fun _ => ⟨rfl, rfl, rfl⟩, noLater := List.Pairwise.nil }
  · show s + 0 ≤ e
    omega
  · show max ((maxRoundSizeOf s e g).tdiv 64 + 1) 0 ≤ maxRoundSizeOf s e g
    rw [e1]; omega
  · show (resolvedAll [] ++ []).Perm (irange s (s + 0 - s).toNat)
    simp [resolvedAll, irange]
  · show (0 : Int) = (s - s) + ([] : List Int).sum
    simp
  · intro r hr; cases hr
  · intro r hr; cases hr
  · intro r hr; cases hr
theorem Inv.step {σ τ : Type} (S : Step σ τ) (hasState : Bool) (s e M : Int) (st : Loop σ τ)
    (hM : 1 ≤ M) (h : Inv s e M st) (hlt : st.numberDone < e) :
    Inv s e M (roundBody id S hasState e M (bump st)) := by
  have hK := h.keepLen
  have e1 : M.tdiv 64 = M / 64 := Int.tdiv_eq_ediv (by omega) (by omega)
  have hlo := h.sizeLo
  have hhi := h.sizeHi
  have hde := h.doneLe
  have hsl := h.startLe
  have hsz1 : 1 ≤ min st.currentRoundSize (e - st.numberDone) := by omega
  have hLsz : (st.Ihold.length : Int) ≤ min st.currentRoundSize (e - st.numberDone) := by omega
  obtain ⟨reserved, keep, mem, hR, hKp, hKR, heq⟩ := roundBody_eq S hasState e M (bump st) hK hLsz
  simp only [bump_mem, bump_Ihold, bump_round, bump_numberDone, bump_numberKeep,
    bump_totalProcessed, bump_currentRoundSize, bump_rounds] at heq hR hKp
  rw [heq]
  clear heq
  generalize hsz : min st.currentRoundSize (e - st.numberDone) = sz at *
  have hIlen : (st.Ihold ++ irange (st.numberDone + st.numberKeep)
      (sz.toNat - st.Ihold.length)).length = sz.toNat := by
    simp [irange_length]; omega
  have hIin : ∀ x ∈ st.Ihold ++ irange (st.numberDone + st.numberKeep)
      (sz.toNat - st.Ihold.length), s ≤ x ∧ x < e := by
    intro x hx
    rcases List.mem_append.mp hx with hx | hx
    · have := h.mem_hold_lt hx; omega
    · have := mem_irange.mp hx; omega
  have hIsorted : (st.Ihold ++ irange (st.numberDone + st.numberKeep)
      (sz.toNat - st.Ihold.length)).Pairwise (fun a b => a < b) := by
    rw [List.pairwise_append]
    refine ⟨h.sorted, irange_sorted _ _, ?_⟩
    intro a ha b hb
    have := h.mem_hold_lt ha
    have := mem_irange.mp hb
    omega
  generalize hI : st.Ihold ++ irange (st.numberDone + st.numberKeep)
      (sz.toNat - st.Ihold.length) = I at *
  have hHle : ((pack I keep).length : Int) ≤ sz := by
    have := pack_length_le I keep
    omega
  have hrb := resize_bounds M st.currentRoundSize (pack I keep).length sz hM
    (by omega) hhi (by omega) (by omega)
  have hperm := pack_perm I keep (by omega)
  refine { keepLen := rfl, startLe := ?_, doneLe := ?_, sizeLo := hrb.1, sizeHi := hrb.2,
           cover := ?_, sorted := ?_, total := ?_, carriedSum := ?_,
           roundsLen := ?_, roundsOK := ?_, linked := ?_, last := ?_, first := ?_,
           atStart := ?_, noLater := ?_ }
  · show s ≤ st.numberDone + (sz - (pack I keep).length)
    omega
  · show st.numberDone + (sz - (pack I keep).length) + (pack I keep).length ≤ e
    omega
  · show (resolvedAll (st.rounds ++ [_]) ++ pack I keep).Perm
      (irange s (st.numberDone + (sz - (pack I keep).length) + (pack I keep).length - s).toNat)
    rw [resolvedAll_append, List.append_assoc]
    have hc := h.cover
    have e2 : (st.numberDone + (sz - (pack I keep).length) + (pack I keep).length - s).toNat
        = (st.numberDone + st.numberKeep - s).toNat + (sz.toNat - st.Ihold.length) := by omega
    rw [e2, irange_append]
    have e3 : s + ((st.numberDone + st.numberKeep - s).toNat : Int)
        = st.numberDone + st.numberKeep := by omega
    rw [e3]
    have h5 : (resolvedAll st.rounds ++ I).Perm
        (irange s (st.numberDone + st.numberKeep - s).toNat
          ++ irange (st.numberDone + st.numberKeep) (sz.toNat - st.Ihold.length)) := by
      rw [← hI, ← List.append_assoc]
      exact List.Perm.append_right _ hc
    exact (List.Perm.append_left _ hperm).trans h5
  · exact hIsorted.sublist (pack_sublist I keep)
  · show st.totalProcessed + sz = ((st.rounds ++ [_]).map RoundRec.size).sum
    rw [List.map_append, List.sum_append, ← h.total]
    simp
  · show st.totalProcessed + sz = (st.numberDone + (sz - (pack I keep).length) - s)
      + ((st.rounds ++ [_]).map (fun r : RoundRec => (r.carried.length : Int))).sum
    rw [List.map_append, List.sum_append]
    have := h.carriedSum
    simp only [List.map_cons, List.map_nil, List.sum_cons, List.sum_nil, RoundRec.carried] at this ⊢
    omega
  · show ((st.rounds ++ [_]).length : Int) = st.round + 1
    have := h.roundsLen
    simp
    omega
  · intro r hr
    rcases List.mem_append.mp hr with hr | hr
    · exact h.roundsOK r hr
    · rw [List.mem_singleton] at hr
      subst hr
      refine { sizePos := hsz1, sizeEq := hsz.symm, crsLe := hhi, crsLo := hK ▸ hlo,
               pendLe := hLsz, startLe := hsl,
               idx := ?_, lenR := hR, lenK := hKp, keepLe := hKR, inRange := hIin,
               sorted := hIsorted, next := rfl, nextHi := hrb.2, nextLo := hrb.1 }
      show I = st.Ihold ++ irange (st.numberDone + st.Ihold.length) (sz.toNat - st.Ihold.length)
      rw [← hI, hK]
  · rw [List.chain'_append]
    refine ⟨h.linked, List.chain'_singleton _, ?_⟩
    intro r hr r' hr'
    simp only [List.head?_cons, Option.mem_def, Option.some.injEq] at hr'
    subst hr'
    exact h.last r hr
  · intro r hr
    simp only [List.getLast?_concat, Option.mem_def, Option.some.injEq] at hr
    subst hr
    exact ⟨rfl, rfl, rfl⟩
  · intro r hr
    cases hrs : st.rounds with
    | nil =>
      rw [hrs] at hr
      simp only [List.nil_append, List.head?_cons, Option.mem_def, Option.some.injEq] at hr
      subst hr
      exact h.atStart hrs
    | cons a rs =>
      rw [hrs] at hr
      simp only [List.cons_append, List.head?_cons, Option.mem_def, Option.some.injEq] at hr
      subst hr
      exact h.first a (by rw [hrs]; simp)
  · intro hnil
    simp at hnil
  · rw [List.pairwise_append]
    refine ⟨h.noLater, List.pairwise_singleton _ _, ?_⟩
    intro r hr r' hr'
    rw [List.mem_singleton] at hr'
    subst hr'
    intro x hx
    have hx2 : x ∈ resolvedAll st.rounds := mem_resolvedAll.mpr ⟨r, hr, hx⟩
    have := h.mem_resolved_lt hx2
    show x ∉ I
    rw [← hI]
    intro hx3
    rcases List.mem_append.mp hx3 with hx3 | hx3
    · exact this.2.2 hx3
    · have := mem_irange.mp hx3
      omega

/-! ## Runs of `speculative_for` -/

theorem maxRoundSizeOf_pos (s e g : Int) (hg : 1 ≤ g) (hse : s ≤ e) :
    1 ≤ maxRoundSizeOf s e g := by
  unfold maxRoundSizeOf
  rw [Int.tdiv_eq_ediv (by omega) (by omega)]
  have := Int.ediv_nonneg (show 0 ≤ e - s by omega) (show 0 ≤ g by omega)
  omega

theorem effMaxTries_nonneg (g maxTries : Int) (hg : 1 ≤ g) : 0 ≤ effMaxTries g maxTries := by
  unfold effMaxTries
  split <;> omega

/-- A run with `maxRoundSize ≥ 1` on a range with `s ≤ e` stops in a state satisfying the
invariant, either returning `totalProcessed` with `numberDone = e` reached, or aborting with
`numberDone < e` after `maxTries + 1` rounds. -/
theorem speculative_for_run {σ τ : Type} (S : Step σ τ) (step : τ) (shared : σ)
    (s e g : Int) (hasState : Bool) (maxTries : Int) (hg : g ≠ 0) (hse : s ≤ e)
    (hM : 1 ≤ maxRoundSizeOf s e g) (hmt : -1 ≤ effMaxTries g maxTries) :
    ∃ st : Loop σ τ, Inv s e (maxRoundSizeOf s e g) st
      ∧ st.round ≤ effMaxTries g maxTries + 1
      ∧ ((speculative_for id S step shared s e g hasState maxTries
            = (Outcome.returned st.totalProcessed, st) ∧ e ≤ st.numberDone)
        ∨ (speculative_for id S step shared s e g hasState maxTries = (Outcome.aborted, bump st)
            ∧ st.numberDone < e ∧ effMaxTries g maxTries < st.round)) := by
  have hfuel := whileLoop_fuel S hasState e (effMaxTries g maxTries) (maxRoundSizeOf s e g)
    ((effMaxTries g maxTries + 1).toNat + 1) (initLoop step shared s e g hasState)
    (by show (effMaxTries g maxTries + 1 - 0).toNat + 1 ≤ _; simp)
  obtain ⟨st, ⟨hI, hr⟩, hres⟩ := whileLoop_spec S hasState e (effMaxTries g maxTries)
    (maxRoundSizeOf s e g)
    (fun st => Inv s e (maxRoundSizeOf s e g) st ∧ st.round ≤ effMaxTries g maxTries + 1)
    (by
      intro st hst hlt hle _
      refine ⟨Inv.step S hasState s e _ st hM hst.1 hlt, ?_⟩
      show st.round + 1 ≤ _
      omega)
    ((effMaxTries g maxTries + 1).toNat + 1) (initLoop step shared s e g hasState)
    ⟨Inv.init step shared s e g hasState hse hM, by show (0 : Int) ≤ _; omega⟩
  refine ⟨st, hI, hr, ?_⟩
  unfold speculative_for
  rw [if_neg hg]
  rw [if_neg (by omega)]
  rcases hres with h | h | h | h
  · exact Or.inl h
  · exact Or.inr h
  · exfalso
    have e1 : (maxRoundSizeOf s e g).tdiv 64 = maxRoundSizeOf s e g / 64 :=
      Int.tdiv_eq_ediv (by omega) (by omega)
    have h1 := hI.sizeLo
    have h2 := hI.doneLe
    have h3 := hI.keepLen
    rw [e1] at h1
    omega
  · exfalso
    rw [h] at hfuel
    exact hfuel rfl

theorem speculative_for_returned {σ τ : Type} (S : Step σ τ) (step : τ) (shared : σ)
    (s e g : Int) (hasState : Bool) (maxTries : Int) (hg : 1 ≤ g) (hse : s ≤ e) (n : Int)
    (hret : (speculative_for id S step shared s e g hasState maxTries).1 = Outcome.returned n) :
    Inv s e (maxRoundSizeOf s e g) (speculative_for id S step shared s e g hasState maxTries).2
    ∧ (speculative_for id S step shared s e g hasState maxTries).2.numberDone = e
    ∧ (speculative_for id S step shared s e g hasState maxTries).2.Ihold = []
    ∧ (speculative_for id S step shared s e g hasState maxTries).2.totalProcessed = n := by
  obtain ⟨st, hI, _, h | h⟩ := speculative_for_run S step shared s e g hasState maxTries
    (by omega) hse (maxRoundSizeOf_pos s e g hg hse)
    (by have := effMaxTries_nonneg g maxTries hg; omega)
  · rw [h.1] at hret ⊢
    show Inv s e (maxRoundSizeOf s e g) st ∧ st.numberDone = e ∧ st.Ihold = []
      ∧ st.totalProcessed = n
    have h1 := hI.doneLe
    have h2 := hI.keepLen
    have h3 : st.Ihold.length = 0 := by have := h.2; omega
    simp only [Outcome.returned.injEq] at hret
    exact ⟨hI, by have := h.2; omega, List.length_eq_zero.mp h3, hret⟩
  · rw [h.1] at hret
    cases hret

/-- The history of a run with `granularity ≥ 1` on a range with `s ≤ e`, however it ends. -/
theorem speculative_for_history {σ τ : Type} (S : Step σ τ) (step : τ) (shared : σ)
    (s e g : Int) (hasState : Bool) (maxTries : Int) (hg : 1 ≤ g) (hse : s ≤ e) :
    (∀ r ∈ (speculative_for id S step shared s e g hasState maxTries).2.rounds,
        RoundOK s e (maxRoundSizeOf s e g) r)
    ∧ (speculative_for id S step shared s e g hasState maxTries).2.rounds.Chain' Linked
    ∧ (speculative_for id S step shared s e g hasState maxTries).2.rounds.Pairwise
        (fun r r' => ∀ x ∈ r.resolved, x ∉ r'.I) := by
  obtain ⟨st, hI, _, h | h⟩ := speculative_for_run S step shared s e g hasState maxTries
    (by omega) hse (maxRoundSizeOf_pos s e g hg hse)
    (by have := effMaxTries_nonneg g maxTries hg; omega)
  · rw [h.1]; exact ⟨hI.roundsOK, hI.linked, hI.noLater⟩
  · rw [h.1]; exact ⟨hI.roundsOK, hI.linked, hI.noLater⟩

theorem count_eq_one_of_perm_irange {l : List Int} {a : Int} {n : Nat}
    (h : l.Perm (irange a n)) {i : Int} (h1 : a ≤ i) (h2 : i < a + n) : l.count i = 1 := by
  rw [h.count_eq]
  exact List.count_eq_one_of_mem (irange_nodup a n) (mem_irange.mpr ⟨h1, h2⟩)

theorem pack_resolved_split : ∀ (I : List Int) (reserved keep : List Bool),
    reserved.length = I.length → keep.length = I.length →
    (∀ i, keep.getD i false = true → reserved.getD i false = true) →
    (pack I (keep.map (fun b => !b))).Perm
      (pack I (reserved.map (fun b => !b))
        ++ pack I (List.zipWith (fun a b => a && !b) reserved keep))
  | [], _, _, _, _, _ => by simp [pack_nil_left]
  | x :: I, [], _, h, _, _ => by simp at h
  | x :: I, _ :: _, [], _, h, _ => by simp at h
  | x :: I, a :: reserved, b :: keep, h1, h2, h3 => by
    have ih := pack_resolved_split I reserved keep (by simpa using h1) (by simpa using h2)
      (fun i hi => by simpa using h3 (i + 1) (by simpa using hi))
    have h0 := h3 0
    cases a <;> cases b
    · simpa [pack] using ih
    · simp at h0
    · simp only [pack, List.map_cons, List.zipWith_cons_cons, Bool.not_false, Bool.not_true,
        Bool.and_self, if_true, Bool.false_eq_true, if_false]
      exact (List.Perm.cons x ih).trans List.perm_middle.symm
    · simpa [pack] using ih

/-- With unconverted indices (`toIntT = id`): for `granularity ≥ 1` and `s ≤ e`, when
`speculative_for` returns, the indices resolved over all rounds are exactly those of `[s, e)`, each
resolved once (a slot is resolved when its `reserve` returned false or its `commit` returned true);
the pending list is empty and `numberDone = e`; and every index passed to `reserve` or `commit` lies
in `[s, e)`. -/
theorem wide_cover {σ τ : Type} (S : Step σ τ) (step : τ) (shared : σ)
    (s e g : Int) (hasState : Bool) (maxTries : Int) (hg : 1 ≤ g) (hse : s ≤ e)
    (n : Int) (out : Loop σ τ)
    (hret : speculative_for id S step shared s e g hasState maxTries = (Outcome.returned n, out)) :
    (resolvedAll out.rounds).Perm (irange s (e - s).toNat)
    ∧ (∀ i, s ≤ i → i < e → (resolvedAll out.rounds).count i = 1)
    ∧ (∀ i ∈ resolvedAll out.rounds, s ≤ i ∧ i < e)
    ∧ (∀ r ∈ out.rounds, r.resolved.Perm (pack r.I (r.reserved.map (fun b => !b)) ++ r.committed))
    ∧ out.Ihold = [] ∧ out.numberKeep = 0 ∧ out.numberDone = e
    ∧ (∀ r ∈ out.rounds, ∀ x ∈ r.I, s ≤ x ∧ x < e)
    ∧ (∀ r ∈ out.rounds, ∀ x ∈ r.commitCalls, s ≤ x ∧ x < e) := by
  have h := speculative_for_returned S step shared s e g hasState maxTries hg hse n
    (by rw [hret])
  rw [hret] at h
  obtain ⟨hI, hD, hH, _⟩ := h
  have hc := hI.cover
  have hK := hI.keepLen
  simp only at hD hH hK hc
  rw [hH] at hK hc
  rw [hK, hD] at hc
  simp only [List.append_nil, Int.natCast_zero, List.length_nil, add_zero] at hc hK
  refine ⟨hc, ?_, ?_, ?_, hH, hK, hD, ?_, ?_⟩
  · intro i h1 h2
    exact count_eq_one_of_perm_irange hc h1 (by omega)
  · intro i hi
    have := mem_irange.mp (hc.mem_iff.mp hi)
    omega
  · intro r hr
    have hr := hI.roundsOK r hr
    have hl : r.I.length = r.size.toNat := by
      have := hr.pendLe
      rw [hr.idx, List.length_append, irange_length]; omega
    exact pack_resolved_split r.I r.reserved r.keep (by rw [hr.lenR, hl]) (by rw [hr.lenK, hl])
      hr.keepLe
  · intro r hr
    exact (hI.roundsOK r hr).inRange
  · intro r hr x hx
    exact (hI.roundsOK r hr).inRange x (mem_of_mem_pack hx)
theorem sum_carried_nonneg (rs : List RoundRec) :
    0 ≤ (rs.map (fun r : RoundRec => (r.carried.length : Int))).sum := by
  induction rs with
  | nil => simp
  | cons r rs ih => simp only [List.map_cons, List.sum_cons]; omega

theorem sum_carried_eq_zero (rs : List RoundRec) :
    (rs.map (fun r : RoundRec => (r.carried.length : Int))).sum = 0
      ↔ ∀ r ∈ rs, r.carried = [] := by
  induction rs with
  | nil => simp
  | cons r rs ih =>
    have h0 := sum_carried_nonneg rs
    simp only [List.map_cons, List.sum_cons, List.mem_cons, forall_eq_or_imp]
    rw [← ih, ← List.length_eq_zero]
    omega

/-- With unconverted indices (`toIntT = id`): for `granularity ≥ 1` and `s ≤ e`, when
`speculative_for` returns, the result is the sum of the sizes of the rounds executed, which is `(e -
s)` plus the sum over the rounds of the number of indices carried over after the round; so it is at
least `e - s`, with equality exactly when no round carried an index over. -/
theorem wide_return {σ τ : Type} (S : Step σ τ) (step : τ) (shared : σ)
    (s e g : Int) (hasState : Bool) (maxTries : Int) (hg : 1 ≤ g) (hse : s ≤ e)
    (n : Int) (out : Loop σ τ)
    (hret : speculative_for id S step shared s e g hasState maxTries = (Outcome.returned n, out)) :
    n = (out.rounds.map RoundRec.size).sum
    ∧ n = (e - s) + (out.rounds.map (fun r : RoundRec => (r.carried.length : Int))).sum
    ∧ e - s ≤ n
    ∧ (n = e - s ↔ ∀ r ∈ out.rounds, r.carried = []) := by
  have h := speculative_for_returned S step shared s e g hasState maxTries hg hse n
    (by rw [hret])
  rw [hret] at h
  dsimp only at h
  obtain ⟨hI, hD, _, hT⟩ := h
  have h1 := hI.total
  have h2 := hI.carriedSum
  rw [hT] at h1 h2
  rw [hD] at h2
  have h3 := sum_carried_nonneg out.rounds
  refine ⟨h1, h2, by omega, ?_⟩
  rw [← sum_carried_eq_zero]
  omega

/-- With unconverted indices (`toIntT = id`): for `granularity ≥ 1` and `s < e`, `currentRoundSize`
is at most `maxRoundSize` and at least `max(maxRoundSize/64 + 1, |pending|)` initially, at the start
of every round, and after the adjustment that ends every round (in which `|pending|` is the number
of indices the round carried over), whichever branch of the adjustment is taken. -/
theorem wide_sizing {σ τ : Type} (S : Step σ τ) (step : τ) (shared : σ)
    (s e g : Int) (hasState : Bool) (maxTries : Int) (hg : 1 ≤ g) (hse : s < e)
    (o : Outcome) (out : Loop σ τ)
    (hres : speculative_for id S step shared s e g hasState maxTries = (o, out)) :
    ((initLoop step shared s e g hasState).currentRoundSize ≤ maxRoundSizeOf s e g
      ∧ max ((maxRoundSizeOf s e g).tdiv 64 + 1)
            ((initLoop step shared s e g hasState).Ihold.length : Int)
          ≤ (initLoop step shared s e g hasState).currentRoundSize)
    ∧ (∀ r ∈ out.rounds,
        r.currentRoundSize ≤ maxRoundSizeOf s e g
        ∧ max ((maxRoundSizeOf s e g).tdiv 64 + 1) (r.pending.length : Int) ≤ r.currentRoundSize
        ∧ r.nextRoundSize = resize (maxRoundSizeOf s e g) r.currentRoundSize r.carried.length r.size
        ∧ r.nextRoundSize ≤ maxRoundSizeOf s e g
        ∧ max ((maxRoundSizeOf s e g).tdiv 64 + 1) (r.carried.length : Int) ≤ r.nextRoundSize)
    ∧ (out.currentRoundSize ≤ maxRoundSizeOf s e g
      ∧ max ((maxRoundSizeOf s e g).tdiv 64 + 1) (out.Ihold.length : Int)
          ≤ out.currentRoundSize) := by
  have hM := maxRoundSizeOf_pos s e g hg (le_of_lt hse)
  have hinit := Inv.init step shared s e g hasState (le_of_lt hse) hM
  obtain ⟨st, hI, hr, h | h⟩ := speculative_for_run S step shared s e g hasState maxTries
    (by omega) (le_of_lt hse) hM (by have := effMaxTries_nonneg g maxTries hg; omega)
  all_goals
    rw [h.1] at hres
    simp only [Prod.mk.injEq] at hres
    obtain ⟨ho, hst⟩ := hres
    subst ho hst
    refine ⟨⟨hinit.sizeHi, hinit.keepLen ▸ hinit.sizeLo⟩, ?_, ⟨hI.sizeHi, hI.keepLen ▸ hI.sizeLo⟩⟩
    intro r hr
    have hr := hI.roundsOK r hr
    exact ⟨hr.crsLe, hr.crsLo, hr.next, hr.nextHi, hr.nextLo⟩
/-! ## Runs outside the intended domain -/

/-- A run on a non-empty range with `maxRoundSize ≥ 1`, whatever the granularity and the
ceiling: the state in which the loop stops satisfies the invariant. -/
theorem speculative_for_inv {σ τ : Type} (S : Step σ τ) (step : τ) (shared : σ)
    (s e g : Int) (hasState : Bool) (maxTries : Int) (hg : g ≠ 0) (hse : s ≤ e)
    (hM : 1 ≤ maxRoundSizeOf s e g) :
    ∃ st : Loop σ τ, Inv s e (maxRoundSizeOf s e g) st
      ∧ ((speculative_for id S step shared s e g hasState maxTries).2 = st
        ∨ (speculative_for id S step shared s e g hasState maxTries).2 = bump st) := by
  obtain ⟨st, hI, hres⟩ := whileLoop_spec S hasState e (effMaxTries g maxTries)
    (maxRoundSizeOf s e g) (fun st => Inv s e (maxRoundSizeOf s e g) st)
    (fun st hst hlt _ _ => Inv.step S hasState s e _ st hM hst hlt)
    ((effMaxTries g maxTries + 1).toNat + 1) (initLoop step shared s e g hasState)
    (Inv.init step shared s e g hasState hse hM)
  refine ⟨st, hI, ?_⟩
  unfold speculative_for
  rw [if_neg hg]
  rw [if_neg (by omega)]
  rcases hres with h | h | h | h
  · rw [h.1]; exact Or.inl rfl
  · rw [h.1]; exact Or.inr rfl
  · rw [h.1]; exact Or.inr rfl
  · rw [h]; exact Or.inl rfl

theorem fracGt_zero_zero : fracGt 0 0 = false := by decide

theorem fracLt_zero_zero : fracLt 0 0 = false := by decide

/-- A run with `maxRoundSize ≤ 0`: every round that is executed has an empty index list. -/
theorem speculative_for_degenerate {σ τ : Type} (S : Step σ τ) (step : τ) (shared : σ)
    (s e g : Int) (hasState : Bool) (maxTries : Int) (hM : maxRoundSizeOf s e g ≤ 0) :
    ∀ r ∈ (speculative_for id S step shared s e g hasState maxTries).2.rounds, r.I = [] := by
  unfold speculative_for
  split
  · intro r hr; cases hr
  split
  · intro r hr; cases hr
  · obtain ⟨st, hP, hres⟩ := whileLoop_spec S hasState e (effMaxTries g maxTries)
      (maxRoundSizeOf s e g)
      (fun st => st.currentRoundSize ≤ 0 ∧ st.Ihold = [] ∧ st.numberKeep = 0
        ∧ ∀ r ∈ st.rounds, r.I = [])
      (by
        intro st ⟨h1, h2, h3, h4⟩ hlt _ hsz
        have hc : st.currentRoundSize = 0 := by omega
        have hs0 : min st.currentRoundSize (e - st.numberDone) = 0 := by omega
        obtain ⟨reserved, keep, mem, _, hK, _, heq⟩ := roundBody_eq S hasState e
          (maxRoundSizeOf s e g) (bump st) (by rw [bump_numberKeep, bump_Ihold, h3, h2]; rfl)
          (by rw [bump_Ihold, bump_currentRoundSize, bump_numberDone, h2, hs0]; rfl)
        simp only [bump_Ihold, bump_currentRoundSize, bump_numberDone, bump_numberKeep,
          bump_rounds, h2, hs0] at heq hK
        have hk : keep = [] := List.length_eq_zero.mp hK
        subst hk
        rw [heq]
        simp only [Int.toNat_zero, List.length_nil, Nat.sub_self, irange, List.range_zero,
          List.map_nil, List.append_nil, pack, Int.natCast_zero, hc, resize, fracGt_zero_zero,
          fracLt_zero_zero, Bool.false_eq_true, if_false]
        refine ⟨le_refl _, trivial, trivial, ?_⟩
        intro r hr
        rcases List.mem_append.mp hr with hr | hr
        · exact h4 r hr
        · rw [List.mem_singleton] at hr
          rw [hr])
      ((effMaxTries g maxTries + 1).toNat + 1) (initLoop step shared s e g hasState)
      ⟨hM, rfl, rfl, by intro r hr; cases hr⟩
    rcases hres with h | h | h | h
    · rw [h.1]; exact hP.2.2.2
    · rw [h.1]; exact hP.2.2.2
    · rw [h.1]; exact hP.2.2.2
    · rw [h]; exact hP.2.2.2

theorem speculative_for_empty {σ τ : Type} (S : Step σ τ) (step : τ) (shared : σ)
    (s e g : Int) (hasState : Bool) (maxTries : Int) (hse : e ≤ s) :
    (speculative_for id S step shared s e g hasState maxTries).2
      = initLoop step shared s e g hasState := by
  unfold speculative_for
  split
  · rfl
  split
  · rfl
  · unfold whileLoop
    rw [if_neg (by show ¬ s < e; omega)]

theorem mem_carried_of_not_resolved {r : RoundRec} (hl : r.keep.length = r.I.length) {x : Int}
    (hx : x ∈ r.I) (hn : x ∉ r.resolved) : x ∈ r.carried := by
  have hp := pack_perm r.I r.keep hl.symm
  rcases List.mem_append.mp (hp.mem_iff.mpr hx) with h | h
  · exact absurd h hn
  · exact h

/-- With unconverted indices (`toIntT = id`): in every run of `speculative_for`, an index resolved
in a round (its slot's `keep` flag is off after the commit loop) is in the index list of no later
round, so neither `reserve` nor `commit` is called on it again; and an index of a round that is not
resolved in it is in the index list of the round that follows. -/
theorem wide_idempotent {σ τ : Type} (S : Step σ τ) (step : τ) (shared : σ)
    (s e g : Int) (hasState : Bool) (maxTries : Int) :
    (speculative_for id S step shared s e g hasState maxTries).2.rounds.Pairwise
        (fun r r' => ∀ x ∈ r.resolved, x ∉ r'.I ∧ x ∉ r'.commitCalls)
    ∧ (speculative_for id S step shared s e g hasState maxTries).2.rounds.Chain'
        (fun r r' => ∀ x ∈ r.I, x ∉ r.resolved → x ∈ r'.I) := by
  by_cases hse : e ≤ s
  · rw [speculative_for_empty S step shared s e g hasState maxTries hse]
    exact ⟨List.Pairwise.nil, List.chain'_nil⟩
  by_cases hM : maxRoundSizeOf s e g ≤ 0
  · have h := speculative_for_degenerate S step shared s e g hasState maxTries hM
    constructor
    · apply List.pairwise_of_forall_mem_list
      intro r hr r' _ x hx
      have hx' : x ∈ r.I := mem_of_mem_pack hx
      rw [h r hr] at hx'
      cases hx'
    · apply List.Pairwise.chain'
      apply List.pairwise_of_forall_mem_list
      intro r hr r' _ x hx
      rw [h r hr] at hx
      cases hx
  by_cases hg : g = 0
  · have : (speculative_for id S step shared s e g hasState maxTries).2.rounds = [] := by
      unfold speculative_for
      rw [if_pos hg]
      rfl
    rw [this]
    exact ⟨List.Pairwise.nil, List.chain'_nil⟩
  obtain ⟨st, hI, hst⟩ := speculative_for_inv S step shared s e g hasState maxTries hg
    (by omega) (by omega)
  have hrounds : (speculative_for id S step shared s e g hasState maxTries).2.rounds = st.rounds := by
    rcases hst with h | h
    · rw [h]
    · rw [h, bump_rounds]
  rw [hrounds]
  constructor
  · exact hI.noLater.imp (fun {r r'} h x hx => ⟨h x hx, fun hc => h x hx (mem_of_mem_pack hc)⟩)
  · have hch := List.Chain'.iff_mem.mp hI.linked
    refine hch.imp ?_
    rintro r r' ⟨hr, hr', hl⟩ x hx hn
    have hr := hI.roundsOK r hr
    have hr' := hI.roundsOK r' hr'
    have hlen : r.keep.length = r.I.length := by
      have := hr.pendLe
      rw [hr.lenK, hr.idx, List.length_append, irange_length]; omega
    have hc := mem_carried_of_not_resolved hlen hx hn
    rw [hr'.idx, hl.1]
    exact List.mem_append_left _ hc

/-! ## The resolved indices of a run that returns -/

theorem resolvedAll_of_returned {σ τ : Type} (S : Step σ τ) (step : τ) (shared : σ)
    (s e g : Int) (hasState : Bool) (maxTries : Int) (hg : 1 ≤ g) (n : Int) (out : Loop σ τ)
    (hret : speculative_for id S step shared s e g hasState maxTries = (Outcome.returned n, out)) :
    (resolvedAll out.rounds).Perm (irange s (e - s).toNat)
    ∧ (s ≤ e → ∀ r ∈ out.rounds, RoundOK s e (maxRoundSizeOf s e g) r) := by
  by_cases hse : s ≤ e
  · have h := speculative_for_returned S step shared s e g hasState maxTries hg hse n
      (by rw [hret])
    rw [hret] at h
    dsimp only at h
    obtain ⟨hI, hD, hH, _⟩ := h
    have hc := hI.cover
    have hK := hI.keepLen
    rw [hH] at hK hc
    rw [hK, hD] at hc
    simp only [List.append_nil, Int.natCast_zero, List.length_nil, add_zero] at hc
    exact ⟨hc, fun _ => hI.roundsOK⟩
  · have h := speculative_for_empty S step shared s e g hasState maxTries (by omega)
    rw [hret] at h
    dsimp only at h
    have e0 : (e - s).toNat = 0 := by omega
    rw [h, e0]
    exact ⟨List.Perm.refl _, fun h => absurd h hse⟩


/-! ## Composition and order of the index list of a round -/

/-- A run with `maxRoundSize ≤ 0`: every round that is executed has no slot and nothing
pending. -/
theorem speculative_for_degenerate_rounds {σ τ : Type} (S : Step σ τ) (step : τ) (shared : σ)
    (s e g : Int) (hasState : Bool) (maxTries : Int) (hM : maxRoundSizeOf s e g ≤ 0) :
    ∀ r ∈ (speculative_for id S step shared s e g hasState maxTries).2.rounds,
      r.I = [] ∧ r.pending = [] ∧ r.size = 0 := by
  unfold speculative_for
  split
  · intro r hr; cases hr
  split
  · intro r hr; cases hr
  · obtain ⟨st, hP, hres⟩ := whileLoop_spec S hasState e (effMaxTries g maxTries)
      (maxRoundSizeOf s e g)
      (fun st => st.currentRoundSize ≤ 0 ∧ st.Ihold = [] ∧ st.numberKeep = 0
        ∧ ∀ r ∈ st.rounds, r.I = [] ∧ r.pending = [] ∧ r.size = 0)
      (by
        intro st ⟨h1, h2, h3, h4⟩ hlt _ hsz
        have hc : st.currentRoundSize = 0 := by omega
        have hs0 : min st.currentRoundSize (e - st.numberDone) = 0 := by omega
        obtain ⟨reserved, keep, mem, _, hK, _, heq⟩ := roundBody_eq S hasState e
          (maxRoundSizeOf s e g) (bump st) (by rw [bump_numberKeep, bump_Ihold, h3, h2]; rfl)
          (by rw [bump_Ihold, bump_currentRoundSize, bump_numberDone, h2, hs0]; rfl)
        simp only [bump_Ihold, bump_currentRoundSize, bump_numberDone, bump_numberKeep,
          bump_rounds, h2, hs0] at heq hK
        have hk : keep = [] := List.length_eq_zero.mp hK
        subst hk
        rw [heq]
        simp only [Int.toNat_zero, List.length_nil, Nat.sub_self, irange, List.range_zero,
          List.map_nil, List.append_nil, pack, Int.natCast_zero, hc, resize, fracGt_zero_zero,
          fracLt_zero_zero, Bool.false_eq_true, if_false]
        refine ⟨le_refl _, trivial, trivial, ?_⟩
        intro r hr
        rcases List.mem_append.mp hr with hr | hr
        · exact h4 r hr
        · rw [List.mem_singleton] at hr
          rw [hr]
          exact ⟨rfl, rfl, rfl⟩)
      ((effMaxTries g maxTries + 1).toNat + 1) (initLoop step shared s e g hasState)
      ⟨hM, rfl, rfl, by intro r hr; cases hr⟩
    rcases hres with h | h | h | h
    · rw [h.1]; exact hP.2.2.2
    · rw [h.1]; exact hP.2.2.2
    · rw [h.1]; exact hP.2.2.2
    · rw [h]; exact hP.2.2.2

theorem getD_append_irange (p : List Int) (a : Int) (n i : Nat) (hi : i < p.length + n) :
    (p ++ irange a n).getD i 0 = if i < p.length then p.getD i 0 else a + ((i - p.length : Nat) : Int) := by
  rw [List.getD_eq_getElem?_getD, List.getD_eq_getElem?_getD]
  by_cases h : i < p.length
  · rw [if_pos h, List.getElem?_append_left h]
  · rw [if_neg h, List.getElem?_append_right (by omega)]
    have h2 : i - p.length < n := by omega
    simp [irange, List.getElem?_range h2]

/-- The rounds of any run: composition of the index list, the first pending list, and how the
pending list of a round arises from the round before. -/
theorem speculative_for_composition {σ τ : Type} (S : Step σ τ) (step : τ) (shared : σ)
    (s e g : Int) (hasState : Bool) (maxTries : Int) :
    (∀ r ∈ (speculative_for id S step shared s e g hasState maxTries).2.rounds,
        (r.pending.length : Int) ≤ r.size
        ∧ r.I = r.pending
            ++ irange (r.numberDone + r.pending.length) (r.size.toNat - r.pending.length))
    ∧ (∀ r ∈ (speculative_for id S step shared s e g hasState maxTries).2.rounds.head?,
        r.pending = [])
    ∧ (speculative_for id S step shared s e g hasState maxTries).2.rounds.Chain'
        (fun r r' => r'.pending = r.carried) := by
  by_cases hse : e ≤ s
  · rw [speculative_for_empty S step shared s e g hasState maxTries hse]
    exact ⟨fun r hr => (nomatch hr), fun r hr => (nomatch hr), List.chain'_nil⟩
  by_cases hM : maxRoundSizeOf s e g ≤ 0
  · have h := speculative_for_degenerate_rounds S step shared s e g hasState maxTries hM
    refine ⟨?_, ?_, ?_⟩
    · intro r hr
      obtain ⟨h1, h2, h3⟩ := h r hr
      rw [h1, h2, h3]
      exact ⟨le_refl _, rfl⟩
    · intro r hr
      exact (h r (List.mem_of_mem_head? hr)).2.1
    · apply List.Pairwise.chain'
      apply List.pairwise_of_forall_mem_list
      intro r hr r' hr'
      rw [(h r' hr').2.1, RoundRec.carried, (h r hr).1]
      rfl
  by_cases hg : g = 0
  · have : (speculative_for id S step shared s e g hasState maxTries).2.rounds = [] := by
      unfold speculative_for
      rw [if_pos hg]
      rfl
    rw [this]
    exact ⟨fun r hr => (nomatch hr), fun r hr => (nomatch hr), List.chain'_nil⟩
  obtain ⟨st, hI, hst⟩ := speculative_for_inv S step shared s e g hasState maxTries hg
    (by omega) (by omega)
  have hrounds : (speculative_for id S step shared s e g hasState maxTries).2.rounds = st.rounds := by
    rcases hst with h | h
    · rw [h]
    · rw [h, bump_rounds]
  rw [hrounds]
  refine ⟨fun r hr => ⟨(hI.roundsOK r hr).pendLe, (hI.roundsOK r hr).idx⟩,
    fun r hr => (hI.first r hr).2.1, hI.linked.imp (fun {r r'} h => h.1)⟩

/-- With unconverted indices (`toIntT = id`): in every round of `speculative_for`, the index list
has `size` entries: the pending indices carried over from the previous round (none in the first
round), in their order, in the first `|pending|` slots, followed by the fresh indices `numberDone +
|pending|, numberDone + |pending| + 1, ...`, so that slot `i ≥ |pending|` holds `numberDone + i`,
where `numberDone` is the driver's counter at the start of the round. -/
theorem wide_composition {σ τ : Type} (S : Step σ τ) (step : τ) (shared : σ)
    (s e g : Int) (hasState : Bool) (maxTries : Int) :
    (∀ r ∈ (speculative_for id S step shared s e g hasState maxTries).2.rounds,
        r.I.length = r.size.toNat
        ∧ r.I = r.pending
            ++ irange (r.numberDone + r.pending.length) (r.size.toNat - r.pending.length)
        ∧ ∀ i, i < r.size.toNat →
            r.I.getD i 0 = if i < r.pending.length then r.pending.getD i 0
              else r.numberDone + (i : Int))
    ∧ (∀ r ∈ (speculative_for id S step shared s e g hasState maxTries).2.rounds.head?,
        r.pending = [])
    ∧ (speculative_for id S step shared s e g hasState maxTries).2.rounds.Chain'
        (fun r r' => r'.pending = r.carried) := by
  obtain ⟨h1, h2, h3⟩ := speculative_for_composition S step shared s e g hasState maxTries
  refine ⟨?_, h2, h3⟩
  intro r hr
  obtain ⟨hp, hidx⟩ := h1 r hr
  refine ⟨?_, hidx, ?_⟩
  · rw [hidx, List.length_append, irange_length]; omega
  · intro i hi
    rw [hidx, getD_append_irange _ _ _ _ (by omega)]
    split
    · rfl
    · omega

/-- With unconverted indices (`toIntT = id`): for `granularity ≥ 1` and `s < e`, in every round the
index list is strictly increasing: the carried-over indices are in ascending order, each of them is
smaller than every fresh index of the round, and the carried-over list of a round is the
order-preserving compaction of the previous round's index list at the slots whose `keep` flag is
set, a sublist of that list. -/
theorem wide_priority {σ τ : Type} (S : Step σ τ) (step : τ) (shared : σ)
    (s e g : Int) (hasState : Bool) (maxTries : Int) (hg : 1 ≤ g) (hse : s < e) :
    (∀ r ∈ (speculative_for id S step shared s e g hasState maxTries).2.rounds,
        r.I.Pairwise (fun a b => a < b)
        ∧ r.I = r.pending
            ++ irange (r.numberDone + r.pending.length) (r.size.toNat - r.pending.length)
        ∧ r.pending.Pairwise (fun a b => a < b)
        ∧ ∀ x ∈ r.pending, ∀ y ∈ irange (r.numberDone + r.pending.length)
            (r.size.toNat - r.pending.length), x < y)
    ∧ (speculative_for id S step shared s e g hasState maxTries).2.rounds.Chain'
        (fun r r' => r'.pending = pack r.I r.keep ∧ r'.pending.Sublist r.I) := by
  obtain ⟨h1, h2, _⟩ := speculative_for_history S step shared s e g hasState maxTries hg
    (le_of_lt hse)
  constructor
  · intro r hr
    have hok := h1 r hr
    have hs := hok.sorted
    rw [hok.idx, List.pairwise_append] at hs
    exact ⟨hok.sorted, hok.idx, hs.1, hs.2.2⟩
  · refine h2.imp ?_
    intro r r' hl
    refine ⟨hl.1, ?_⟩
    rw [hl.1]
    exact pack_sublist r.I r.keep


/-! ## Steps whose results depend on the index only -/

theorem pack_map_eq_filter {α : Type} (K : α → Bool) : ∀ (xs : List α),
    pack xs (xs.map K) = xs.filter K
  | [] => rfl
  | x :: xs => by
    have ih := pack_map_eq_filter K xs
    cases h : K x <;> simp [pack, h, ih]

theorem pack_all_false {α : Type} : ∀ (xs : List α) (bs : List Bool),
    (∀ b ∈ bs, b = false) → pack xs bs = []
  | [], bs, _ => pack_nil_left bs
  | x :: xs, [], _ => rfl
  | x :: xs, b :: bs, h => by
    have hb : b = false := h b (List.mem_cons_self b bs)
    subst hb
    simpa [pack] using pack_all_false xs bs (fun c hc => h c (List.mem_cons_of_mem _ hc))

theorem callReserve_fst {σ τ : Type} (S : Step σ τ) (hasState : Bool) (slot : Nat) (idx : Int)
    (m : Mem σ τ) : ∃ t g, (callReserve S hasState slot idx m).1 = (S.reserve idx t g).1 := by
  cases hasState
  · exact ⟨_, _, rfl⟩
  · exact ⟨_, _, rfl⟩

theorem callCommit_fst {σ τ : Type} (S : Step σ τ) (hasState : Bool) (slot : Nat) (idx : Int)
    (m : Mem σ τ) : ∃ t g, (callCommit S hasState slot idx m).1 = (S.commit idx t g).1 := by
  cases hasState
  · exact ⟨_, _, rfl⟩
  · exact ⟨_, _, rfl⟩

/-- What the reserve loop returns in each slot is a result of `reserve` on the slot's index. -/
theorem reservePhase_flag {σ τ : Type} (S : Step σ τ) (hasState : Bool) (Ihold : List Int)
    (numberKeep numberDone : Int) (m : Mem σ τ) (n p : Nat) (hp : p < n) :
    ∃ t g, (reservePhase id S hasState Ihold numberKeep numberDone n m).2.1.getD p false
      = (S.reserve (slotIndex id Ihold numberKeep numberDone p) t g).1 := by
  induction n with
  | zero => omega
  | succ n ih =>
    rw [reservePhase_succ]
    have hl := reservePhase_keep_length id S hasState Ihold numberKeep numberDone n m
    rcases Nat.lt_or_eq_of_le (Nat.lt_succ_iff.mp hp) with h | h
    · obtain ⟨t, g, ht⟩ := ih h
      refine ⟨t, g, ?_⟩
      rw [← ht, List.getD_eq_getElem?_getD, List.getD_eq_getElem?_getD,
        List.getElem?_append_left (by omega)]
    · subst h
      obtain ⟨t, g, ht⟩ := callReserve_fst S hasState p (slotIndex id Ihold numberKeep numberDone p)
        (reservePhase id S hasState Ihold numberKeep numberDone p m).2.2
      refine ⟨t, g, ?_⟩
      rw [← ht, List.getD_eq_getElem?_getD, List.getElem?_append_right (by omega)]
      simp [hl]

/-- The flags after the commit loop, for a step whose results depend on the index only: `K i`
tells whether index `i` has to be retried. -/
theorem commitPhase_map {σ τ : Type} (S : Step σ τ) (hasState : Bool) (K : Int → Bool)
    (I : List Int) (keep : List Bool) (m : Mem σ τ)
    (hres : ∀ p, p < I.length → K (I.getD p 0) = true → keep.getD p false = true)
    (hcom : ∀ p, p < I.length → keep.getD p false = true →
      ∀ t g, (S.commit (I.getD p 0) t g).1 = !K (I.getD p 0))
    (n : Nat) (hn : n ≤ I.length) :
    (commitPhase S hasState I keep n m).1 = (I.take n).map K := by
  induction n with
  | zero => simp [commitPhase, parallel_for_zero]
  | succ n ih =>
    have ih := ih (by omega)
    have hlt : n < I.length := by omega
    have htake : I.take (n + 1) = I.take n ++ [I.getD n 0] := by
      rw [List.take_succ, List.getD_eq_getElem?_getD, List.getElem?_eq_getElem hlt]
      rfl
    rw [commitPhase_succ, htake, List.map_append, List.map_singleton]
    by_cases hk : keep.getD n false = true
    · rw [if_pos hk]
      dsimp only
      rw [ih]
      congr 2
      obtain ⟨t, g, ht⟩ := callCommit_fst S hasState n (I.getD n 0)
        (commitPhase S hasState I keep n m).2
      rw [ht, hcom n hlt hk t g, Bool.not_not]
    · rw [if_neg hk]
      dsimp only
      rw [ih]
      congr 2
      cases hK : K (I.getD n 0)
      · rfl
      · exact absurd (hres n hlt hK) hk

/-- The rounds of a step whose results depend on the index only: the `keep` flags of a round
are given by `K` on its index list. -/
theorem roundBody_keep {σ τ : Type} (S : Step σ τ) (hasState : Bool) (K : Int → Bool)
    (h1 : ∀ i t g, K i = true → (S.reserve i t g).1 = true)
    (h2 : ∀ i t g, K i = true → (S.commit i t g).1 = false)
    (h3 : ∀ i, K i = false →
      (∀ t g, (S.reserve i t g).1 = false) ∨ (∀ t g, (S.commit i t g).1 = true))
    (e M : Int) (st : Loop σ τ) (h : ∀ r ∈ st.rounds, r.keep = r.I.map K) :
    ∀ r ∈ (roundBody id S hasState e M st).rounds, r.keep = r.I.map K := by
  intro r hr
  have hrounds : (roundBody id S hasState e M st).rounds = st.rounds ++ [_] := rfl
  rw [hrounds] at hr
  rcases List.mem_append.mp hr with hr | hr
  · exact h r hr
  · rw [List.mem_singleton] at hr
    rw [hr]
    dsimp only
    have hI := reservePhase_fst id S hasState st.Ihold st.numberKeep st.numberDone
      (min st.currentRoundSize (e - st.numberDone)).toNat st.mem
    have hlen : (reservePhase id S hasState st.Ihold st.numberKeep st.numberDone
        (min st.currentRoundSize (e - st.numberDone)).toNat st.mem).1.length
        = (min st.currentRoundSize (e - st.numberDone)).toNat := by
      rw [hI]; simp
    have hget : ∀ p, p < (min st.currentRoundSize (e - st.numberDone)).toNat →
        (reservePhase id S hasState st.Ihold st.numberKeep st.numberDone
          (min st.currentRoundSize (e - st.numberDone)).toNat st.mem).1.getD p 0
          = slotIndex id st.Ihold st.numberKeep st.numberDone p := by
      intro p hp
      rw [hI, List.getD_eq_getElem?_getD, List.getElem?_map, List.getElem?_range hp]
      rfl
    have := commitPhase_map S hasState K
      (reservePhase id S hasState st.Ihold st.numberKeep st.numberDone
        (min st.currentRoundSize (e - st.numberDone)).toNat st.mem).1
      (reservePhase id S hasState st.Ihold st.numberKeep st.numberDone
        (min st.currentRoundSize (e - st.numberDone)).toNat st.mem).2.1
      (reservePhase id S hasState st.Ihold st.numberKeep st.numberDone
        (min st.currentRoundSize (e - st.numberDone)).toNat st.mem).2.2
      (by
        intro p hp hK
        rw [hlen] at hp
        obtain ⟨t, g, ht⟩ := reservePhase_flag S hasState st.Ihold st.numberKeep st.numberDone
          st.mem _ p hp
        rw [ht]
        apply h1
        rw [← hK, hget p hp])
      (by
        intro p hp hk t g
        rw [hlen] at hp
        obtain ⟨t0, g0, ht⟩ := reservePhase_flag S hasState st.Ihold st.numberKeep st.numberDone
          st.mem _ p hp
        rw [ht, ← hget p hp] at hk
        cases hK : K ((reservePhase id S hasState st.Ihold st.numberKeep st.numberDone
          (min st.currentRoundSize (e - st.numberDone)).toNat st.mem).1.getD p 0)
        · rcases h3 _ hK with h | h
          · rw [h t0 g0] at hk; cases hk
          · rw [h t g]; rfl
        · rw [h2 _ t g hK]; rfl)
      (min st.currentRoundSize (e - st.numberDone)).toNat (by rw [hlen])
    rw [this, List.take_of_length_le (by rw [hlen])]

/-- Every run of a step whose results depend on the index only: the `keep` flags of each round
are given by `K` on its index list, so the round carries over the indices with `K` and
resolves the others. -/
theorem speculative_for_keep {σ τ : Type} (S : Step σ τ) (K : Int → Bool)
    (h1 : ∀ i t g, K i = true → (S.reserve i t g).1 = true)
    (h2 : ∀ i t g, K i = true → (S.commit i t g).1 = false)
    (h3 : ∀ i, K i = false →
      (∀ t g, (S.reserve i t g).1 = false) ∨ (∀ t g, (S.commit i t g).1 = true))
    (step : τ) (shared : σ) (s e g : Int) (hasState : Bool) (maxTries : Int) :
    ∀ r ∈ (speculative_for id S step shared s e g hasState maxTries).2.rounds,
      r.keep = r.I.map K ∧ r.carried = r.I.filter K
      ∧ r.resolved = r.I.filter (fun x => !K x) := by
  have key : ∀ r ∈ (speculative_for id S step shared s e g hasState maxTries).2.rounds,
      r.keep = r.I.map K := by
    unfold speculative_for
    split
    · intro r hr; cases hr
    split
    · intro r hr; cases hr
    · obtain ⟨st, hP, hres⟩ := whileLoop_spec S hasState e (effMaxTries g maxTries)
        (maxRoundSizeOf s e g) (fun st => ∀ r ∈ st.rounds, r.keep = r.I.map K)
        (fun st hst _ _ _ => roundBody_keep S hasState K h1 h2 h3 e _ (bump st) hst)
        ((effMaxTries g maxTries + 1).toNat + 1) (initLoop step shared s e g hasState)
        (fun r hr => by cases hr)
      rcases hres with h | h | h | h
      · rw [h.1]; exact hP
      · rw [h.1]; exact hP
      · rw [h.1]; exact hP
      · rw [h]; exact hP
  intro r hr
  have hk := key r hr
  refine ⟨hk, ?_, ?_⟩
  · rw [RoundRec.carried, hk, pack_map_eq_filter]
  · rw [RoundRec.resolved, hk, List.map_map]
    exact pack_map_eq_filter (fun x => !K x) r.I

/-! ## A step that never resolves one index -/

theorem filter_eq_of_nodup (j : Int) : ∀ (l : List Int), l.Nodup →
    l.filter (fun x => decide (x = j)) = if j ∈ l then [j] else []
  | [], _ => rfl
  | x :: l, h => by
    have hn := List.nodup_cons.mp h
    have ih := filter_eq_of_nodup j l hn.2
    by_cases hx : x = j
    · subst hx
      simp [List.filter_cons, ih, hn.1]
    · have hx' : ¬ j = x := fun h => hx h.symm
      simp [List.filter_cons, hx, hx', ih]

theorem count_presentedAll_le_one (j : Int) : ∀ (rs : List RoundRec),
    (∀ r ∈ rs, r.I.Nodup) →
    rs.Pairwise (fun r r' => ∀ x ∈ r.I, x ≠ j → x ∉ r'.I) →
    ∀ x, x ≠ j → (presentedAll rs).count x ≤ 1
  | [], _, _, x, _ => by simp [presentedAll]
  | r :: rs, h1, h2, x, hx => by
    have hp := List.pairwise_cons.mp h2
    have ih := count_presentedAll_le_one j rs (fun r' hr' => h1 r' (List.mem_cons_of_mem r hr'))
      hp.2 x hx
    rw [presentedAll, List.count_append]
    by_cases hmem : x ∈ r.I
    · have hc : r.I.count x = 1 :=
        List.count_eq_one_of_mem (h1 r (List.mem_cons_self r rs)) hmem
      have hrest : (presentedAll rs).count x = 0 := by
        rw [List.count_eq_zero]
        intro hin
        have : ∀ (l : List RoundRec), (∀ r' ∈ l, x ∉ r'.I) → x ∉ presentedAll l := by
          intro l
          induction l with
          | nil => intro _ h; cases h
          | cons a l ihl =>
            intro hl h
            rw [presentedAll] at h
            rcases List.mem_append.mp h with h | h
            · exact hl a (List.mem_cons_self a l) h
            · exact ihl (fun r' hr' => hl r' (List.mem_cons_of_mem a hr')) h
        exact this rs (fun r' hr' => hp.1 r' hr' x hmem hx) hin
      omega
    · rw [List.count_eq_zero_of_not_mem hmem]
      omega

/-- With unconverted indices (`toIntT = id`): on a range with `s ≤ j < e`, for `granularity ≥ 1` and
any ceiling (so also one `≥ 0`), with a step that never resolves index `j` (`reserve(j)` returns
true and `commit(j)` returns false) and resolves every other index at its first attempt (its
`reserve` returns false or its `commit` returns true), `speculative_for` ends in the abort; what a
round carries over is `[j]` if `j` is in its index list and nothing otherwise; and no index other
than `j` is passed to `reserve` twice. -/
theorem wide_stuck {σ τ : Type} (S : Step σ τ) (j : Int) (step : τ) (shared : σ)
    (s e g : Int) (hasState : Bool) (maxTries : Int)
    (hj1 : s ≤ j) (hj2 : j < e) (hg : 1 ≤ g)
    (h1 : ∀ t m, (S.reserve j t m).1 = true) (h2 : ∀ t m, (S.commit j t m).1 = false)
    (h3 : ∀ i, i ≠ j →
      (∀ t m, (S.reserve i t m).1 = false) ∨ (∀ t m, (S.commit i t m).1 = true)) :
    (speculative_for id S step shared s e g hasState maxTries).1 = Outcome.aborted
    ∧ (∀ r ∈ (speculative_for id S step shared s e g hasState maxTries).2.rounds,
        r.carried = if j ∈ r.I then [j] else [])
    ∧ (∀ x, x ≠ j →
        (presentedAll (speculative_for id S step shared s e g hasState maxTries).2.rounds).count x
          ≤ 1) := by
  have hkeep := speculative_for_keep S (fun i => decide (i = j))
    (fun i t m hi => by
      have : i = j := by simpa using hi
      rw [this]; exact h1 t m)
    (fun i t m hi => by
      have : i = j := by simpa using hi
      rw [this]; exact h2 t m)
    (fun i hi => h3 i (by simpa using hi))
    step shared s e g hasState maxTries
  obtain ⟨hok, _, hno⟩ := speculative_for_history S step shared s e g hasState maxTries hg
    (by omega)
  refine ⟨?_, ?_, ?_⟩
  · obtain ⟨st, hI, _, h | h⟩ := speculative_for_run S step shared s e g hasState maxTries
      (by omega) (by omega) (maxRoundSizeOf_pos s e g hg (by omega))
      (by have := effMaxTries_nonneg g maxTries hg; omega)
    · exfalso
      have hperm := (resolvedAll_of_returned S step shared s e g hasState maxTries hg _ st h.1).1
      have hjm : j ∈ resolvedAll st.rounds := by
        rw [hperm.mem_iff]
        exact mem_irange.mpr ⟨hj1, by omega⟩
      obtain ⟨r, hr, hjr⟩ := mem_resolvedAll.mp hjm
      rw [h.1] at hkeep
      rw [(hkeep r hr).2.2] at hjr
      simp at hjr
    · rw [h.1]
  · intro r hr
    rw [(hkeep r hr).2.1]
    exact filter_eq_of_nodup j r.I ((hok r hr).sorted.imp (fun {a b} h => ne_of_lt h))
  · apply count_presentedAll_le_one j
    · intro r hr
      exact (hok r hr).sorted.imp (fun {a b} h => ne_of_lt h)
    · refine hno.imp_of_mem ?_
      intro r r' hr _ h x hx hxj
      apply h
      rw [(hkeep r hr).2.2]
      simp [hx, hxj]


/-! ## A step whose `reserve` always returns false -/

theorem fracGt_zero_left (n : Int) : fracGt 0 n = false := by
  unfold fracGt
  by_cases h : n = 0
  · simp [h]
  · simp [h]

theorem fracLt_zero_left (n : Int) (hn : 0 < n) : fracLt 0 n = true := by
  unfold fracLt
  simp [ne_of_gt hn]

theorem resize_zero (M crs n : Int) (hn : 0 < n) : resize M crs 0 n = min (crs * 2) M := by
  unfold resize
  rw [fracGt_zero_left, fracLt_zero_left n hn]
  simp

/-- Every run of a step whose `reserve` always returns false: all flags set by the reserve
loop are off. -/
theorem speculative_for_reserved_false {σ τ : Type} (S : Step σ τ)
    (hres : ∀ i t m, (S.reserve i t m).1 = false)
    (step : τ) (shared : σ) (s e g : Int) (hasState : Bool) (maxTries : Int) :
    ∀ r ∈ (speculative_for id S step shared s e g hasState maxTries).2.rounds,
      ∀ b ∈ r.reserved, b = false := by
  unfold speculative_for
  split
  · intro r hr; cases hr
  split
  · intro r hr; cases hr
  · obtain ⟨st, hP, hres⟩ := whileLoop_spec S hasState e (effMaxTries g maxTries)
      (maxRoundSizeOf s e g) (fun st => ∀ r ∈ st.rounds, ∀ b ∈ r.reserved, b = false)
      (by
        intro st hst _ _ _ r hr
        have hrounds : (roundBody id S hasState e (maxRoundSizeOf s e g) (bump st)).rounds
            = (bump st).rounds ++ [_] := rfl
        rw [hrounds] at hr
        rcases List.mem_append.mp hr with hr | hr
        · exact hst r hr
        · rw [List.mem_singleton] at hr
          rw [hr]
          dsimp only
          intro b hb
          obtain ⟨p, hp, hpb⟩ := List.getElem_of_mem hb
          have hl := reservePhase_keep_length id S hasState (bump st).Ihold (bump st).numberKeep
            (bump st).numberDone
            (min (bump st).currentRoundSize (e - (bump st).numberDone)).toNat (bump st).mem
          obtain ⟨t, m, ht⟩ := reservePhase_flag S hasState (bump st).Ihold (bump st).numberKeep
            (bump st).numberDone (bump st).mem
            (min (bump st).currentRoundSize (e - (bump st).numberDone)).toNat p (by omega)
          rw [List.getD_eq_getElem?_getD, List.getElem?_eq_getElem hp] at ht
          simp only [Option.getD_some] at ht
          rw [← hpb, ht]
          exact hres _ t m)
      ((effMaxTries g maxTries + 1).toNat + 1) (initLoop step shared s e g hasState)
      (fun r hr => by cases hr)
    rcases hres with h | h | h | h
    · rw [h.1]; exact hP
    · rw [h.1]; exact hP
    · rw [h.1]; exact hP
    · rw [h]; exact hP

theorem range_lt_mul_maxRoundSize (s e g : Int) (hg : 1 ≤ g) (hse : s ≤ e) :
    e - s < g * maxRoundSizeOf s e g := by
  unfold maxRoundSizeOf
  rw [Int.tdiv_eq_ediv (by omega) (by omega), mul_add, mul_one]
  have h1 := Int.emod_add_ediv (e - s) g
  have h3 := Int.emod_lt_of_pos (e - s) (show 0 < g by omega)
  omega

/-- A run, on a non-empty range with `granularity ≥ 1` and the default ceiling, of a step whose
`reserve` always returns false: it returns, in a state that satisfies the invariant, after at
most `granularity` rounds. -/
theorem speculative_for_accept {σ τ : Type} (S : Step σ τ)
    (hres : ∀ i t m, (S.reserve i t m).1 = false)
    (step : τ) (shared : σ) (s e g : Int) (hasState : Bool) (maxTries : Int)
    (hg : 1 ≤ g) (hse : s < e) (hmt : maxTries < 0) :
    ∃ st : Loop σ τ, Inv s e (maxRoundSizeOf s e g) st ∧ st.round ≤ g ∧ st.numberDone = e
      ∧ speculative_for id S step shared s e g hasState maxTries
          = (Outcome.returned st.totalProcessed, st) := by
  have hM := maxRoundSizeOf_pos s e g hg (le_of_lt hse)
  have hgM := range_lt_mul_maxRoundSize s e g hg (le_of_lt hse)
  have hmte : effMaxTries g maxTries = 100 + 200 * g := by
    unfold effMaxTries; rw [if_pos hmt]
  have hfuel := whileLoop_fuel S hasState e (effMaxTries g maxTries) (maxRoundSizeOf s e g)
    ((effMaxTries g maxTries + 1).toNat + 1) (initLoop step shared s e g hasState)
    (by show (effMaxTries g maxTries + 1 - 0).toNat + 1 ≤ _; simp)
  obtain ⟨st, ⟨hI, hk, hc, hr, hd, _⟩, hout⟩ := whileLoop_spec S hasState e
    (effMaxTries g maxTries) (maxRoundSizeOf s e g)
    (fun st => Inv s e (maxRoundSizeOf s e g) st
      ∧ (∀ r ∈ st.rounds, r.keep = r.I.map (fun _ => false))
      ∧ st.currentRoundSize = maxRoundSizeOf s e g ∧ st.round ≤ g
      ∧ (st.numberDone = e ∨ st.numberDone = s + st.round * maxRoundSizeOf s e g)
      ∧ st.Ihold = [])
    (by
      intro st ⟨hI, hk, hc, hr, hd, hH⟩ hlt _ _
      have hI' := Inv.step S hasState s e _ st hM hI hlt
      have hk' := roundBody_keep S hasState (fun _ => false)
        (fun i t m h => by cases h) (fun i t m h => by cases h)
        (fun i _ => Or.inl (hres i)) e (maxRoundSizeOf s e g) (bump st) hk
      have hK := hI.keepLen
      have hde := hI.doneLe
      have hrl := hI.roundsLen
      have hH0 : st.Ihold.length = 0 := by rw [hH]; rfl
      have hnd : st.numberDone = s + st.round * maxRoundSizeOf s e g := by
        rcases hd with h | h
        · omega
        · exact h
      have hrg : st.round < g := by
        have h1 : st.round * maxRoundSizeOf s e g < g * maxRoundSizeOf s e g := by omega
        exact lt_of_mul_lt_mul_right h1 (by omega)
      have hLsz : (st.Ihold.length : Int) ≤ min st.currentRoundSize (e - st.numberDone) := by
        omega
      obtain ⟨reserved, keep, mem, _, hKp, _, heq⟩ := roundBody_eq S hasState e
        (maxRoundSizeOf s e g) (bump st) hK hLsz
      simp only [bump_mem, bump_Ihold, bump_round, bump_numberDone, bump_numberKeep,
        bump_totalProcessed, bump_currentRoundSize, bump_rounds] at heq hKp
      have hkeep := hk' _ (by rw [heq]; exact List.mem_append_right _ (List.mem_singleton_self _))
      dsimp only at hkeep
      have hpack : pack (st.Ihold ++ irange (st.numberDone + st.numberKeep)
          ((min st.currentRoundSize (e - st.numberDone)).toNat - st.Ihold.length)) keep = [] := by
        rw [hkeep, pack_map_eq_filter]
        simp
      refine ⟨hI', hk', ?_, ?_, ?_, ?_⟩
      rotate_right
      · rw [heq]
        exact hpack
      · rw [heq]
        dsimp only
        rw [hpack, hc]
        show resize _ _ 0 _ = _
        rw [resize_zero _ _ _ (by omega)]
        omega
      · rw [heq]
        show st.round + 1 ≤ g
        omega
      · rw [heq]
        dsimp only
        rw [hpack, hc]
        show st.numberDone + (min (maxRoundSizeOf s e g) (e - st.numberDone) - 0) = e ∨
          st.numberDone + (min (maxRoundSizeOf s e g) (e - st.numberDone) - 0)
            = s + (st.round + 1) * maxRoundSizeOf s e g
        rw [add_mul, one_mul]
        omega)
    ((effMaxTries g maxTries + 1).toNat + 1) (initLoop step shared s e g hasState)
    ⟨Inv.init step shared s e g hasState (le_of_lt hse) hM, (fun r hr => (nomatch hr)), rfl,
      (by show (0 : Int) ≤ g; omega), Or.inr (by show s = s + 0 * _; simp), rfl⟩
  refine ⟨st, hI, hr, ?_⟩
  have hde := hI.doneLe
  have hK := hI.keepLen
  unfold speculative_for
  rw [if_neg (by omega)]
  rw [if_neg (by omega)]
  rcases hout with h | h | h | h
  · exact ⟨by have := h.2; omega, h.1⟩
  · exfalso
    have := h.2.2
    omega
  · exfalso
    have e1 : (maxRoundSizeOf s e g).tdiv 64 = maxRoundSizeOf s e g / 64 :=
      Int.tdiv_eq_ediv (by omega) (by omega)
    have h1 := hI.sizeLo
    rw [e1] at h1
    have := h.2
    omega
  · exfalso
    rw [h] at hfuel
    exact hfuel rfl

/-- With unconverted indices (`toIntT = id`): for `s < e`, `granularity ≥ 1` and the default
ceiling, if the step's `reserve` returns false for every index, then `commit` is never called, every
round carries over nothing, at most `granularity` rounds are executed, and `speculative_for` returns
`e - s`. -/
theorem wide_accept {σ τ : Type} (S : Step σ τ) (step : τ) (shared : σ)
    (s e g : Int) (hasState : Bool) (maxTries : Int)
    (hg : 1 ≤ g) (hse : s < e) (hmt : maxTries < 0)
    (hres : ∀ i t m, (S.reserve i t m).1 = false) :
    (speculative_for id S step shared s e g hasState maxTries).1 = Outcome.returned (e - s)
    ∧ (∀ r ∈ (speculative_for id S step shared s e g hasState maxTries).2.rounds,
        r.commitCalls = [] ∧ r.carried = [])
    ∧ ((speculative_for id S step shared s e g hasState maxTries).2.rounds.length : Int) ≤ g := by
  have hkeep := speculative_for_keep S (fun _ => false)
    (fun i t m h => by cases h) (fun i t m h => by cases h)
    (fun i _ => Or.inl (hres i)) step shared s e g hasState maxTries
  have hrf := speculative_for_reserved_false S hres step shared s e g hasState maxTries
  obtain ⟨st, hI, hr, hd, heq⟩ := speculative_for_accept S hres step shared s e g hasState
    maxTries hg hse hmt
  have hcar : ∀ r ∈ (speculative_for id S step shared s e g hasState maxTries).2.rounds,
      r.carried = [] := by
    intro r hr
    rw [(hkeep r hr).2.1]
    simp
  refine ⟨?_, fun r hr => ⟨pack_all_false r.I r.reserved (hrf r hr), hcar r hr⟩, ?_⟩
  · rw [heq] at hcar ⊢
    dsimp only at hcar ⊢
    have h1 := hI.carriedSum
    rw [(sum_carried_eq_zero st.rounds).mpr hcar, hd] at h1
    rw [h1]
    simp
  · rw [heq]
    dsimp only
    rw [hI.roundsLen]
    exact hr

/-! ## The floating point tests of the resizing rule, in integer terms -/

theorem scaleUp_succ (f N D : Nat) :
    scaleUp (f + 1) N D = if N / D < 2 ^ 23 then 1 + scaleUp f (2 * N) D else 0 := rfl

theorem scaleDown_succ (f N D : Nat) :
    scaleDown (f + 1) N D = if 2 ^ 24 ≤ N / D then 1 + scaleDown f N (2 * D) else 0 := rfl

theorem scaleUp_mul (c : Nat) (hc : 0 < c) : ∀ (f N D : Nat),
    scaleUp f (c * N) (c * D) = scaleUp f N D := by
  intro f
  induction f with
  | zero => intro N D; rfl
  | succ f ih =>
    intro N D
    rw [scaleUp_succ, scaleUp_succ, Nat.mul_div_mul_left _ _ hc]
    have : 2 * (c * N) = c * (2 * N) := by ring
    rw [this, ih]

theorem scaleDown_mul (c : Nat) (hc : 0 < c) : ∀ (f N D : Nat),
    scaleDown f (c * N) (c * D) = scaleDown f N D := by
  intro f
  induction f with
  | zero => intro N D; rfl
  | succ f ih =>
    intro N D
    rw [scaleDown_succ, scaleDown_succ, Nat.mul_div_mul_left _ _ hc]
    have : 2 * (c * D) = c * (2 * D) := by ring
    rw [this, ih]

/-- Rounding depends on the fraction only, not on its representation. -/
theorem roundF32_mul (c N D : Nat) (hc : 0 < c) : roundF32 (c * N) (c * D) = roundF32 N D := by
  unfold roundF32
  by_cases hN : N = 0
  · simp [hN]
  · have hcN : c * N ≠ 0 := Nat.mul_ne_zero (Nat.pos_iff_ne_zero.mp hc) hN
    rw [if_neg hcN, if_neg hN]
    simp only [scaleUp_mul c hc, scaleDown_mul c hc]
    have e1 : c * N * 2 ^ scaleUp 192 N D = c * (N * 2 ^ scaleUp 192 N D) := by ring
    have e2 : c * D * 2 ^ scaleDown 192 N D = c * (D * 2 ^ scaleDown 192 N D) := by ring
    rw [e1, e2, Nat.mul_div_mul_left _ _ hc, Nat.mul_mod_mul_left]
    have e3 : ∀ a b : Nat, (c * a < 2 * (c * b)) ↔ (a < 2 * b) := by
      intro a b
      rw [show 2 * (c * b) = c * (2 * b) by ring]
      exact Nat.mul_lt_mul_left hc
    have e4 : ∀ a b : Nat, (2 * (c * b) = c * a) ↔ (2 * b = a) := by
      intro a b
      rw [show 2 * (c * b) = c * (2 * b) by ring]
      exact Nat.mul_right_inj (Nat.pos_iff_ne_zero.mp hc)
    simp only [e3, e4]

theorem scaleUp_spec (D : Nat) (hD : 0 < D) : ∀ (f N : Nat), 2 ^ 23 * D ≤ N * 2 ^ f →
    2 ^ 23 * D ≤ N * 2 ^ scaleUp f N D ∧ ∀ v, v < scaleUp f N D → N * 2 ^ v < 2 ^ 23 * D := by
  intro f
  induction f with
  | zero =>
    intro N h
    exact ⟨h, fun v hv => by simp [scaleUp] at hv⟩
  | succ f ih =>
    intro N h
    rw [scaleUp_succ]
    by_cases hlt : N / D < 2 ^ 23
    · rw [if_pos hlt]
      have h' : 2 ^ 23 * D ≤ 2 * N * 2 ^ f := by
        rw [show 2 * N * 2 ^ f = N * 2 ^ (f + 1) by ring]; exact h
      obtain ⟨ih1, ih2⟩ := ih (2 * N) h'
      constructor
      · rw [show N * 2 ^ (1 + scaleUp f (2 * N) D) = 2 * N * 2 ^ scaleUp f (2 * N) D by ring]
        exact ih1
      · intro v hv
        cases v with
        | zero =>
          rw [pow_zero, mul_one]
          exact (Nat.div_lt_iff_lt_mul hD).mp hlt
        | succ v =>
          rw [show N * 2 ^ (v + 1) = 2 * N * 2 ^ v by ring]
          exact ih2 v (by omega)
    · rw [if_neg hlt]
      constructor
      · rw [pow_zero, mul_one]
        exact (Nat.le_div_iff_mul_le hD).mp (not_lt.mp hlt)
      · intro v hv; omega

/-- The binary32 value of an integer below `2^24` is the integer itself. -/
theorem roundF32_int (k : Nat) (hk : 0 < k) (hk2 : k < 2 ^ 24) :
    roundF32 k 1 = (k * 2 ^ scaleUp 192 k 1, 2 ^ scaleUp 192 k 1) := by
  unfold roundF32
  rw [if_neg (by omega)]
  have hd : scaleDown 192 k 1 = 0 := by
    show scaleDown (191 + 1) k 1 = 0
    rw [scaleDown_succ, if_neg (by rw [Nat.div_one]; omega)]
  simp only [hd, pow_zero, mul_one, Nat.div_one, Nat.mod_one]
  simp

/-- The quotient of two integers below `2^24`, rounded: the operands are exact. -/
theorem quotF32_eq (k n : Nat) (hk : 0 < k) (hk2 : k < 2 ^ 24) (hn : 0 < n) (hn2 : n < 2 ^ 24) :
    quotF32 k n = roundF32 k n := by
  unfold quotF32
  rw [roundF32_int k hk hk2, roundF32_int n hn hn2]
  dsimp only
  rw [show k * 2 ^ scaleUp 192 k 1 * 2 ^ scaleUp 192 n 1
      = 2 ^ scaleUp 192 k 1 * 2 ^ scaleUp 192 n 1 * k by ring,
    show 2 ^ scaleUp 192 k 1 * (n * 2 ^ scaleUp 192 n 1)
      = 2 ^ scaleUp 192 k 1 * 2 ^ scaleUp 192 n 1 * n by ring]
  exact roundF32_mul _ k n (Nat.mul_pos (Nat.two_pow_pos _) (Nat.two_pow_pos _))

/-- The rounded quotient of `0 < k ≤ n < 2^24`: significand `m`, exponent `-u`. -/
theorem roundF32_le_one (k n : Nat) (hk : 0 < k) (hkn : k ≤ n) (hn : n < 2 ^ 24) :
    ∃ u q0 rem : Nat,
      roundF32 k n
        = (if n < 2 * rem ∨ (2 * rem = n ∧ q0 % 2 = 1) then q0 + 1 else q0, 2 ^ u)
      ∧ k * 2 ^ u = n * q0 + rem ∧ rem < n ∧ 2 ^ 23 ≤ q0 ∧ q0 < 2 ^ 24
      ∧ ∀ v, v < u → k * 2 ^ v < 2 ^ 23 * n := by
  have hn0 : 0 < n := by omega
  have hfuel : 2 ^ 23 * n ≤ k * 2 ^ 192 := by
    calc 2 ^ 23 * n ≤ 2 ^ 23 * 2 ^ 24 := Nat.mul_le_mul_left _ (le_of_lt hn)
      _ ≤ 1 * 2 ^ 192 := by norm_num
      _ ≤ k * 2 ^ 192 := Nat.mul_le_mul_right _ hk
  obtain ⟨h1, h2⟩ := scaleUp_spec n hn0 192 k hfuel
  have hd : scaleDown 192 k n = 0 := by
    show scaleDown (191 + 1) k n = 0
    rw [scaleDown_succ, if_neg]
    have : k / n ≤ 1 := by
      rw [Nat.div_le_iff_le_mul_add_pred hn0]; omega
    omega
  have hdm := Nat.div_add_mod (k * 2 ^ scaleUp 192 k n) n
  have hml := Nat.mod_lt (k * 2 ^ scaleUp 192 k n) hn0
  have hq1 : 2 ^ 23 ≤ k * 2 ^ scaleUp 192 k n / n := (Nat.le_div_iff_mul_le hn0).mpr h1
  have hu : 0 < scaleUp 192 k n := by
    rcases Nat.eq_zero_or_pos (scaleUp 192 k n) with h | h
    · rw [h, pow_zero, mul_one] at h1
      have : 2 ^ 23 * n ≤ n := le_trans h1 hkn
      omega
    · exact h
  have hq2 : k * 2 ^ scaleUp 192 k n / n < 2 ^ 24 := by
    rw [Nat.div_lt_iff_lt_mul hn0]
    have := h2 (scaleUp 192 k n - 1) (by omega)
    have e : k * 2 ^ scaleUp 192 k n = 2 * (k * 2 ^ (scaleUp 192 k n - 1)) := by
      conv_lhs => rw [show scaleUp 192 k n = (scaleUp 192 k n - 1) + 1 by omega]
      ring
    rw [e]
    omega
  refine ⟨scaleUp 192 k n, k * 2 ^ scaleUp 192 k n / n, k * 2 ^ scaleUp 192 k n % n,
    ?_, hdm.symm, hml, hq1, hq2, h2⟩
  unfold roundF32
  rw [if_neg (by omega)]
  simp only [hd, pow_zero, mul_one]

theorem dconst_bounds : 2 ^ 51 < dconst ∧ dconst < 2 ^ 52
    ∧ 13421772 * 2 ^ 28 < dconst ∧ dconst < 13421773 * 2 ^ 28 := by
  unfold dconst
  norm_num

/-- The test `> .2` on the rounded quotient of `0 < k ≤ n < 2^24` holds exactly when
`n ≤ 5 k`. -/
theorem gt_core (k n u q0 rem : Nat) (hn0 : 0 < n) (hn : n < 2 ^ 24) (hk : 0 < k)
    (heq : k * 2 ^ u = n * q0 + rem) (hrem : rem < n) (hq1 : 2 ^ 23 ≤ q0) (hq2 : q0 < 2 ^ 24)
    (hmin : ∀ v, v < u → k * 2 ^ v < 2 ^ 23 * n) :
    dconst * 2 ^ u < (if n < 2 * rem ∨ (2 * rem = n ∧ q0 % 2 = 1) then q0 + 1 else q0) * 2 ^ 54
      ↔ n ≤ 5 * k := by
  obtain ⟨hd1, hd2, hd3, hd4⟩ := dconst_bounds
  have hm1 : q0 ≤ (if n < 2 * rem ∨ (2 * rem = n ∧ q0 % 2 = 1) then q0 + 1 else q0) := by
    split <;> omega
  have hm2 : (if n < 2 * rem ∨ (2 * rem = n ∧ q0 % 2 = 1) then q0 + 1 else q0) ≤ q0 + 1 := by
    split <;> omega
  rcases Nat.lt_trichotomy u 26 with hu | hu | hu
  · -- the quotient is at least 1/4
    have hp : 2 ^ u ≤ 2 ^ 25 := Nat.pow_le_pow_right (by decide) (by omega)
    have h1 : k * 2 ^ u ≤ k * 2 ^ 25 := Nat.mul_le_mul_left k hp
    have h2 : n * 2 ^ 23 ≤ n * q0 := Nat.mul_le_mul_left n hq1
    have h3 : dconst * 2 ^ u ≤ dconst * 2 ^ 25 := Nat.mul_le_mul_left _ hp
    have h4 : 2 ^ 23 * 2 ^ 54
        ≤ (if n < 2 * rem ∨ (2 * rem = n ∧ q0 % 2 = 1) then q0 + 1 else q0) * 2 ^ 54 :=
      Nat.mul_le_mul_right _ (le_trans hq1 hm1)
    have h5 : dconst * 2 ^ 25 < 2 ^ 23 * 2 ^ 54 := by
      have : dconst * 2 ^ 25 < 2 ^ 52 * 2 ^ 25 := Nat.mul_lt_mul_of_pos_right hd2 (by norm_num)
      calc dconst * 2 ^ 25 < 2 ^ 52 * 2 ^ 25 := this
        _ = 2 ^ 23 * 2 ^ 54 := by norm_num
    constructor
    · intro _
      norm_num at h1 h2
      omega
    · intro _
      omega
  · subst hu
    norm_num at heq
    constructor
    · intro h
      by_contra hcon
      have hq : q0 ≤ 13421771 := by
        by_contra hq
        have : n * 13421772 ≤ n * q0 := Nat.mul_le_mul_left n (by omega)
        omega
      have h6 : (if n < 2 * rem ∨ (2 * rem = n ∧ q0 % 2 = 1) then q0 + 1 else q0) * 2 ^ 54
          ≤ 13421772 * 2 ^ 54 := Nat.mul_le_mul_right _ (by omega)
      have h7 : 13421772 * 2 ^ 54 < dconst * 2 ^ 26 := by
        calc 13421772 * 2 ^ 54 = 13421772 * 2 ^ 28 * 2 ^ 26 := by norm_num
          _ < dconst * 2 ^ 26 := Nat.mul_lt_mul_of_pos_right hd3 (by norm_num)
      omega
    · intro h
      have hq : 13421772 ≤ q0 := by
        by_contra hq
        have : n * q0 ≤ n * 13421771 := Nat.mul_le_mul_left n (by omega)
        omega
      have hm : 13421773 ≤ (if n < 2 * rem ∨ (2 * rem = n ∧ q0 % 2 = 1) then q0 + 1 else q0) := by
        rcases Nat.eq_or_lt_of_le hq with hq' | hq'
        · subst hq'
          rw [if_pos (Or.inl (by omega))]
        · omega
      have h6 : 13421773 * 2 ^ 54
          ≤ (if n < 2 * rem ∨ (2 * rem = n ∧ q0 % 2 = 1) then q0 + 1 else q0) * 2 ^ 54 :=
        Nat.mul_le_mul_right _ hm
      have h7 : dconst * 2 ^ 26 < 13421773 * 2 ^ 54 := by
        calc dconst * 2 ^ 26 < 13421773 * 2 ^ 28 * 2 ^ 26 :=
              Nat.mul_lt_mul_of_pos_right hd4 (by norm_num)
          _ = 13421773 * 2 ^ 54 := by norm_num
      omega
  · -- the quotient is below 1/8
    have h1 := hmin 26 hu
    have hp : 2 ^ 27 ≤ 2 ^ u := Nat.pow_le_pow_right (by decide) (by omega)
    have h3 : dconst * 2 ^ 27 ≤ dconst * 2 ^ u := Nat.mul_le_mul_left _ hp
    have h4 : (if n < 2 * rem ∨ (2 * rem = n ∧ q0 % 2 = 1) then q0 + 1 else q0) * 2 ^ 54
        ≤ 2 ^ 24 * 2 ^ 54 := Nat.mul_le_mul_right _ (by omega)
    have h5 : 2 ^ 24 * 2 ^ 54 < dconst * 2 ^ 27 := by
      calc 2 ^ 24 * 2 ^ 54 = 2 ^ 51 * 2 ^ 27 := by norm_num
        _ < dconst * 2 ^ 27 := Nat.mul_lt_mul_of_pos_right hd1 (by norm_num)
    norm_num at h1
    constructor
    · intro _; omega
    · intro _; omega

/-- The test `< .1` on the rounded quotient of `0 < k ≤ n < 2^24` holds exactly when
`10 k < n`. -/
theorem lt_core (k n u q0 rem : Nat) (hn0 : 0 < n) (hn : n < 2 ^ 24) (hk : 0 < k)
    (heq : k * 2 ^ u = n * q0 + rem) (hrem : rem < n) (hq1 : 2 ^ 23 ≤ q0) (hq2 : q0 < 2 ^ 24)
    (hmin : ∀ v, v < u → k * 2 ^ v < 2 ^ 23 * n) :
    (if n < 2 * rem ∨ (2 * rem = n ∧ q0 % 2 = 1) then q0 + 1 else q0) * 2 ^ 55 < dconst * 2 ^ u
      ↔ 10 * k < n := by
  obtain ⟨hd1, hd2, hd3, hd4⟩ := dconst_bounds
  have hm1 : q0 ≤ (if n < 2 * rem ∨ (2 * rem = n ∧ q0 % 2 = 1) then q0 + 1 else q0) := by
    split <;> omega
  have hm2 : (if n < 2 * rem ∨ (2 * rem = n ∧ q0 % 2 = 1) then q0 + 1 else q0) ≤ q0 + 1 := by
    split <;> omega
  rcases Nat.lt_trichotomy u 27 with hu | hu | hu
  · -- the quotient is at least 1/8
    have hp : 2 ^ u ≤ 2 ^ 26 := Nat.pow_le_pow_right (by decide) (by omega)
    have h1 : k * 2 ^ u ≤ k * 2 ^ 26 := Nat.mul_le_mul_left k hp
    have h2 : n * 2 ^ 23 ≤ n * q0 := Nat.mul_le_mul_left n hq1
    have h3 : dconst * 2 ^ u ≤ dconst * 2 ^ 26 := Nat.mul_le_mul_left _ hp
    have h4 : 2 ^ 23 * 2 ^ 55
        ≤ (if n < 2 * rem ∨ (2 * rem = n ∧ q0 % 2 = 1) then q0 + 1 else q0) * 2 ^ 55 :=
      Nat.mul_le_mul_right _ (le_trans hq1 hm1)
    have h5 : dconst * 2 ^ 26 < 2 ^ 23 * 2 ^ 55 := by
      calc dconst * 2 ^ 26 < 2 ^ 52 * 2 ^ 26 := Nat.mul_lt_mul_of_pos_right hd2 (by norm_num)
        _ = 2 ^ 23 * 2 ^ 55 := by norm_num
    constructor
    · intro _; omega
    · intro _
      norm_num at h1 h2
      omega
  · subst hu
    norm_num at heq
    constructor
    · intro h
      by_contra hcon
      have hq : 13421772 ≤ q0 := by
        by_contra hq
        have : n * q0 ≤ n * 13421771 := Nat.mul_le_mul_left n (by omega)
        omega
      have hm : 13421773 ≤ (if n < 2 * rem ∨ (2 * rem = n ∧ q0 % 2 = 1) then q0 + 1 else q0) := by
        rcases Nat.eq_or_lt_of_le hq with hq' | hq'
        · subst hq'
          rw [if_pos (Or.inl (by omega))]
        · omega
      have h6 : 13421773 * 2 ^ 55
          ≤ (if n < 2 * rem ∨ (2 * rem = n ∧ q0 % 2 = 1) then q0 + 1 else q0) * 2 ^ 55 :=
        Nat.mul_le_mul_right _ hm
      have h7 : dconst * 2 ^ 27 < 13421773 * 2 ^ 55 := by
        calc dconst * 2 ^ 27 < 13421773 * 2 ^ 28 * 2 ^ 27 :=
              Nat.mul_lt_mul_of_pos_right hd4 (by norm_num)
          _ = 13421773 * 2 ^ 55 := by norm_num
      omega
    · intro h
      have hq : q0 ≤ 13421771 := by
        by_contra hq
        have : n * 13421772 ≤ n * q0 := Nat.mul_le_mul_left n (by omega)
        omega
      have h6 : (if n < 2 * rem ∨ (2 * rem = n ∧ q0 % 2 = 1) then q0 + 1 else q0) * 2 ^ 55
          ≤ 13421772 * 2 ^ 55 := Nat.mul_le_mul_right _ (by omega)
      have h7 : 13421772 * 2 ^ 55 < dconst * 2 ^ 27 := by
        calc 13421772 * 2 ^ 55 = 13421772 * 2 ^ 28 * 2 ^ 27 := by norm_num
          _ < dconst * 2 ^ 27 := Nat.mul_lt_mul_of_pos_right hd3 (by norm_num)
      omega
  · -- the quotient is below 1/16
    have h1 := hmin 27 hu
    have hp : 2 ^ 28 ≤ 2 ^ u := Nat.pow_le_pow_right (by decide) (by omega)
    have h3 : dconst * 2 ^ 28 ≤ dconst * 2 ^ u := Nat.mul_le_mul_left _ hp
    have h4 : (if n < 2 * rem ∨ (2 * rem = n ∧ q0 % 2 = 1) then q0 + 1 else q0) * 2 ^ 55
        ≤ 2 ^ 24 * 2 ^ 55 := Nat.mul_le_mul_right _ (by omega)
    have h5 : 2 ^ 24 * 2 ^ 55 < dconst * 2 ^ 28 := by
      calc 2 ^ 24 * 2 ^ 55 = 2 ^ 51 * 2 ^ 28 := by norm_num
        _ < dconst * 2 ^ 28 := Nat.mul_lt_mul_of_pos_right hd1 (by norm_num)
    norm_num at h1
    constructor
    · intro _; omega
    · intro _; omega

/-- For a round of fewer than `2^24` slots of which `k` are retried, the test
`float(k)/float(size) > .2` holds exactly when `size ≤ 5 k`. -/
theorem fracGt_iff (k n : Int) (hk : 0 ≤ k) (hkn : k ≤ n) (hn0 : 0 < n) (hn : n < 2 ^ 24) :
    fracGt k n = true ↔ n ≤ 5 * k := by
  obtain ⟨k', rfl⟩ := Int.eq_ofNat_of_zero_le hk
  obtain ⟨n', rfl⟩ := Int.eq_ofNat_of_zero_le (le_of_lt hn0)
  have hn0' : 0 < n' := by omega
  have hn' : n' < 2 ^ 24 := by omega
  have hkn' : k' ≤ n' := by omega
  unfold fracGt
  rw [if_neg (by omega)]
  by_cases hk0 : k' = 0
  · subst hk0
    rw [if_neg (by omega)]
    constructor
    · intro h; cases h
    · intro h; omega
  · have hk' : 0 < k' := Nat.pos_of_ne_zero hk0
    rw [if_pos (Or.inl ⟨by omega, hn0⟩)]
    simp only [Int.natAbs_ofNat]
    have hk2 : k' < 2 ^ 24 := by omega
    have hq := quotF32_eq k' n' hk' hk2 hn0' hn'
    show decide (dconst * (quotF32 k' n').2 < (quotF32 k' n').1 * 2 ^ 54) = true ↔ _
    rewrite [hq]
    obtain ⟨u, q0, rem, hr, heq, hrem, hq1, hq2, hmin⟩ := roundF32_le_one k' n' hk' hkn' hn'
    rewrite [hr, decide_eq_true_iff]
    dsimp only
    rw [gt_core k' n' u q0 rem hn0' hn' hk' heq hrem hq1 hq2 hmin]
    omega

/-- For a round of fewer than `2^24` slots of which `k` are retried, the test
`float(k)/float(size) < .1` holds exactly when `10 k < size`. -/
theorem fracLt_iff (k n : Int) (hk : 0 ≤ k) (hkn : k ≤ n) (hn0 : 0 < n) (hn : n < 2 ^ 24) :
    fracLt k n = true ↔ 10 * k < n := by
  obtain ⟨k', rfl⟩ := Int.eq_ofNat_of_zero_le hk
  obtain ⟨n', rfl⟩ := Int.eq_ofNat_of_zero_le (le_of_lt hn0)
  have hn0' : 0 < n' := by omega
  have hn' : n' < 2 ^ 24 := by omega
  have hkn' : k' ≤ n' := by omega
  unfold fracLt
  rw [if_neg (by omega)]
  by_cases hk0 : k' = 0
  · subst hk0
    rw [if_neg (by omega)]
    constructor
    · intro _; omega
    · intro _; rfl
  · have hk' : 0 < k' := Nat.pos_of_ne_zero hk0
    rw [if_pos (Or.inl ⟨by omega, hn0⟩)]
    simp only [Int.natAbs_ofNat]
    have hk2 : k' < 2 ^ 24 := by omega
    have hq := quotF32_eq k' n' hk' hk2 hn0' hn'
    show decide ((quotF32 k' n').1 * 2 ^ 55 < dconst * (quotF32 k' n').2) = true ↔ _
    rewrite [hq]
    obtain ⟨u, q0, rem, hr, heq, hrem, hq1, hq2, hmin⟩ := roundF32_le_one k' n' hk' hkn' hn'
    rewrite [hr, decide_eq_true_iff]
    dsimp only
    rw [lt_core k' n' u q0 rem hn0' hn' hk' heq hrem hq1 hq2 hmin]
    omega

/-- The adjustment of `currentRoundSize` in integer terms, for rounds below `2^24` slots. -/
theorem resize_eq (M crs k n : Int) (hk : 0 ≤ k) (hkn : k ≤ n) (hn0 : 0 < n) (hn : n < 2 ^ 24) :
    resize M crs k n =
      if n ≤ 5 * k then max (crs.tdiv 2) (max (M.tdiv 64 + 1) k)
      else if 10 * k < n then min (crs * 2) M
      else crs := by
  unfold resize
  by_cases h1 : n ≤ 5 * k
  · rw [if_pos ((fracGt_iff k n hk hkn hn0 hn).mpr h1), if_pos h1]
  · have h1' : ¬ fracGt k n = true := fun h => h1 ((fracGt_iff k n hk hkn hn0 hn).mp h)
    rw [if_neg h1', if_neg h1]
    by_cases h2 : 10 * k < n
    · rw [if_pos ((fracLt_iff k n hk hkn hn0 hn).mpr h2), if_pos h2]
    · have h2' : ¬ fracLt k n = true := fun h => h2 ((fracLt_iff k n hk hkn hn0 hn).mp h)
      rw [if_neg h2', if_neg h2]

/-! ## The resizing rule -/

/-- With unconverted indices (`toIntT = id`): after every round of `size` slots, `0 < size < 2^24`,
that leaves `k` pending indices, the next `currentRoundSize` is what the two binary32 tests of the
code select (`resize`), which is `max(currentRoundSize/2, max(maxRoundSize/64 + 1, k))` if `k/size ≥
0.2` (so also when exactly one fifth of the slots is retried), `min(2*currentRoundSize,
maxRoundSize)` if `k/size < 0.1`, and unchanged otherwise (so also when exactly one tenth of the
slots is retried). -/
theorem wide_resizing {σ τ : Type} (S : Step σ τ) (step : τ) (shared : σ)
    (s e g : Int) (hasState : Bool) (maxTries : Int) :
    ∀ r ∈ (speculative_for id S step shared s e g hasState maxTries).2.rounds,
      0 < r.size → r.size < 2 ^ 24 →
      r.nextRoundSize
          = resize (maxRoundSizeOf s e g) r.currentRoundSize r.carried.length r.size
      ∧ r.nextRoundSize =
        if r.size ≤ 5 * (r.carried.length : Int) then
          max (r.currentRoundSize.tdiv 2)
            (max ((maxRoundSizeOf s e g).tdiv 64 + 1) (r.carried.length : Int))
        else if 10 * (r.carried.length : Int) < r.size then
          min (r.currentRoundSize * 2) (maxRoundSizeOf s e g)
        else r.currentRoundSize := by
  intro r hr hs0 hs1
  have hok : RoundOK s e (maxRoundSizeOf s e g) r := by
    by_cases hse : e ≤ s
    · rw [speculative_for_empty S step shared s e g hasState maxTries hse] at hr
      cases hr
    by_cases hM : maxRoundSizeOf s e g ≤ 0
    · have := (speculative_for_degenerate_rounds S step shared s e g hasState maxTries hM r
        hr).2.2
      omega
    by_cases hg : g = 0
    · have : (speculative_for id S step shared s e g hasState maxTries).2.rounds = [] := by
        unfold speculative_for
        rw [if_pos hg]
        rfl
      rw [this] at hr
      cases hr
    obtain ⟨st, hI, hst⟩ := speculative_for_inv S step shared s e g hasState maxTries hg
      (by omega) (by omega)
    have hrounds : (speculative_for id S step shared s e g hasState maxTries).2.rounds
        = st.rounds := by
      rcases hst with h | h
      · rw [h]
      · rw [h, bump_rounds]
    rw [hrounds] at hr
    exact hI.roundsOK r hr
  have hlen : (r.carried.length : Int) ≤ r.size := by
    have h1 := pack_length_le r.I r.keep
    have h2 : r.I.length = r.size.toNat := by
      have := hok.pendLe
      rw [hok.idx, List.length_append, irange_length]; omega
    rw [RoundRec.carried]
    omega
  refine ⟨hok.next, ?_⟩
  rw [hok.next]
  exact resize_eq _ _ _ _ (by omega) hlen hs0 hs1


/-! ## The buffers of the driver -/

/-- A call `state[slot].reserve(idx)` leaves the length of `state` as it was. -/
theorem callReserve_state_length {σ τ : Type} (S : Step σ τ) (hasState : Bool) (slot : Nat)
    (idx : Int) (m : Mem σ τ) :
    (callReserve S hasState slot idx m).2.state.length = m.state.length := by
  unfold callReserve
  cases hasState <;> simp

/-- A call `state[slot].commit(idx)` leaves the length of `state` as it was. -/
theorem callCommit_state_length {σ τ : Type} (S : Step σ τ) (hasState : Bool) (slot : Nat)
    (idx : Int) (m : Mem σ τ) :
    (callCommit S hasState slot idx m).2.state.length = m.state.length := by
  unfold callCommit
  cases hasState <;> simp

theorem reservePhase_state_length {σ τ : Type} (S : Step σ τ) (hasState : Bool)
    (Ihold : List Int) (numberKeep numberDone : Int) (n : Nat) (m : Mem σ τ) :
    (reservePhase id S hasState Ihold numberKeep numberDone n m).2.2.state.length
      = m.state.length := by
  induction n with
  | zero => simp [reservePhase, parallel_for_zero]
  | succ n ih =>
    rw [reservePhase_succ]
    show (callReserve S hasState n _ _).2.state.length = _
    rw [callReserve_state_length, ih]

theorem commitPhase_state_length {σ τ : Type} (S : Step σ τ) (hasState : Bool) (I : List Int)
    (keep : List Bool) (n : Nat) (m : Mem σ τ) :
    (commitPhase S hasState I keep n m).2.state.length = m.state.length := by
  induction n with
  | zero => simp [commitPhase, parallel_for_zero]
  | succ n ih =>
    rw [commitPhase_succ]
    split
    · show (callCommit S hasState n _ _).2.state.length = _
      rw [callCommit_state_length, ih]
    · exact ih

/-- A round leaves the length of `state` as it was. -/
theorem roundBody_state_length {σ τ : Type} (S : Step σ τ) (hasState : Bool) (e M : Int)
    (st : Loop σ τ) :
    (roundBody id S hasState e M st).mem.state.length = st.mem.state.length := by
  show (commitPhase S hasState _ _ _ _).2.state.length = _
  rw [commitPhase_state_length, reservePhase_state_length]

/-- The state in which the loop stands after any number of evaluations of its test: it
satisfies the invariant, up to the increment of `round` made by an abort, and `state` has the
length it had on entry. -/
theorem whileLoop_reach {σ τ : Type} (S : Step σ τ) (hasState : Bool) (s e mt M : Int)
    (hM : 1 ≤ M) (n : Nat) (st : Loop σ τ) (h : Inv s e M st) :
    ∃ st' : Loop σ τ, Inv s e M st' ∧ st'.mem.state.length = st.mem.state.length
      ∧ ((whileLoop id S hasState e mt M n st).2 = st'
        ∨ (whileLoop id S hasState e mt M n st).2 = bump st') := by
  obtain ⟨st', ⟨hI, hL⟩, hres⟩ := whileLoop_spec S hasState e mt M
    (fun x => Inv s e M x ∧ x.mem.state.length = st.mem.state.length)
    (by
      intro x hx hlt _ _
      refine ⟨Inv.step S hasState s e M x hM hx.1 hlt, ?_⟩
      rw [roundBody_state_length, bump_mem]
      exact hx.2)
    n st ⟨h, rfl⟩
  refine ⟨st', hI, hL, ?_⟩
  rcases hres with h | h | h | h
  · rw [h.1]; exact Or.inl rfl
  · rw [h.1]; exact Or.inr rfl
  · rw [h.1]; exact Or.inr rfl
  · rw [h]; exact Or.inl rfl

theorem initLoop_state_length {σ τ : Type} (step : τ) (shared : σ) (s e g : Int)
    (hasState : Bool) (h : hasState = true) :
    (initLoop step shared s e g hasState).mem.state.length = (maxRoundSizeOf s e g).toNat := by
  subst h
  simp [initLoop]

/-- What the invariant gives for the buffers at the start of a round. -/
theorem Inv.buffers {σ τ : Type} (S : Step σ τ) (hasState : Bool) {s e M : Int} {st : Loop σ τ}
    (hM : 1 ≤ M) (h : Inv s e M st) (hL : hasState = true → st.mem.state.length = M.toNat) :
    st.numberKeep = st.Ihold.length
    ∧ (st.Ihold.length : Int) ≤ min st.currentRoundSize (e - st.numberDone)
    ∧ min st.currentRoundSize (e - st.numberDone) ≤ st.currentRoundSize
    ∧ st.currentRoundSize ≤ M
    ∧ st.numberDone + st.Ihold.length ≤ e
    ∧ (hasState = true → st.mem.state.length = M.toNat)
    ∧ (hasState = true → ∀ i : Nat, (i : Int) < min st.currentRoundSize (e - st.numberDone) →
        i < (reservePhase id S hasState st.Ihold st.numberKeep st.numberDone i
              st.mem).2.2.state.length
        ∧ i < (commitPhase S hasState
              (reservePhase id S hasState st.Ihold st.numberKeep st.numberDone
                (min st.currentRoundSize (e - st.numberDone)).toNat st.mem).1
              (reservePhase id S hasState st.Ihold st.numberKeep st.numberDone
                (min st.currentRoundSize (e - st.numberDone)).toNat st.mem).2.1 i
              (reservePhase id S hasState st.Ihold st.numberKeep st.numberDone
                (min st.currentRoundSize (e - st.numberDone)).toNat st.mem).2.2).2.state.length) := by
  have h1 := h.keepLen
  have h2 := h.doneLe
  have h3 := h.sizeLo
  have h4 := h.sizeHi
  refine ⟨h1, by omega, by omega, h4, by omega, hL, ?_⟩
  intro hs i hi
  rw [commitPhase_state_length, reservePhase_state_length, reservePhase_state_length, hL hs]
  omega

/-- With unconverted indices (`toIntT = id`): for `granularity ≥ 1` and `s ≤ e`. In every round of
the run, `|pending| ≤ size ≤ currentRoundSize ≤ maxRoundSize` and `numberDone + |pending| ≤ e`; the
carried-over indices are the first `|pending|` slots of the index list, so none is dropped, and
`I[0..size)`, the reserve flags and `keep[0..size)` have `size ≤ maxRoundSize` entries, within the
`maxRoundSize` slots of `I` and `keep`. At every evaluation of the loop test (the state `whileLoop`
stops in with fuel `n` is the state at the test number `n + 1`, or the final state when the loop has
ended before), `numberKeep` is the length of `Ihold`, the same bounds hold for the round about to
start, `state` has length `maxRoundSize` when `hasState`, and every slot `i < size` is below the
length `state` has when the reserve loop and the commit loop reach `state[i]`. -/
theorem wide_buffers {σ τ : Type} (S : Step σ τ) (step : τ) (shared : σ)
    (s e g : Int) (hasState : Bool) (maxTries : Int) (hg : 1 ≤ g) (hse : s ≤ e) :
    (∀ r ∈ (speculative_for id S step shared s e g hasState maxTries).2.rounds,
        (r.pending.length : Int) ≤ r.size ∧ r.size ≤ r.currentRoundSize
        ∧ r.currentRoundSize ≤ maxRoundSizeOf s e g
        ∧ r.numberDone + r.pending.length ≤ e
        ∧ r.I.take r.pending.length = r.pending
        ∧ r.I.length = r.size.toNat ∧ r.reserved.length = r.size.toNat
        ∧ r.keep.length = r.size.toNat
        ∧ r.size.toNat ≤ (maxRoundSizeOf s e g).toNat)
    ∧ (∀ (n : Nat) (st : Loop σ τ),
        (whileLoop id S hasState e (effMaxTries g maxTries) (maxRoundSizeOf s e g) n
          (initLoop step shared s e g hasState)).2 = st →
        st.numberKeep = st.Ihold.length
        ∧ (st.Ihold.length : Int) ≤ min st.currentRoundSize (e - st.numberDone)
        ∧ min st.currentRoundSize (e - st.numberDone) ≤ st.currentRoundSize
        ∧ st.currentRoundSize ≤ maxRoundSizeOf s e g
        ∧ st.numberDone + st.Ihold.length ≤ e
        ∧ (hasState = true → st.mem.state.length = (maxRoundSizeOf s e g).toNat)
        ∧ (hasState = true → ∀ i : Nat,
            (i : Int) < min st.currentRoundSize (e - st.numberDone) →
            i < (reservePhase id S hasState st.Ihold st.numberKeep st.numberDone i
                  st.mem).2.2.state.length
            ∧ i < (commitPhase S hasState
                  (reservePhase id S hasState st.Ihold st.numberKeep st.numberDone
                    (min st.currentRoundSize (e - st.numberDone)).toNat st.mem).1
                  (reservePhase id S hasState st.Ihold st.numberKeep st.numberDone
                    (min st.currentRoundSize (e - st.numberDone)).toNat st.mem).2.1 i
                  (reservePhase id S hasState st.Ihold st.numberKeep st.numberDone
                    (min st.currentRoundSize (e - st.numberDone)).toNat
                    st.mem).2.2).2.state.length)) := by
  have hM := maxRoundSizeOf_pos s e g hg hse
  constructor
  · obtain ⟨h1, _, _⟩ := speculative_for_history S step shared s e g hasState maxTries hg hse
    intro r hr
    have hok := h1 r hr
    have hp := hok.pendLe
    have hs := hok.sizeEq
    have hc := hok.crsLe
    have hlen : r.I.length = r.size.toNat := by
      rw [hok.idx, List.length_append, irange_length]
      omega
    refine ⟨hp, by omega, hc, by omega, ?_, hlen, hok.lenR, hok.lenK, by omega⟩
    conv_lhs => rw [hok.idx]
    exact List.take_left' rfl
  · intro n st hst
    obtain ⟨st', hI, hL, hres⟩ := whileLoop_reach S hasState s e (effMaxTries g maxTries)
      (maxRoundSizeOf s e g) hM n (initLoop step shared s e g hasState)
      (Inv.init step shared s e g hasState hse hM)
    have hb := Inv.buffers S hasState hM hI
      (fun hs => by rw [hL]; exact initLoop_state_length step shared s e g hasState hs)
    rcases hres with h | h
    · rw [← hst, h]; exact hb
    · rw [← hst, h]; exact hb

/-! ## The maximum round size -/

theorem ceilDiv_spec (a b : Int) (hb : 0 < b) :
    b * (ceilDiv a b - 1) < a ∧ a ≤ b * ceilDiv a b := by
  unfold ceilDiv
  have h1 := Int.emod_add_ediv (a + b - 1) b
  have h2 := Int.emod_nonneg (a + b - 1) (ne_of_gt hb)
  have h3 := Int.emod_lt_of_pos (a + b - 1) hb
  constructor
  · rw [mul_sub, mul_one]; omega
  · omega

/-- C15, refuted as stated: on `[0, 8)` with granularity 1 the code computes
`maxRoundSize = 9`, while `ceil(8 / 1) = 8`. -/
theorem max_round_size_counterexample :
    maxRoundSizeOf 0 8 1 = 9 ∧ ceilDiv (8 - 0) 1 = 8
    ∧ (initLoop () () 0 8 1 true).currentRoundSize = 9 := by
  decide

/-- C15, amended: for `s < e` and `granularity ≥ 1`, `maxRoundSize` is the quotient of
`e - s` by `granularity` rounded down, plus one; this is `ceil((e - s) / granularity)` when
`granularity` does not divide `e - s` and one more than that when it does; and
`currentRoundSize` is initialised to `maxRoundSize`. -/
theorem max_round_size_floor {σ τ : Type} (step : τ) (shared : σ) (s e g : Int)
    (hasState : Bool) (hse : s < e) (hg : 1 ≤ g) :
    maxRoundSizeOf s e g = (e - s) / g + 1
    ∧ (g ∣ e - s → maxRoundSizeOf s e g = ceilDiv (e - s) g + 1)
    ∧ (¬ g ∣ e - s → maxRoundSizeOf s e g = ceilDiv (e - s) g)
    ∧ (initLoop step shared s e g hasState).currentRoundSize = maxRoundSizeOf s e g := by
  have h0 : maxRoundSizeOf s e g = (e - s) / g + 1 := by
    unfold maxRoundSizeOf
    rw [Int.tdiv_eq_ediv (by omega) (by omega)]
  have hc := ceilDiv_spec (e - s) g (by omega)
  have h1 := Int.emod_add_ediv (e - s) g
  have h2 := Int.emod_nonneg (e - s) (show g ≠ 0 by omega)
  have h3 := Int.emod_lt_of_pos (e - s) (show 0 < g by omega)
  refine ⟨h0, ?_, ?_, rfl⟩
  · intro hd
    have h4 : (e - s) % g = 0 := Int.emod_eq_zero_of_dvd hd
    rw [h0]
    have h5 : g * ((e - s) / g) = e - s := by omega
    have h6 : g * (ceilDiv (e - s) g - 1) < g * ((e - s) / g) := by rw [h5]; exact hc.1
    have h7 : g * ((e - s) / g) ≤ g * ceilDiv (e - s) g := by rw [h5]; exact hc.2
    have h8 := lt_of_mul_lt_mul_left h6 (by omega : (0 : Int) ≤ g)
    have h9 := le_of_mul_le_mul_left h7 (by omega : (0 : Int) < g)
    omega
  · intro hd
    have h4 : (e - s) % g ≠ 0 := fun h => hd (Int.dvd_of_emod_eq_zero h)
    rw [h0]
    have h6 : g * (ceilDiv (e - s) g - 1) < g * ((e - s) / g + 1) := by
      rw [mul_add, mul_one]; omega
    have h7 : g * ((e - s) / g) < g * ceilDiv (e - s) g := by omega
    have h8 := lt_of_mul_lt_mul_left h6 (by omega : (0 : Int) ≤ g)
    have h9 := lt_of_mul_lt_mul_left h7 (by omega : (0 : Int) ≤ g)
    omega

/-- C15 (amended) on `[0, 8)` with granularity 1, which divides 8: `maxRoundSize` is one more
than the ceiling. -/
theorem max_round_size_floor_witness :
    maxRoundSizeOf 0 8 1 = ceilDiv (8 - 0) 1 + 1 :=
  (max_round_size_floor () () 0 8 1 true (by decide) (by decide)).2.1 (by decide)

/-! ## Runs over converted indices -/

theorem pack_map {α β : Type} (f : α → β) : ∀ (xs : List α) (bs : List Bool),
    pack (xs.map f) bs = (pack xs bs).map f
  | [], bs => by simp [pack_nil_left]
  | x :: xs, [] => by simp [pack]
  | x :: xs, b :: bs => by
    have ih := pack_map f xs bs
    cases b <;> simp [pack, ih]

theorem getD_map_zero (cv : Int → Int) (l : List Int) (i : Nat) (h : i < l.length) :
    (l.map cv).getD i 0 = cv (l.getD i 0) := by
  rw [List.getD_eq_getElem?_getD, List.getD_eq_getElem?_getD, List.getElem?_map,
    List.getElem?_eq_getElem h]
  rfl

theorem slotIndex_onIntT (cv : Int → Int) (Ihold : List Int) (numberKeep numberDone : Int)
    (i : Nat) (hK : numberKeep = Ihold.length) :
    slotIndex cv (Ihold.map cv) numberKeep numberDone i
      = cv (slotIndex id Ihold numberKeep numberDone i) := by
  unfold slotIndex
  by_cases h : (i : Int) < numberKeep
  · rw [if_pos h, if_pos h]
    exact getD_map_zero cv Ihold i (by omega)
  · rw [if_neg h, if_neg h]
    rfl

theorem callReserve_onIntT {σ τ : Type} (cv : Int → Int) (S : Step σ τ) (hasState : Bool)
    (slot : Nat) (idx : Int) (m : Mem σ τ) :
    callReserve (S.onIntT cv) hasState slot idx m = callReserve S hasState slot (cv idx) m := by
  cases hasState <;> rfl

theorem callCommit_onIntT {σ τ : Type} (cv : Int → Int) (S : Step σ τ) (hasState : Bool)
    (slot : Nat) (idx : Int) (m : Mem σ τ) :
    callCommit (S.onIntT cv) hasState slot idx m = callCommit S hasState slot (cv idx) m := by
  cases hasState <;> rfl

/-- The reserve loop over converted indices makes the calls of the reserve loop of `S.onIntT`
over unconverted ones. -/
theorem reservePhase_onIntT {σ τ : Type} (cv : Int → Int) (S : Step σ τ) (hasState : Bool)
    (Ihold : List Int) (numberKeep numberDone : Int) (hK : numberKeep = Ihold.length)
    (n : Nat) (m : Mem σ τ) :
    reservePhase cv S hasState (Ihold.map cv) numberKeep numberDone n m
      = (((reservePhase id (S.onIntT cv) hasState Ihold numberKeep numberDone n m).1).map cv,
         (reservePhase id (S.onIntT cv) hasState Ihold numberKeep numberDone n m).2.1,
         (reservePhase id (S.onIntT cv) hasState Ihold numberKeep numberDone n m).2.2) := by
  induction n with
  | zero => simp [reservePhase, parallel_for_zero]
  | succ n ih =>
    rw [reservePhase_succ cv, reservePhase_succ id, ih]
    simp only [slotIndex_onIntT cv Ihold numberKeep numberDone n hK, callReserve_onIntT,
      List.map_append, List.map_cons, List.map_nil]

theorem commitPhase_onIntT {σ τ : Type} (cv : Int → Int) (S : Step σ τ) (hasState : Bool)
    (I : List Int) (keep : List Bool) (m : Mem σ τ) (n : Nat) (hn : n ≤ I.length) :
    commitPhase S hasState (I.map cv) keep n m
      = commitPhase (S.onIntT cv) hasState I keep n m := by
  induction n with
  | zero => simp [commitPhase, parallel_for_zero]
  | succ n ih =>
    rw [commitPhase_succ, commitPhase_succ, ih (by omega), callCommit_onIntT,
      getD_map_zero cv I n (by omega)]

/-- One round over converted indices, from the state of a run over unconverted ones. -/
theorem roundBody_onIntT {σ τ : Type} (cv : Int → Int) (S : Step σ τ) (hasState : Bool)
    (e M : Int) (st : Loop σ τ) (hK : st.numberKeep = st.Ihold.length) :
    roundBody cv S hasState e M (st.mapIdx cv)
      = (roundBody id (S.onIntT cv) hasState e M st).mapIdx cv := by
  have hlen := reservePhase_fst id (S.onIntT cv) hasState st.Ihold st.numberKeep st.numberDone
    (min st.currentRoundSize (e - st.numberDone)).toNat st.mem
  have h1 := reservePhase_onIntT cv S hasState st.Ihold st.numberKeep st.numberDone hK
    (min st.currentRoundSize (e - st.numberDone)).toNat st.mem
  have h2 := commitPhase_onIntT cv S hasState
    (reservePhase id (S.onIntT cv) hasState st.Ihold st.numberKeep st.numberDone
      (min st.currentRoundSize (e - st.numberDone)).toNat st.mem).1
    (reservePhase id (S.onIntT cv) hasState st.Ihold st.numberKeep st.numberDone
      (min st.currentRoundSize (e - st.numberDone)).toNat st.mem).2.1
    (reservePhase id (S.onIntT cv) hasState st.Ihold st.numberKeep st.numberDone
      (min st.currentRoundSize (e - st.numberDone)).toNat st.mem).2.2
    (min st.currentRoundSize (e - st.numberDone)).toNat (by rw [hlen]; simp)
  show roundBody cv S hasState e M
      { st with Ihold := st.Ihold.map cv, rounds := st.rounds.map (RoundRec.mapIdx cv) } = _
  unfold roundBody
  dsimp only
  rw [h1]
  dsimp only
  rw [h2, pack_map]
  simp only [Loop.mapIdx, RoundRec.mapIdx, List.length_map, List.map_append, List.map_cons,
    List.map_nil]

theorem Loop.mapIdx_bump {σ τ : Type} (cv : Int → Int) (st : Loop σ τ) :
    (bump st).mapIdx cv = bump (st.mapIdx cv) := rfl

/-- The loop over converted indices, from a state of the loop of `S.onIntT` over unconverted
ones: the two loops end in the same way, in corresponding states. -/
theorem whileLoop_onIntT {σ τ : Type} (cv : Int → Int) (S : Step σ τ) (hasState : Bool)
    (e mt M : Int) : ∀ (fuel : Nat) (st : Loop σ τ), st.numberKeep = st.Ihold.length →
      whileLoop cv S hasState e mt M fuel (st.mapIdx cv)
        = ((whileLoop id (S.onIntT cv) hasState e mt M fuel st).1,
           (whileLoop id (S.onIntT cv) hasState e mt M fuel st).2.mapIdx cv) := by
  intro fuel
  induction fuel with
  | zero => intro st _; rfl
  | succ n ih =>
    intro st hK
    unfold whileLoop
    show (if st.numberDone < e then
        if st.round > mt then (Outcome.aborted, bump (st.mapIdx cv))
        else if min st.currentRoundSize (e - st.numberDone) < 0 then
          (Outcome.undefined, bump (st.mapIdx cv))
        else whileLoop cv S hasState e mt M n (roundBody cv S hasState e M (bump (st.mapIdx cv)))
      else (Outcome.returned st.totalProcessed, st.mapIdx cv)) = _
    by_cases h1 : st.numberDone < e
    · rw [if_pos h1, if_pos h1]
      by_cases h2 : st.round > mt
      · rw [if_pos h2, if_pos h2]; rfl
      · rw [if_neg h2, if_neg h2]
        by_cases h3 : min st.currentRoundSize (e - st.numberDone) < 0
        · rw [if_pos h3, if_pos h3]; rfl
        · rw [if_neg h3, if_neg h3, ← Loop.mapIdx_bump,
            roundBody_onIntT cv S hasState e M (bump st) hK]
          exact ih _ rfl
    · rw [if_neg h1, if_neg h1]

/-- A run over converted indices ends as the run of `S.onIntT` over unconverted indices does,
with the same counters, flags and memory; its lists hold the converted indices. -/
theorem speculative_for_onIntT {σ τ : Type} (cv : Int → Int) (S : Step σ τ) (step : τ)
    (shared : σ) (s e g : Int) (hasState : Bool) (maxTries : Int) :
    speculative_for cv S step shared s e g hasState maxTries
      = ((speculative_for id (S.onIntT cv) step shared s e g hasState maxTries).1,
         (speculative_for id (S.onIntT cv) step shared s e g hasState maxTries).2.mapIdx cv) := by
  unfold speculative_for
  by_cases hg : g = 0
  · rw [if_pos hg, if_pos hg]; rfl
  · rw [if_neg hg, if_neg hg]
    by_cases hM : maxRoundSizeOf s e g < 0
    · rw [if_pos hM, if_pos hM]; rfl
    · rw [if_neg hM, if_neg hM]
      exact whileLoop_onIntT cv S hasState e _ _ _ (initLoop step shared s e g hasState) rfl

/-! ## Ranges that are representable in `intT` -/

theorem reservePhase_fit {σ τ : Type} (cv : Int → Int) (S : Step σ τ) (hasState : Bool)
    (Ihold : List Int) (numberKeep numberDone s e : Int)
    (hfit : ∀ x, s ≤ x → x < e → cv x = x) (hs : s ≤ numberDone) (m : Mem σ τ) :
    ∀ (n : Nat), (∀ i : Nat, i < n → numberDone + i < e) →
      reservePhase cv S hasState Ihold numberKeep numberDone n m
        = reservePhase id S hasState Ihold numberKeep numberDone n m := by
  intro n
  induction n with
  | zero => intro _; rfl
  | succ n ih =>
    intro hn
    have hsl : slotIndex cv Ihold numberKeep numberDone n
        = slotIndex id Ihold numberKeep numberDone n := by
      unfold slotIndex
      split
      · rfl
      · exact hfit _ (by omega) (hn n (by omega))
    rw [reservePhase_succ cv, reservePhase_succ id, ih (fun i hi => hn i (by omega)), hsl]

theorem roundBody_fit {σ τ : Type} (cv : Int → Int) (S : Step σ τ) (hasState : Bool)
    (s e M : Int) (hfit : ∀ x, s ≤ x → x < e → cv x = x) (st : Loop σ τ)
    (hs : s ≤ st.numberDone) :
    roundBody cv S hasState e M st = roundBody id S hasState e M st := by
  unfold roundBody
  dsimp only
  rw [reservePhase_fit cv S hasState st.Ihold st.numberKeep st.numberDone s e hfit hs st.mem
    (min st.currentRoundSize (e - st.numberDone)).toNat (by intro i hi; omega)]

theorem roundBody_numberDone_le {σ τ : Type} (cv : Int → Int) (S : Step σ τ) (hasState : Bool)
    (e M : Int) (st : Loop σ τ) (h : 0 ≤ min st.currentRoundSize (e - st.numberDone)) :
    st.numberDone ≤ (roundBody cv S hasState e M st).numberDone := by
  show st.numberDone ≤ st.numberDone + (min st.currentRoundSize (e - st.numberDone)
    - ((pack _ _ : List Int).length : Int))
  have h1 := pack_length_le
    (reservePhase cv S hasState st.Ihold st.numberKeep st.numberDone
      (min st.currentRoundSize (e - st.numberDone)).toNat st.mem).1
    (commitPhase S hasState
      (reservePhase cv S hasState st.Ihold st.numberKeep st.numberDone
        (min st.currentRoundSize (e - st.numberDone)).toNat st.mem).1
      (reservePhase cv S hasState st.Ihold st.numberKeep st.numberDone
        (min st.currentRoundSize (e - st.numberDone)).toNat st.mem).2.1
      (min st.currentRoundSize (e - st.numberDone)).toNat
      (reservePhase cv S hasState st.Ihold st.numberKeep st.numberDone
        (min st.currentRoundSize (e - st.numberDone)).toNat st.mem).2.2).1
  rw [reservePhase_fst cv] at h1
  simp only [List.length_map, List.length_range] at h1
  rw [reservePhase_fst cv]
  omega

theorem whileLoop_fit {σ τ : Type} (cv : Int → Int) (S : Step σ τ) (hasState : Bool)
    (s e mt M : Int) (hfit : ∀ x, s ≤ x → x < e → cv x = x) :
    ∀ (fuel : Nat) (st : Loop σ τ), s ≤ st.numberDone →
      whileLoop cv S hasState e mt M fuel st = whileLoop id S hasState e mt M fuel st := by
  intro fuel
  induction fuel with
  | zero => intro st _; rfl
  | succ n ih =>
    intro st hs
    unfold whileLoop
    by_cases h1 : st.numberDone < e
    · rw [if_pos h1, if_pos h1]
      by_cases h2 : st.round > mt
      · rw [if_pos h2, if_pos h2]
      · rw [if_neg h2, if_neg h2]
        by_cases h3 : min st.currentRoundSize (e - st.numberDone) < 0
        · rw [if_pos h3, if_pos h3]
        · rw [if_neg h3, if_neg h3,
            roundBody_fit cv S hasState s e M hfit (bump st) hs]
          apply ih
          exact le_trans hs (roundBody_numberDone_le id S hasState e M (bump st) (not_lt.mp h3))
    · rw [if_neg h1, if_neg h1]

/-- When the conversion to `intT` leaves every index of `[s, e)` unchanged, the run is the run
over unconverted indices. -/
theorem speculative_for_fit {σ τ : Type} (cv : Int → Int) (S : Step σ τ) (step : τ)
    (shared : σ) (s e g : Int) (hasState : Bool) (maxTries : Int)
    (hfit : ∀ x, s ≤ x → x < e → cv x = x) :
    speculative_for cv S step shared s e g hasState maxTries
      = speculative_for id S step shared s e g hasState maxTries := by
  unfold speculative_for
  rw [whileLoop_fit cv S hasState s e _ _ hfit _ (initLoop step shared s e g hasState)
    (le_refl s)]

/-! ## Histories over converted indices -/

theorem RoundRec.carried_mapIdx (f : Int → Int) (r : RoundRec) :
    (r.mapIdx f).carried = r.carried.map f := pack_map f r.I r.keep

theorem RoundRec.resolved_mapIdx (f : Int → Int) (r : RoundRec) :
    (r.mapIdx f).resolved = r.resolved.map f := pack_map f r.I _

theorem RoundRec.commitCalls_mapIdx (f : Int → Int) (r : RoundRec) :
    (r.mapIdx f).commitCalls = r.commitCalls.map f := pack_map f r.I r.reserved

theorem RoundRec.committed_mapIdx (f : Int → Int) (r : RoundRec) :
    (r.mapIdx f).committed = r.committed.map f := pack_map f r.I _

theorem resolvedAll_mapIdx (f : Int → Int) : ∀ (rs : List RoundRec),
    resolvedAll (rs.map (RoundRec.mapIdx f)) = (resolvedAll rs).map f
  | [] => rfl
  | r :: rs => by
    simp only [List.map_cons, resolvedAll, List.map_append, RoundRec.resolved_mapIdx,
      resolvedAll_mapIdx f rs]

theorem committedAll_mapIdx (f : Int → Int) : ∀ (rs : List RoundRec),
    committedAll (rs.map (RoundRec.mapIdx f)) = (committedAll rs).map f
  | [] => rfl
  | r :: rs => by
    simp only [List.map_cons, committedAll, List.map_append, RoundRec.committed_mapIdx,
      committedAll_mapIdx f rs]

theorem map_size_mapIdx (f : Int → Int) (rs : List RoundRec) :
    (rs.map (RoundRec.mapIdx f)).map RoundRec.size = rs.map RoundRec.size := by
  rw [List.map_map]
  rfl

theorem map_carried_length_mapIdx (f : Int → Int) (rs : List RoundRec) :
    (rs.map (RoundRec.mapIdx f)).map (fun r : RoundRec => (r.carried.length : Int))
      = rs.map (fun r : RoundRec => (r.carried.length : Int)) := by
  rw [List.map_map]
  apply List.map_congr_left
  intro r _
  show (((r.mapIdx f).carried.length : Nat) : Int) = _
  rw [RoundRec.carried_mapIdx, List.length_map]

/-- The run of `S.onIntT` over unconverted indices that a run over converted indices
corresponds to. -/
theorem speculative_for_conv {σ τ : Type} (cv : Int → Int) (S : Step σ τ) (step : τ)
    (shared : σ) (s e g : Int) (hasState : Bool) (maxTries : Int) (o : Outcome)
    (out : Loop σ τ) (hres : speculative_for cv S step shared s e g hasState maxTries = (o, out)) :
    speculative_for id (S.onIntT cv) step shared s e g hasState maxTries
        = (o, (speculative_for id (S.onIntT cv) step shared s e g hasState maxTries).2)
      ∧ out = (speculative_for id (S.onIntT cv) step shared s e g hasState maxTries).2.mapIdx cv
      ∧ out.rounds = (speculative_for id (S.onIntT cv) step shared s e g hasState
          maxTries).2.rounds.map (RoundRec.mapIdx cv) := by
  rw [speculative_for_onIntT] at hres
  simp only [Prod.mk.injEq] at hres
  refine ⟨Prod.ext hres.1 rfl, hres.2.symm, ?_⟩
  rw [← hres.2]
  rfl

theorem speculative_for_conv_rounds {σ τ : Type} (cv : Int → Int) (S : Step σ τ) (step : τ)
    (shared : σ) (s e g : Int) (hasState : Bool) (maxTries : Int) :
    (speculative_for cv S step shared s e g hasState maxTries).2.rounds
      = (speculative_for id (S.onIntT cv) step shared s e g hasState
          maxTries).2.rounds.map (RoundRec.mapIdx cv) := by
  rw [speculative_for_onIntT]
  rfl

theorem speculative_for_conv_fst {σ τ : Type} (cv : Int → Int) (S : Step σ τ) (step : τ)
    (shared : σ) (s e g : Int) (hasState : Bool) (maxTries : Int) :
    (speculative_for cv S step shared s e g hasState maxTries).1
      = (speculative_for id (S.onIntT cv) step shared s e g hasState maxTries).1 := by
  rw [speculative_for_onIntT]

/-- The conversion to a two's complement type leaves the values of the type unchanged. -/
theorem wrapIntT_of_mem (max_int x : Int) (h1 : -(max_int + 1) ≤ x) (h2 : x ≤ max_int) :
    wrapIntT max_int x = x := by
  unfold wrapIntT
  have h3 : 0 ≤ x + (max_int + 1) := by omega
  have h4 : x + (max_int + 1) < 2 * (max_int + 1) := by omega
  rw [Int.emod_eq_of_lt h3 h4]
  omega

/-! ## Concrete runs -/

theorem contendRun_eq :
    speculative_for (wrapIntT 100) contendStep () (freshRegisters 100) 0 2 1 true (-1)
      = (Outcome.returned 3, contendRun.2) :=
  Prod.ext (by rfl) rfl

theorem wrapIntT_small (x : Int) (h1 : 0 ≤ x) (h2 : x < 2) : wrapIntT 100 x = x :=
  wrapIntT_of_mem 100 x (by omega) (by omega)

/-! ## Coverage -/

/-- C2, refuted as stated: for a 32-bit `intT`, the run of `acceptStep` on
`[2147483647, 2147483649)` returns, and the index list of its round is
`2147483647, -2147483648`: the second call of `reserve` is on an index outside the range, and
the index 2147483648 of the range is not among the resolved ones. -/
theorem coverage_counterexample :
    edgeRun.1 = Outcome.returned 2
    ∧ edgeRun.2.rounds.map RoundRec.I = [[2147483647, -2147483648]]
    ∧ (-2147483648 : Int) < 2147483647
    ∧ (2147483648 : Int) ∉ resolvedAll edgeRun.2.rounds := by
  decide!

/-- C2, amended: for `granularity ≥ 1` and `s ≤ e`, when `speculative_for` returns, the
resolved slots over all rounds hold, each once, the conversions to `intT` of the indices of
`[s, e)` (a slot is resolved when its `reserve` returned false or its `commit` returned true);
the pending list is empty and `numberDone = e`; and every index passed to `reserve` or
`commit` is the conversion of an index of `[s, e)`.  When the conversion leaves the indices of
`[s, e)` unchanged, the resolved indices are exactly those of `[s, e)`, each resolved once, and
every index passed to `reserve` or `commit` lies in `[s, e)`. -/
theorem coverage {σ τ : Type} (toIntT : Int → Int) (S : Step σ τ) (step : τ) (shared : σ)
    (s e g : Int) (hasState : Bool) (maxTries : Int) (hg : 1 ≤ g) (hse : s ≤ e)
    (n : Int) (out : Loop σ τ)
    (hret : speculative_for toIntT S step shared s e g hasState maxTries
      = (Outcome.returned n, out)) :
    (resolvedAll out.rounds).Perm ((irange s (e - s).toNat).map toIntT)
    ∧ (∀ r ∈ out.rounds, r.resolved.Perm (pack r.I (r.reserved.map (fun b => !b)) ++ r.committed))
    ∧ out.Ihold = [] ∧ out.numberKeep = 0 ∧ out.numberDone = e
    ∧ (∀ r ∈ out.rounds, ∀ x ∈ r.I, ∃ p, s ≤ p ∧ p < e ∧ x = toIntT p)
    ∧ (∀ r ∈ out.rounds, ∀ x ∈ r.commitCalls, ∃ p, s ≤ p ∧ p < e ∧ x = toIntT p)
    ∧ ((∀ x, s ≤ x → x < e → toIntT x = x) →
        (resolvedAll out.rounds).Perm (irange s (e - s).toNat)
        ∧ (∀ i, s ≤ i → i < e → (resolvedAll out.rounds).count i = 1)
        ∧ (∀ i ∈ resolvedAll out.rounds, s ≤ i ∧ i < e)
        ∧ (∀ r ∈ out.rounds, ∀ x ∈ r.I, s ≤ x ∧ x < e)
        ∧ (∀ r ∈ out.rounds, ∀ x ∈ r.commitCalls, s ≤ x ∧ x < e)) := by
  obtain ⟨hU, hout, hrounds⟩ := speculative_for_conv toIntT S step shared s e g hasState
    maxTries _ out hret
  obtain ⟨w1, _, _, w4, w5, w6, w7, w8, w9⟩ := wide_cover (S.onIntT toIntT) step shared s e g
    hasState maxTries hg hse n _ hU
  refine ⟨?_, ?_, ?_, ?_, ?_, ?_, ?_, ?_⟩
  · rw [hrounds, resolvedAll_mapIdx]
    exact w1.map _
  · intro r hr
    rw [hrounds] at hr
    obtain ⟨r0, hr0, rfl⟩ := List.mem_map.mp hr
    rw [RoundRec.resolved_mapIdx, RoundRec.committed_mapIdx]
    show (r0.resolved.map toIntT).Perm (pack (r0.I.map toIntT) _ ++ _)
    rw [pack_map, ← List.map_append]
    exact (w4 r0 hr0).map _
  · rw [hout]
    show List.map toIntT _ = []
    rw [w5]
    rfl
  · rw [hout]; exact w6
  · rw [hout]; exact w7
  · intro r hr x hx
    rw [hrounds] at hr
    obtain ⟨r0, hr0, rfl⟩ := List.mem_map.mp hr
    obtain ⟨p, hp, rfl⟩ := List.mem_map.mp (show x ∈ r0.I.map toIntT from hx)
    exact ⟨p, (w8 r0 hr0 p hp).1, (w8 r0 hr0 p hp).2, rfl⟩
  · intro r hr x hx
    rw [hrounds] at hr
    obtain ⟨r0, hr0, rfl⟩ := List.mem_map.mp hr
    rw [RoundRec.commitCalls_mapIdx] at hx
    obtain ⟨p, hp, rfl⟩ := List.mem_map.mp hx
    exact ⟨p, (w9 r0 hr0 p hp).1, (w9 r0 hr0 p hp).2, rfl⟩
  · intro hfit
    rw [speculative_for_fit toIntT S step shared s e g hasState maxTries hfit] at hret
    obtain ⟨v1, v2, v3, _, _, _, _, v8, v9⟩ := wide_cover S step shared s e g hasState maxTries
      hg hse n out hret
    exact ⟨v1, v2, v3, v8, v9⟩

/-- C2 (amended) at the run of `contendStep` on `[0, 2)`, whose indices a conversion with
maximum 100 leaves unchanged: it returns, and the resolved indices are those of `[0, 2)`. -/
theorem coverage_witness :
    contendRun.1 = Outcome.returned 3
    ∧ (resolvedAll contendRun.2.rounds).Perm (irange 0 2)
    ∧ contendRun.2.Ihold = [] ∧ contendRun.2.numberDone = 2 :=
  ⟨by rfl,
   ((coverage (wrapIntT 100) contendStep () (freshRegisters 100) 0 2 1 true (-1) (by decide)
      (by decide) 3 contendRun.2 contendRun_eq).2.2.2.2.2.2.2 wrapIntT_small).1,
   (coverage (wrapIntT 100) contendStep () (freshRegisters 100) 0 2 1 true (-1) (by decide)
      (by decide) 3 contendRun.2 contendRun_eq).2.2.1,
   (coverage (wrapIntT 100) contendStep () (freshRegisters 100) 0 2 1 true (-1) (by decide)
      (by decide) 3 contendRun.2 contendRun_eq).2.2.2.2.1⟩

/-! ## The returned count -/

/-- C4: for `granularity ≥ 1` and `s ≤ e`, when `speculative_for` returns, the result is the
sum of the sizes of the rounds executed, which is `(e - s)` plus the sum over the rounds of the
number of indices carried over after the round; so it is at least `e - s`, with equality exactly
when no round carried an index over. -/
theorem return_value {σ τ : Type} (toIntT : Int → Int) (S : Step σ τ) (step : τ) (shared : σ)
    (s e g : Int) (hasState : Bool) (maxTries : Int) (hg : 1 ≤ g) (hse : s ≤ e)
    (n : Int) (out : Loop σ τ)
    (hret : speculative_for toIntT S step shared s e g hasState maxTries
      = (Outcome.returned n, out)) :
    n = (out.rounds.map RoundRec.size).sum
    ∧ n = (e - s) + (out.rounds.map (fun r : RoundRec => (r.carried.length : Int))).sum
    ∧ e - s ≤ n
    ∧ (n = e - s ↔ ∀ r ∈ out.rounds, r.carried = []) := by
  obtain ⟨hU, _, hrounds⟩ := speculative_for_conv toIntT S step shared s e g hasState
    maxTries _ out hret
  obtain ⟨w1, w2, w3, _⟩ := wide_return (S.onIntT toIntT) step shared s e g hasState maxTries
    hg hse n _ hU
  rw [hrounds, map_size_mapIdx, map_carried_length_mapIdx]
  refine ⟨w1, w2, w3, ?_⟩
  rw [← hrounds, ← sum_carried_eq_zero, hrounds, map_carried_length_mapIdx]
  omega

/-- C4 at the run of `contendStep` on `[0, 2)`: the result 3 is `2 - 0` plus the indices
carried over, and is not `2 - 0` since index 1 is retried. -/
theorem return_value_witness :
    contendRun.1 = Outcome.returned 3
    ∧ (3 : Int) = (contendRun.2.rounds.map RoundRec.size).sum
    ∧ (3 : Int) = (2 - 0)
        + (contendRun.2.rounds.map (fun r : RoundRec => (r.carried.length : Int))).sum
    ∧ ((3 : Int) = 2 - 0 ↔ ∀ r ∈ contendRun.2.rounds, r.carried = []) :=
  ⟨by rfl,
   (return_value (wrapIntT 100) contendStep () (freshRegisters 100) 0 2 1 true (-1) (by decide)
      (by decide) 3 contendRun.2 contendRun_eq).1,
   (return_value (wrapIntT 100) contendStep () (freshRegisters 100) 0 2 1 true (-1) (by decide)
      (by decide) 3 contendRun.2 contendRun_eq).2.1,
   (return_value (wrapIntT 100) contendStep () (freshRegisters 100) 0 2 1 true (-1) (by decide)
      (by decide) 3 contendRun.2 contendRun_eq).2.2.2⟩

/-! ## The ceiling on the rounds -/

/-- C10: for `granularity ≥ 1` and `s < e`, `currentRoundSize` is at most `maxRoundSize` and at
least `max(maxRoundSize/64 + 1, |pending|)` initially, at the start of every round, and after
the adjustment that ends every round (in which `|pending|` is the number of indices the round
carried over), whichever branch of the adjustment is taken. -/
theorem sizing_bounds {σ τ : Type} (toIntT : Int → Int) (S : Step σ τ) (step : τ) (shared : σ)
    (s e g : Int) (hasState : Bool) (maxTries : Int) (hg : 1 ≤ g) (hse : s < e)
    (o : Outcome) (out : Loop σ τ)
    (hres : speculative_for toIntT S step shared s e g hasState maxTries = (o, out)) :
    ((initLoop step shared s e g hasState).currentRoundSize ≤ maxRoundSizeOf s e g
      ∧ max ((maxRoundSizeOf s e g).tdiv 64 + 1)
            ((initLoop step shared s e g hasState).Ihold.length : Int)
          ≤ (initLoop step shared s e g hasState).currentRoundSize)
    ∧ (∀ r ∈ out.rounds,
        r.currentRoundSize ≤ maxRoundSizeOf s e g
        ∧ max ((maxRoundSizeOf s e g).tdiv 64 + 1) (r.pending.length : Int) ≤ r.currentRoundSize
        ∧ r.nextRoundSize = resize (maxRoundSizeOf s e g) r.currentRoundSize r.carried.length r.size
        ∧ r.nextRoundSize ≤ maxRoundSizeOf s e g
        ∧ max ((maxRoundSizeOf s e g).tdiv 64 + 1) (r.carried.length : Int) ≤ r.nextRoundSize)
    ∧ (out.currentRoundSize ≤ maxRoundSizeOf s e g
      ∧ max ((maxRoundSizeOf s e g).tdiv 64 + 1) (out.Ihold.length : Int)
          ≤ out.currentRoundSize) := by
  obtain ⟨hU, hout, hrounds⟩ := speculative_for_conv toIntT S step shared s e g hasState
    maxTries o out hres
  obtain ⟨w1, w2, w3⟩ := wide_sizing (S.onIntT toIntT) step shared s e g hasState maxTries
    hg hse o _ hU
  refine ⟨w1, ?_, ?_⟩
  · intro r hr
    rw [hrounds] at hr
    obtain ⟨r0, hr0, rfl⟩ := List.mem_map.mp hr
    rw [RoundRec.carried_mapIdx, List.length_map]
    show _ ∧ max _ (((r0.pending.map toIntT).length : Nat) : Int) ≤ _ ∧ _
    rw [List.length_map]
    exact w2 r0 hr0
  · rw [hout]
    show _ ∧ max _ (((List.map toIntT _).length : Nat) : Int) ≤ _
    rw [List.length_map]
    exact w3

/-- C10 at the run of `contendStep` on `[0, 2)`: the bounds hold in the final state. -/
theorem sizing_bounds_witness :
    contendRun.2.currentRoundSize ≤ maxRoundSizeOf 0 2 1
    ∧ max ((maxRoundSizeOf 0 2 1).tdiv 64 + 1) (contendRun.2.Ihold.length : Int)
        ≤ contendRun.2.currentRoundSize :=
  (sizing_bounds (wrapIntT 100) contendStep () (freshRegisters 100) 0 2 1 true (-1) (by decide)
      (by decide) (Outcome.returned 3) contendRun.2 contendRun_eq).2.2

/-! ## Composition of a round -/

/-- C13, refuted as stated: in the run of `pairStep` on `[0, 12)` with granularity 2 the second
round starts with `numberDone = 6` and the pending list `[5]`, and its index list is
`5, 7, 8, 9, 10, 11`: the fresh indices start at 7, not at `numberDone`. -/
theorem round_composition_counterexample :
    pairRun.2.rounds.map (fun r => (r.numberDone, r.pending, r.I))
      = [(0, [], [0, 1, 2, 3, 4, 5, 6]), (6, [5], [5, 7, 8, 9, 10, 11])] := by
  decide!

/-- C13, amended: in every round of `speculative_for`, the index list has `size` entries: the
pending indices carried over from the previous round (none in the first round), in their
order, in the first `|pending|` slots, followed by the fresh indices
`numberDone + |pending|, numberDone + |pending| + 1, ...`, each converted to `intT`, so that
slot `i ≥ |pending|` holds the conversion of `numberDone + i`, where `numberDone` is the
driver's counter at the start of the round. -/
theorem round_composition {σ τ : Type} (toIntT : Int → Int) (S : Step σ τ) (step : τ)
    (shared : σ) (s e g : Int) (hasState : Bool) (maxTries : Int) :
    (∀ r ∈ (speculative_for toIntT S step shared s e g hasState maxTries).2.rounds,
        r.I.length = r.size.toNat
        ∧ r.I = r.pending
            ++ (irange (r.numberDone + r.pending.length)
                  (r.size.toNat - r.pending.length)).map toIntT
        ∧ ∀ i, i < r.size.toNat →
            r.I.getD i 0 = if i < r.pending.length then r.pending.getD i 0
              else toIntT (r.numberDone + (i : Int)))
    ∧ (∀ r ∈ (speculative_for toIntT S step shared s e g hasState maxTries).2.rounds.head?,
        r.pending = [])
    ∧ (speculative_for toIntT S step shared s e g hasState maxTries).2.rounds.Chain'
        (fun r r' => r'.pending = r.carried) := by
  obtain ⟨h1, h2, h3⟩ := wide_composition (S.onIntT toIntT) step shared s e g hasState maxTries
  rw [speculative_for_conv_rounds]
  refine ⟨?_, ?_, ?_⟩
  · intro r hr
    obtain ⟨r0, hr0, rfl⟩ := List.mem_map.mp hr
    obtain ⟨a1, a2, a3⟩ := h1 r0 hr0
    have hp : (r0.mapIdx toIntT).pending.length = r0.pending.length := List.length_map _ _
    refine ⟨?_, ?_, ?_⟩
    · show (r0.I.map toIntT).length = _
      rw [List.length_map]
      exact a1
    · rw [hp]
      have h := congrArg (List.map toIntT) a2
      rw [List.map_append] at h
      exact h
    · intro i hi
      rw [hp]
      show (r0.I.map toIntT).getD i 0 = if i < r0.pending.length
        then (r0.pending.map toIntT).getD i 0 else toIntT (r0.numberDone + (i : Int))
      rw [getD_map_zero toIntT r0.I i (by rw [a1]; exact hi), a3 i hi]
      split
      · rename_i hlt
        rw [getD_map_zero toIntT r0.pending i hlt]
      · rfl
  · intro r hr
    rw [List.head?_map] at hr
    obtain ⟨r0, hr0, rfl⟩ := Option.mem_map.mp hr
    show r0.pending.map toIntT = []
    rw [h2 r0 hr0]
    rfl
  · rw [List.chain'_map]
    refine h3.imp ?_
    intro r r' h
    rw [RoundRec.carried_mapIdx]
    show r'.pending.map toIntT = _
    rw [h]

/-! ## Order of the index list -/

/-- C14, refuted as stated: for a 32-bit `intT`, the index list of the round of the run of
`acceptStep` on `[2147483647, 2147483649)` is `2147483647, -2147483648`, which is not
increasing. -/
theorem priority_order_counterexample :
    (1 : Int) ≤ 1 ∧ (2147483647 : Int) < 2147483649
    ∧ edgeRun.2.rounds.map RoundRec.I = [[2147483647, -2147483648]]
    ∧ ¬ ∀ r ∈ edgeRun.2.rounds, r.I.Pairwise (fun a b => a < b) := by
  decide!

/-- C14, amended: for `granularity ≥ 1` and `s < e`, in every round the carried-over list of a
round is the order-preserving compaction of the previous round's index list at the slots whose
`keep` flag is set, a sublist of that list; and when the conversion to `intT` is strictly
increasing on `[s, e)` (as it is when every index of the range has a value of `intT`), the
index list of every round is strictly increasing: the carried-over indices are in ascending
order and each of them is smaller than every fresh index of the round. -/
theorem priority_order {σ τ : Type} (toIntT : Int → Int) (S : Step σ τ) (step : τ) (shared : σ)
    (s e g : Int) (hasState : Bool) (maxTries : Int) (hg : 1 ≤ g) (hse : s < e) :
    ((∀ p q, s ≤ p → p < q → q < e → toIntT p < toIntT q) →
      ∀ r ∈ (speculative_for toIntT S step shared s e g hasState maxTries).2.rounds,
        r.I.Pairwise (fun a b => a < b)
        ∧ r.pending.Pairwise (fun a b => a < b)
        ∧ ∀ x ∈ r.pending, ∀ y ∈ (irange (r.numberDone + r.pending.length)
            (r.size.toNat - r.pending.length)).map toIntT, x < y)
    ∧ (∀ r ∈ (speculative_for toIntT S step shared s e g hasState maxTries).2.rounds,
        r.I = r.pending
            ++ (irange (r.numberDone + r.pending.length)
                  (r.size.toNat - r.pending.length)).map toIntT)
    ∧ (speculative_for toIntT S step shared s e g hasState maxTries).2.rounds.Chain'
        (fun r r' => r'.pending = pack r.I r.keep ∧ r'.pending.Sublist r.I) := by
  obtain ⟨h1, h2⟩ := wide_priority (S.onIntT toIntT) step shared s e g hasState maxTries hg hse
  obtain ⟨hok, _, _⟩ := speculative_for_history (S.onIntT toIntT) step shared s e g hasState
    maxTries hg (le_of_lt hse)
  rw [speculative_for_conv_rounds]
  have hidx : ∀ r0 : RoundRec, r0.I = r0.pending
        ++ irange (r0.numberDone + r0.pending.length) (r0.size.toNat - r0.pending.length) →
      (r0.mapIdx toIntT).I = (r0.mapIdx toIntT).pending
        ++ (irange ((r0.mapIdx toIntT).numberDone + (r0.mapIdx toIntT).pending.length)
              ((r0.mapIdx toIntT).size.toNat - (r0.mapIdx toIntT).pending.length)).map
            toIntT := by
    intro r0 h
    have hp : (r0.mapIdx toIntT).pending.length = r0.pending.length := List.length_map _ _
    rw [hp]
    have h' := congrArg (List.map toIntT) h
    rw [List.map_append] at h'
    exact h'
  refine ⟨?_, ?_, ?_⟩
  · intro hmono r hr
    obtain ⟨r0, hr0, rfl⟩ := List.mem_map.mp hr
    obtain ⟨a1, a2, _, _⟩ := h1 r0 hr0
    have hin := (hok r0 hr0).inRange
    have hI : (r0.mapIdx toIntT).I.Pairwise (fun a b => a < b) := by
      show (r0.I.map toIntT).Pairwise _
      rw [List.pairwise_map]
      refine a1.imp_of_mem ?_
      intro a b ha hb hab
      exact hmono a b (hin a ha).1 hab (hin b hb).2
    have hI2 := hI
    rw [hidx r0 a2, List.pairwise_append] at hI2
    exact ⟨hI, hI2.1, hI2.2.2⟩
  · intro r hr
    obtain ⟨r0, hr0, rfl⟩ := List.mem_map.mp hr
    exact hidx r0 (h1 r0 hr0).2.1
  · rw [List.chain'_map]
    refine h2.imp ?_
    intro r r' h
    have e1 : (r'.mapIdx toIntT).pending = pack (r.mapIdx toIntT).I (r.mapIdx toIntT).keep := by
      show r'.pending.map toIntT = pack (r.I.map toIntT) r.keep
      rw [pack_map, h.1]
    refine ⟨e1, ?_⟩
    rw [e1]
    exact pack_sublist _ _

/-- C14 (amended) at the run of `contendStep` on `[0, 2)`, on which a conversion with maximum
100 is increasing: the index list of every round is increasing. -/
theorem priority_order_witness :
    (∀ r ∈ contendRun.2.rounds, r.I.Pairwise (fun a b => a < b))
    ∧ contendRun.2.rounds.Chain'
      (fun r r' => r'.pending = pack r.I r.keep ∧ r'.pending.Sublist r.I) :=
  ⟨fun r hr => ((priority_order (wrapIntT 100) contendStep () (freshRegisters 100) 0 2 1 true
      (-1) (by decide) (by decide)).1
      (fun p q h1 h2 h3 => by
        rw [wrapIntT_small p (by omega) (by omega), wrapIntT_small q (by omega) (by omega)]
        exact h2) r hr).1,
   (priority_order (wrapIntT 100) contendStep () (freshRegisters 100) 0 2 1 true (-1)
      (by decide) (by decide)).2.2⟩

/-! ## Resolved indices are not presented again -/

theorem wrapIntT_intMax (x : Int) (h1 : -2147483648 ≤ x) (h2 : x ≤ 2147483647) :
    wrapIntT intMax x = x :=
  wrapIntT_of_mem intMax x (by show -(2147483647 + 1) ≤ x; omega) (by show x ≤ 2147483647; omega)

/-- The conversion to a two's complement type gives different values for the indices of a
range that is no longer than the type has values. -/
theorem wrapIntT_injOn (max_int s e : Int)
    (hspan : e - s ≤ 2 * (max_int + 1)) (p q : Int) (hp1 : s ≤ p) (hp2 : p < e)
    (hq1 : s ≤ q) (hq2 : q < e) (h : wrapIntT max_int p = wrapIntT max_int q) : p = q := by
  unfold wrapIntT at h
  have h1 : (p + (max_int + 1)) % (2 * (max_int + 1))
      = (q + (max_int + 1)) % (2 * (max_int + 1)) := by
    omega
  rw [Int.emod_eq_emod_iff_emod_sub_eq_zero] at h1
  have h2 : (2 * (max_int + 1)) ∣ (p - q) := by
    have := Int.dvd_of_emod_eq_zero h1
    have e1 : p + (max_int + 1) - (q + (max_int + 1)) = p - q := by ring
    rwa [e1] at this
  have h3 : p - q = 0 := by
    apply Int.eq_zero_of_abs_lt_dvd h2
    rw [abs_lt]
    constructor <;> omega
  omega

/-- With unconverted indices: every index in the index list of a round is in `[s, e)`. -/
theorem wide_inRange {σ τ : Type} (S : Step σ τ) (step : τ) (shared : σ)
    (s e g : Int) (hasState : Bool) (maxTries : Int) :
    ∀ r ∈ (speculative_for id S step shared s e g hasState maxTries).2.rounds,
      ∀ x ∈ r.I, s ≤ x ∧ x < e := by
  intro r hr x hx
  by_cases hse : e ≤ s
  · rw [speculative_for_empty S step shared s e g hasState maxTries hse] at hr
    cases hr
  by_cases hM : maxRoundSizeOf s e g ≤ 0
  · rw [speculative_for_degenerate S step shared s e g hasState maxTries hM r hr] at hx
    cases hx
  by_cases hg : g = 0
  · have : (speculative_for id S step shared s e g hasState maxTries).2.rounds = [] := by
      unfold speculative_for
      rw [if_pos hg]
      rfl
    rw [this] at hr
    cases hr
  obtain ⟨st, hI, hst⟩ := speculative_for_inv S step shared s e g hasState maxTries hg
    (by omega) (by omega)
  have hrounds : (speculative_for id S step shared s e g hasState maxTries).2.rounds
      = st.rounds := by
    rcases hst with h | h
    · rw [h]
    · rw [h, bump_rounds]
  rw [hrounds] at hr
  exact (hI.roundsOK r hr).inRange x hx

theorem resolvedAll_nodup : ∀ (rs : List RoundRec), (∀ r ∈ rs, r.resolved.Nodup) →
    rs.Pairwise (fun r r' => ∀ x ∈ r.resolved, x ∉ r'.I) → (resolvedAll rs).Nodup
  | [], _, _ => List.nodup_nil
  | r :: rs, h1, h2 => by
    rw [List.pairwise_cons] at h2
    show (r.resolved ++ resolvedAll rs).Nodup
    rw [List.nodup_append]
    refine ⟨h1 r (List.mem_cons_self r rs),
      resolvedAll_nodup rs (fun r' hr' => h1 r' (List.mem_cons_of_mem r hr')) h2.2, ?_⟩
    intro x hx hx'
    obtain ⟨r', hr', hxr'⟩ := mem_resolvedAll.mp hx'
    exact h2.1 r' hr' x hx (mem_of_mem_pack hxr')

theorem nodup_of_length_le_one {α : Type} : ∀ (l : List α), l.length ≤ 1 → l.Nodup
  | [], _ => List.nodup_nil
  | [a], _ => List.nodup_singleton a
  | _ :: _ :: _, h => by simp at h

set_option maxRecDepth 10000 in
theorem longRun_maxRoundSize : maxRoundSizeOf 0 4294967297 4294967298 = 1 := by decide

set_option maxRecDepth 10000 in
theorem wrapIntT_span : wrapIntT intMax 4294967296 = wrapIntT intMax 0 := by decide

/-- C3, refuted as stated: for a 32-bit `intT`, the run of `acceptStep` on `[0, 4294967297)`
with granularity 4294967298 returns after 4294967297 rounds of one slot each, and a value
resolved in one round is in the index list of a later round (the positions 0 and 4294967296
are both the value 0 of `intT`). -/
theorem idempotent_resolution_counterexample :
    longRun.1 = Outcome.returned (4294967297 - 0)
    ∧ ¬ longRun.2.rounds.Pairwise (fun r r' => ∀ x ∈ r.resolved, x ∉ r'.I) := by
  have hacc : ∀ i t m, (((acceptStep.onIntT (wrapIntT intMax)).reserve i t m).1 = false) :=
    fun _ _ _ => rfl
  have hfst := (wide_accept (acceptStep.onIntT (wrapIntT intMax)) () () 0 4294967297
    4294967298 true (-1) (by decide) (by decide) (by decide) hacc).1
  have hret : longRun.1 = Outcome.returned (4294967297 - 0) := by
    unfold longRun
    rw [speculative_for_conv_fst]
    exact hfst
  refine ⟨hret, ?_⟩
  intro hP
  have hrun : speculative_for id (acceptStep.onIntT (wrapIntT intMax)) () () 0 4294967297
      4294967298 true (-1) = (Outcome.returned (4294967297 - 0),
        (speculative_for id (acceptStep.onIntT (wrapIntT intMax)) () () 0 4294967297
          4294967298 true (-1)).2) :=
    (fun (X : Outcome × Loop Unit Unit) (h : X.1 = Outcome.returned (4294967297 - 0)) =>
      (Prod.ext h rfl : X = (Outcome.returned (4294967297 - 0), X.2))) _ hfst
  have hperm := (wide_cover (acceptStep.onIntT (wrapIntT intMax)) () () 0 4294967297
    4294967298 true (-1) (by decide) (by decide) _ _ hrun).1
  obtain ⟨hok, _, _⟩ := speculative_for_history (acceptStep.onIntT (wrapIntT intMax)) () () 0
    4294967297 4294967298 true (-1) (by decide) (by decide)
  have hrounds : longRun.2.rounds = (speculative_for id (acceptStep.onIntT (wrapIntT intMax))
      () () 0 4294967297 4294967298 true (-1)).2.rounds.map
        (RoundRec.mapIdx (wrapIntT intMax)) := by
    unfold longRun
    exact speculative_for_conv_rounds (wrapIntT intMax) acceptStep () () 0 4294967297
      4294967298 true (-1)
  have hnd : (resolvedAll longRun.2.rounds).Nodup := by
    apply resolvedAll_nodup _ _ hP
    intro r hr
    rw [hrounds] at hr
    obtain ⟨r0, hr0, rfl⟩ := List.mem_map.mp hr
    apply nodup_of_length_le_one
    have h0 := hok r0 hr0
    have h1 := pack_length_le (r0.mapIdx (wrapIntT intMax)).I
      ((r0.mapIdx (wrapIntT intMax)).keep.map (fun b => !b))
    have h2 : (r0.mapIdx (wrapIntT intMax)).I.length = r0.I.length := List.length_map _ _
    have h3 : r0.I.length = r0.size.toNat := by
      have := h0.pendLe
      rw [h0.idx, List.length_append, irange_length]; omega
    have h4 := h0.sizeEq
    have h5 := h0.crsLe
    rw [longRun_maxRoundSize] at h5
    show (pack _ _).length ≤ 1
    omega
  rw [hrounds, resolvedAll_mapIdx] at hnd
  have hnd2 : ((irange 0 (4294967297 - 0 : Int).toNat).map (wrapIntT intMax)).Nodup :=
    (hperm.map _).nodup_iff.mp hnd
  have hinj := List.inj_on_of_nodup_map hnd2
  have hm1 : (4294967296 : Int) ∈ irange 0 (4294967297 - 0 : Int).toNat :=
    mem_irange.mpr ⟨by omega, by omega⟩
  have hm2 : (0 : Int) ∈ irange 0 (4294967297 - 0 : Int).toNat :=
    mem_irange.mpr ⟨by omega, by omega⟩
  have := hinj hm1 hm2 wrapIntT_span
  omega

/-- C3, amended: in every run of `speculative_for`, an index of a round that is not resolved
in it is in the index list of the round that follows; and when the conversion to `intT` gives
different values for different indices of `[s, e)` (as it does when the range is no longer
than `intT` has values), an index resolved in a round (its slot's `keep` flag is off after the
commit loop) is in the index list of no later round, so neither `reserve` nor `commit` is
called on it again. -/
theorem idempotent_resolution {σ τ : Type} (toIntT : Int → Int) (S : Step σ τ) (step : τ)
    (shared : σ) (s e g : Int) (hasState : Bool) (maxTries : Int) :
    ((∀ p q, s ≤ p → p < e → s ≤ q → q < e → toIntT p = toIntT q → p = q) →
      (speculative_for toIntT S step shared s e g hasState maxTries).2.rounds.Pairwise
        (fun r r' => ∀ x ∈ r.resolved, x ∉ r'.I ∧ x ∉ r'.commitCalls))
    ∧ (speculative_for toIntT S step shared s e g hasState maxTries).2.rounds.Chain'
        (fun r r' => ∀ x ∈ r.I, x ∉ r.resolved → x ∈ r'.I) := by
  obtain ⟨h1, h2⟩ := wide_idempotent (S.onIntT toIntT) step shared s e g hasState maxTries
  have hin := wide_inRange (S.onIntT toIntT) step shared s e g hasState maxTries
  rw [speculative_for_conv_rounds]
  constructor
  · intro hinj
    rw [List.pairwise_map]
    refine h1.imp_of_mem ?_
    intro r r' hr hr' h x hx
    rw [RoundRec.resolved_mapIdx] at hx
    obtain ⟨p, hp, rfl⟩ := List.mem_map.mp hx
    have hpr := hin r hr p (mem_of_mem_pack hp)
    have key : ∀ q ∈ r'.I, toIntT q ≠ toIntT p := by
      intro q hq heq
      have hqr := hin r' hr' q hq
      have := hinj q p hqr.1 hqr.2 hpr.1 hpr.2 heq
      subst this
      exact (h q hp).1 hq
    constructor
    · intro hc
      obtain ⟨q, hq, heq⟩ := List.mem_map.mp (show toIntT p ∈ r'.I.map toIntT from hc)
      exact key q hq heq
    · intro hc
      rw [RoundRec.commitCalls_mapIdx] at hc
      obtain ⟨q, hq, heq⟩ := List.mem_map.mp hc
      exact key q (mem_of_mem_pack hq) heq
  · rw [List.chain'_map]
    refine h2.imp ?_
    intro r r' h x hx hn
    obtain ⟨p, hp, rfl⟩ := List.mem_map.mp (show x ∈ r.I.map toIntT from hx)
    have hpn : p ∉ r.resolved := by
      intro hc
      apply hn
      rw [RoundRec.resolved_mapIdx]
      exact List.mem_map_of_mem _ hc
    exact List.mem_map_of_mem _ (h p hp hpn)

/-- C3 (amended) at the run of `contendStep` on `[0, 2)`, whose two indices a conversion with
maximum 100 keeps apart: index 0, resolved in the first round, is not presented again, and
index 1, not resolved in the first round, is presented in the second.  Also at the run of
`stuckStep 2147483647` on `[2147483647, 2147483649)` with ceiling 5, a range that a 32-bit
`intT` does not hold but whose two indices it keeps apart. -/
theorem idempotent_resolution_witness :
    contendRun.2.rounds.Pairwise
        (fun r r' => ∀ x ∈ r.resolved, x ∉ r'.I ∧ x ∉ r'.commitCalls)
    ∧ contendRun.2.rounds.Chain' (fun r r' => ∀ x ∈ r.I, x ∉ r.resolved → x ∈ r'.I)
    ∧ (speculative_for (wrapIntT intMax) (stuckStep 2147483647) () () 2147483647 2147483649 1
        true 5).2.rounds.Pairwise
        (fun r r' => ∀ x ∈ r.resolved, x ∉ r'.I ∧ x ∉ r'.commitCalls) :=
  ⟨(idempotent_resolution (wrapIntT 100) contendStep () (freshRegisters 100) 0 2 1 true (-1)).1
      (fun p q h1 h2 h3 h4 h => by
        rw [wrapIntT_small p h1 h2, wrapIntT_small q h3 h4] at h
        exact h),
   (idempotent_resolution (wrapIntT 100) contendStep () (freshRegisters 100) 0 2 1 true
      (-1)).2,
   (idempotent_resolution (wrapIntT intMax) (stuckStep 2147483647) () () 2147483647 2147483649
      1 true 5).1
      (wrapIntT_injOn intMax 2147483647 2147483649 (by decide))⟩

/-! ## The mod-3 scenario -/

/-- C17: on `[0, 8)` with granularity 1, in either setting of `hasState`, the run of the mod-3
step has a first round over all eight indices that commits exactly 0, 1, 2 and carries over
3, ..., 7; the run returns; every index of `0, ..., 7` is committed exactly once; and the
returned count, 15, is greater than 8. -/
theorem mod3_scenario (hasState : Bool) :
    (mod3Run hasState).2.rounds.head?.map (fun r => (r.I, r.committed, r.carried))
      = some ([0, 1, 2, 3, 4, 5, 6, 7], [0, 1, 2], [3, 4, 5, 6, 7])
    ∧ (mod3Run hasState).1 = Outcome.returned 15
    ∧ (8 : Int) < 15
    ∧ (committedAll (mod3Run hasState).2.rounds).Perm [0, 1, 2, 3, 4, 5, 6, 7]
    ∧ ∀ i ∈ [0, 1, 2, 3, 4, 5, 6, 7], (committedAll (mod3Run hasState).2.rounds).count i = 1 := by
  cases hasState <;> decide!

/-! ## A step that never resolves one index -/

/-- C18, refuted as stated: for a 32-bit `intT`, on `[2147483647, 2147483649)` with
granularity 1 and ceiling 5, the run of a step that never resolves index 2147483648 returns:
the index is presented as -2147483648, which the step resolves. -/
theorem non_convergence_counterexample :
    (2147483647 : Int) ≤ 2147483648 ∧ (2147483648 : Int) < 2147483649
    ∧ (∀ t m, ((stuckStep 2147483648).reserve 2147483648 t m).1 = true)
    ∧ (∀ t m, ((stuckStep 2147483648).commit 2147483648 t m).1 = false)
    ∧ edgeStuckRun.1 = Outcome.returned 2
    ∧ edgeStuckRun.2.rounds.map RoundRec.I = [[2147483647, -2147483648]] :=
  ⟨by decide, by decide, fun _ _ => rfl, fun _ _ => by simp [stuckStep], by decide!, by decide!⟩

/-- C18, amended: on a range with `s ≤ j < e` whose indices the conversion to `intT` leaves
unchanged, for `granularity ≥ 1` and any ceiling (so also one `≥ 0`), with a step that never
resolves index `j` (`reserve(j)` returns true and `commit(j)` returns false) and resolves every
other index at its first attempt (its `reserve` returns false or its `commit` returns true),
`speculative_for` ends in the abort; what a round carries over is `[j]` if `j` is in its index
list and nothing otherwise; and no index other than `j` is passed to `reserve` twice. -/
theorem non_convergence {σ τ : Type} (toIntT : Int → Int) (S : Step σ τ) (j : Int) (step : τ)
    (shared : σ) (s e g : Int) (hasState : Bool) (maxTries : Int)
    (hfit : ∀ x, s ≤ x → x < e → toIntT x = x)
    (hj1 : s ≤ j) (hj2 : j < e) (hg : 1 ≤ g)
    (h1 : ∀ t m, (S.reserve j t m).1 = true) (h2 : ∀ t m, (S.commit j t m).1 = false)
    (h3 : ∀ i, i ≠ j →
      (∀ t m, (S.reserve i t m).1 = false) ∨ (∀ t m, (S.commit i t m).1 = true)) :
    (speculative_for toIntT S step shared s e g hasState maxTries).1 = Outcome.aborted
    ∧ (∀ r ∈ (speculative_for toIntT S step shared s e g hasState maxTries).2.rounds,
        r.carried = if j ∈ r.I then [j] else [])
    ∧ (∀ x, x ≠ j →
        (presentedAll (speculative_for toIntT S step shared s e g hasState
          maxTries).2.rounds).count x ≤ 1) := by
  rw [speculative_for_fit toIntT S step shared s e g hasState maxTries hfit]
  exact wide_stuck S j step shared s e g hasState maxTries hj1 hj2 hg h1 h2 h3

/-- C18 (amended) at the run of `stuckStep 1` on `[0, 3)` with ceiling 2: it aborts, and every
round carries over `[1]`. -/
theorem non_convergence_witness :
    stuckRun.1 = Outcome.aborted
    ∧ ∀ r ∈ stuckRun.2.rounds, r.carried = if (1 : Int) ∈ r.I then [1] else [] :=
  ⟨(non_convergence (wrapIntT intMax) (stuckStep 1) 1 () () 0 3 1 true 2
      (fun x h1 h2 => wrapIntT_intMax x (by omega) (by omega))
      (by decide) (by decide) (by decide)
      (fun _ _ => rfl) (fun _ _ => rfl)
      (fun i hi => Or.inr (fun _ _ => by simp [stuckStep, hi]))).1,
   (non_convergence (wrapIntT intMax) (stuckStep 1) 1 () () 0 3 1 true 2
      (fun x h1 h2 => wrapIntT_intMax x (by omega) (by omega))
      (by decide) (by decide) (by decide)
      (fun _ _ => rfl) (fun _ _ => rfl)
      (fun i hi => Or.inr (fun _ _ => by simp [stuckStep, hi]))).2.1⟩

/-! ## A step whose `reserve` always returns false -/

/-- C16, refuted as stated: the first round of the run of `fifthStep` on `[0, 5)` has 5 slots
and carries over one index, exactly one fifth, and `currentRoundSize` goes from 6 to 3: the
halving branch is taken. -/
theorem resizing_rule_counterexample :
    fifthRun.2.rounds.head?.map
        (fun r => (r.size, r.carried, r.currentRoundSize, r.nextRoundSize))
      = some (5, [4], 6, 3)
    ∧ fracGt 1 5 = true ∧ fracLt 1 10 = false := by
  decide!

/-- C16, amended: after every round of `size` slots, `0 < size < 2^24`, that leaves `k`
pending indices, the next `currentRoundSize` is what the two binary32 tests of the code
select (`resize`), which is `max(currentRoundSize/2, max(maxRoundSize/64 + 1, k))` if
`k/size ≥ 0.2` (so also when exactly one fifth of the slots is retried),
`min(2*currentRoundSize, maxRoundSize)` if `k/size < 0.1`, and unchanged otherwise (so also
when exactly one tenth of the slots is retried). -/
theorem resizing_rule {σ τ : Type} (toIntT : Int → Int) (S : Step σ τ) (step : τ) (shared : σ)
    (s e g : Int) (hasState : Bool) (maxTries : Int) :
    ∀ r ∈ (speculative_for toIntT S step shared s e g hasState maxTries).2.rounds,
      0 < r.size → r.size < 2 ^ 24 →
      r.nextRoundSize
          = resize (maxRoundSizeOf s e g) r.currentRoundSize r.carried.length r.size
      ∧ r.nextRoundSize =
        if r.size ≤ 5 * (r.carried.length : Int) then
          max (r.currentRoundSize.tdiv 2)
            (max ((maxRoundSizeOf s e g).tdiv 64 + 1) (r.carried.length : Int))
        else if 10 * (r.carried.length : Int) < r.size then
          min (r.currentRoundSize * 2) (maxRoundSizeOf s e g)
        else r.currentRoundSize := by
  rw [speculative_for_conv_rounds]
  intro r hr
  obtain ⟨r0, hr0, rfl⟩ := List.mem_map.mp hr
  rw [RoundRec.carried_mapIdx, List.length_map]
  exact wide_resizing (S.onIntT toIntT) step shared s e g hasState maxTries r0 hr0

theorem fifthRound_mem : fifthRound ∈ fifthRun.2.rounds := by
  decide!

/-- C16 (amended) at the first round of the run of `fifthStep` on `[0, 5)`: one of 5 slots is
retried and `currentRoundSize` is halved from 6 to 3. -/
theorem resizing_rule_witness :
    fifthRound.nextRoundSize
        = resize (maxRoundSizeOf 0 5 1) fifthRound.currentRoundSize fifthRound.carried.length
            fifthRound.size
    ∧ fifthRound.nextRoundSize =
        if fifthRound.size ≤ 5 * (fifthRound.carried.length : Int) then
          max (fifthRound.currentRoundSize.tdiv 2)
            (max ((maxRoundSizeOf 0 5 1).tdiv 64 + 1) (fifthRound.carried.length : Int))
        else if 10 * (fifthRound.carried.length : Int) < fifthRound.size then
          min (fifthRound.currentRoundSize * 2) (maxRoundSizeOf 0 5 1)
        else fifthRound.currentRoundSize :=
  resizing_rule (wrapIntT intMax) fifthStep () (freshRegisters intMax) 0 5 1 true (-1)
    fifthRound fifthRound_mem (by decide) (by decide)

/-! ## Non-positive granularity -/

theorem reservePhase_state_length_conv {σ τ : Type} (cv : Int → Int) (S : Step σ τ)
    (hasState : Bool) (Ihold : List Int) (numberKeep numberDone : Int) (n : Nat) (m : Mem σ τ) :
    (reservePhase cv S hasState Ihold numberKeep numberDone n m).2.2.state.length
      = m.state.length := by
  induction n with
  | zero => simp [reservePhase, parallel_for_zero]
  | succ n ih =>
    rw [reservePhase_succ]
    show (callReserve S hasState n _ _).2.state.length = _
    rw [callReserve_state_length, ih]

/-- C21: for `granularity ≥ 1` and `s ≤ e`.  In every round of the run,
`|pending| ≤ size ≤ currentRoundSize ≤ maxRoundSize` and `numberDone + |pending| ≤ e`; the
carried-over indices are the first `|pending|` slots of the index list, so none is dropped, and
`I[0..size)`, the reserve flags and `keep[0..size)` have `size ≤ maxRoundSize` entries, within
the `maxRoundSize` slots of `I` and `keep`.  At every evaluation of the loop test (the state
`whileLoop` stops in with fuel `n` is the state at the test number `n + 1`, or the final state
when the loop has ended before), `numberKeep` is the length of `Ihold`, the same bounds hold for
the round about to start, `state` has length `maxRoundSize` when `hasState`, and every slot
`i < size` is below the length `state` has when the reserve loop and the commit loop reach
`state[i]`. -/
theorem buffer_safety {σ τ : Type} (toIntT : Int → Int) (S : Step σ τ) (step : τ) (shared : σ)
    (s e g : Int) (hasState : Bool) (maxTries : Int) (hg : 1 ≤ g) (hse : s ≤ e) :
    (∀ r ∈ (speculative_for toIntT S step shared s e g hasState maxTries).2.rounds,
        (r.pending.length : Int) ≤ r.size ∧ r.size ≤ r.currentRoundSize
        ∧ r.currentRoundSize ≤ maxRoundSizeOf s e g
        ∧ r.numberDone + r.pending.length ≤ e
        ∧ r.I.take r.pending.length = r.pending
        ∧ r.I.length = r.size.toNat ∧ r.reserved.length = r.size.toNat
        ∧ r.keep.length = r.size.toNat
        ∧ r.size.toNat ≤ (maxRoundSizeOf s e g).toNat)
    ∧ (∀ (n : Nat) (st : Loop σ τ),
        (whileLoop toIntT S hasState e (effMaxTries g maxTries) (maxRoundSizeOf s e g) n
          (initLoop step shared s e g hasState)).2 = st →
        st.numberKeep = st.Ihold.length
        ∧ (st.Ihold.length : Int) ≤ min st.currentRoundSize (e - st.numberDone)
        ∧ min st.currentRoundSize (e - st.numberDone) ≤ st.currentRoundSize
        ∧ st.currentRoundSize ≤ maxRoundSizeOf s e g
        ∧ st.numberDone + st.Ihold.length ≤ e
        ∧ (hasState = true → st.mem.state.length = (maxRoundSizeOf s e g).toNat)
        ∧ (hasState = true → ∀ i : Nat,
            (i : Int) < min st.currentRoundSize (e - st.numberDone) →
            i < (reservePhase toIntT S hasState st.Ihold st.numberKeep st.numberDone i
                  st.mem).2.2.state.length
            ∧ i < (commitPhase S hasState
                  (reservePhase toIntT S hasState st.Ihold st.numberKeep st.numberDone
                    (min st.currentRoundSize (e - st.numberDone)).toNat st.mem).1
                  (reservePhase toIntT S hasState st.Ihold st.numberKeep st.numberDone
                    (min st.currentRoundSize (e - st.numberDone)).toNat st.mem).2.1 i
                  (reservePhase toIntT S hasState st.Ihold st.numberKeep st.numberDone
                    (min st.currentRoundSize (e - st.numberDone)).toNat
                    st.mem).2.2).2.state.length)) := by
  obtain ⟨w1, w2⟩ := wide_buffers (S.onIntT toIntT) step shared s e g hasState maxTries hg hse
  constructor
  · rw [speculative_for_conv_rounds]
    intro r hr
    obtain ⟨r0, hr0, rfl⟩ := List.mem_map.mp hr
    obtain ⟨a1, a2, a3, a4, a5, a6, a7, a8, a9⟩ := w1 r0 hr0
    have hp : (r0.mapIdx toIntT).pending.length = r0.pending.length := List.length_map _ _
    rw [hp]
    refine ⟨a1, a2, a3, a4, ?_, ?_, a7, a8, a9⟩
    · show (r0.I.map toIntT).take r0.pending.length = r0.pending.map toIntT
      rw [← List.map_take, a5]
    · show (r0.I.map toIntT).length = _
      rw [List.length_map]
      exact a6
  · intro n st hst
    have hinit : initLoop step shared s e g hasState
        = (initLoop step shared s e g hasState).mapIdx toIntT := rfl
    rw [hinit, whileLoop_onIntT toIntT S hasState e _ _ n _ rfl] at hst
    obtain ⟨b1, b2, b3, b4, b5, b6, _⟩ := w2 n _ rfl
    subst hst
    dsimp only
    have hl : ((whileLoop id (S.onIntT toIntT) hasState e (effMaxTries g maxTries)
        (maxRoundSizeOf s e g) n (initLoop step shared s e g hasState)).2.mapIdx
          toIntT).Ihold.length
        = (whileLoop id (S.onIntT toIntT) hasState e (effMaxTries g maxTries)
        (maxRoundSizeOf s e g) n (initLoop step shared s e g hasState)).2.Ihold.length :=
      List.length_map _ _
    rw [hl]
    refine ⟨b1, b2, b3, b4, b5, b6, ?_⟩
    intro hs i hi
    rw [commitPhase_state_length, reservePhase_state_length_conv,
      reservePhase_state_length_conv]
    have h6 := b6 hs
    have h4 := b4
    constructor
    · show i < (whileLoop id (S.onIntT toIntT) hasState e (effMaxTries g maxTries)
        (maxRoundSizeOf s e g) n (initLoop step shared s e g hasState)).2.mem.state.length
      rw [h6]
      have : (i : Int) < (whileLoop id (S.onIntT toIntT) hasState e (effMaxTries g maxTries)
        (maxRoundSizeOf s e g) n (initLoop step shared s e g hasState)).2.currentRoundSize :=
        lt_of_lt_of_le hi b3
      omega
    · show i < (whileLoop id (S.onIntT toIntT) hasState e (effMaxTries g maxTries)
        (maxRoundSizeOf s e g) n (initLoop step shared s e g hasState)).2.mem.state.length
      rw [h6]
      have : (i : Int) < (whileLoop id (S.onIntT toIntT) hasState e (effMaxTries g maxTries)
        (maxRoundSizeOf s e g) n (initLoop step shared s e g hasState)).2.currentRoundSize :=
        lt_of_lt_of_le hi b3
      omega

/-- C21 at the run of `contendStep` on `[0, 2)` with granularity 1: the bounds hold in each of
its rounds, and at the start of its second round `state` has its three slots. -/
theorem buffer_safety_witness :
    (1 : Int) ≤ 1 ∧ (0 : Int) ≤ 2
    ∧ (∀ r ∈ contendRun.2.rounds,
        (r.pending.length : Int) ≤ r.size ∧ r.size ≤ r.currentRoundSize
        ∧ r.currentRoundSize ≤ maxRoundSizeOf 0 2 1
        ∧ r.numberDone + r.pending.length ≤ 2
        ∧ r.I.take r.pending.length = r.pending
        ∧ r.I.length = r.size.toNat ∧ r.reserved.length = r.size.toNat
        ∧ r.keep.length = r.size.toNat
        ∧ r.size.toNat ≤ (maxRoundSizeOf 0 2 1).toNat)
    ∧ (whileLoop (wrapIntT 100) contendStep true 2 (effMaxTries 1 (-1)) (maxRoundSizeOf 0 2 1) 1
        (initLoop () (freshRegisters 100) 0 2 1 true)).2.mem.state.length
        = (maxRoundSizeOf 0 2 1).toNat :=
  ⟨by decide, by decide,
    (buffer_safety (wrapIntT 100) contendStep () (freshRegisters 100) 0 2 1 true (-1)
      (by decide) (by decide)).1,
    ((buffer_safety (wrapIntT 100) contendStep () (freshRegisters 100) 0 2 1 true (-1)
      (by decide) (by decide)).2 1 _ rfl).2.2.2.2.2.1 rfl⟩

/-! ## Steps that keep the contract: the unbatched loop -/

theorem flatMap_range_single {β : Type} (f : Nat → List β) (b : Nat) :
    ∀ (n : Nat), b < n → (∀ c, c < n → c ≠ b → f c = []) → (List.range n).flatMap f = f b := by
  intro n
  induction n with
  | zero => intro h; omega
  | succ n ih =>
    intro hb h
    rw [List.range_succ, List.flatMap_append, List.flatMap_singleton]
    rcases Nat.lt_or_eq_of_le (Nat.lt_succ_iff.mp hb) with hlt | heq
    · rw [ih hlt (fun c hc hne => h c (by omega) hne), h n (by omega) (by omega),
        List.append_nil]
    · subst heq
      have : (List.range b).flatMap f = [] := by
        rw [List.flatMap_eq_nil_iff]
        intro c hc
        have := List.mem_range.mp hc
        exact h c (by omega) (by omega)
      rw [this, List.nil_append]

/-- The stable bucketing of `L` by `d` into `n` buckets. -/
theorem seq_count_sort_eq {α : Type} (g : α → Nat) (f : Nat → Nat) (In : List α) (n : Nat) :
    seq_count_sort_ In (delayed_seq In.length (fun i => f (keyAt g In i))) n
      = (List.range n).flatMap (fun b => In.filter (fun x => decide (f (g x) = b))) := by
  have hkeys : delayed_seq In.length (fun i => f (keyAt g In i)) = In.map (fun x => f (g x)) := by
    unfold delayed_seq
    apply List.ext_getElem
    · simp
    · intro i h1 h2
      simp only [List.getElem_map, List.getElem_range, keyAt, List.get?_eq_getElem?]
      rw [List.getElem?_eq_getElem (by simpa using h2)]
  unfold seq_count_sort_
  rw [hkeys]
  congr 1
  funext b
  rw [List.map_map]
  exact pack_map_eq_filter (fun x => decide (f (g x) = b)) In

theorem bucket_filter {α : Type} (d : α → Nat) (n : Nat) (L : List α)
    (hd : ∀ x ∈ L, d x < n) (q : α → Bool) (b : Nat) :
    ((List.range n).flatMap (fun c => L.filter (fun x => decide (d x = c)))).filter
        (fun x => decide (d x = b) && q x)
      = L.filter (fun x => decide (d x = b) && q x) := by
  rw [List.filter_flatMap]
  by_cases hb : b < n
  · rw [flatMap_range_single _ b n hb]
    · rw [List.filter_filter]
      apply List.filter_congr
      intro x _
      cases decide (d x = b) <;> simp
    · intro c _ hne
      rw [List.filter_filter, List.filter_eq_nil_iff]
      intro x _
      by_cases h1 : d x = b
      · have : ¬ d x = c := fun h => hne (h ▸ h1.symm ▸ rfl)
        simp [this]
      · simp [h1]
  · have h1 : L.filter (fun x => decide (d x = b) && q x) = [] := by
      rw [List.filter_eq_nil_iff]
      intro x hx
      have := hd x hx
      have : ¬ d x = b := by omega
      simp [this]
    rw [h1, List.flatMap_eq_nil_iff]
    intro c _
    rw [List.filter_filter, List.filter_eq_nil_iff]
    intro x hx
    have := hd x hx
    have : ¬ d x = b := by omega
    simp [this]

theorem filter_append_perm {α : Type} (p q : α → Bool) (hpq : ∀ x, p x = true → q x = false) :
    ∀ (L : List α), (L.filter p ++ L.filter q).Perm (L.filter (fun x => p x || q x))
  | [] => List.Perm.refl _
  | x :: L => by
    have ih := filter_append_perm p q hpq L
    cases hp : p x
    · cases hq : q x
      · simpa [List.filter_cons, hp, hq] using ih
      · simp only [List.filter_cons, hp, hq, Bool.or_true, if_true, Bool.false_eq_true, if_false]
        exact List.perm_middle.trans (List.Perm.cons x ih)
    · have hq := hpq x hp
      simp only [List.filter_cons, hp, hq, Bool.or_false, if_true, Bool.false_eq_true, if_false,
        List.cons_append]
      exact List.Perm.cons x ih

theorem bucket_perm_lt {α : Type} (d : α → Nat) (L : List α) : ∀ (n : Nat),
    ((List.range n).flatMap (fun c => L.filter (fun x => decide (d x = c)))).Perm
      (L.filter (fun x => decide (d x < n))) := by
  intro n
  induction n with
  | zero =>
    have : L.filter (fun x => decide (d x < 0)) = [] := by
      rw [List.filter_eq_nil_iff]; intro x _; simp
    rw [this]
    exact List.Perm.refl _
  | succ n ih =>
    rw [List.range_succ, List.flatMap_append, List.flatMap_singleton]
    have h1 := List.Perm.append_right (L.filter (fun x => decide (d x = n))) ih
    have h2 := filter_append_perm (fun x => decide (d x < n)) (fun x => decide (d x = n))
      (by intro x hx; simp at hx ⊢; omega) L
    have h3 : L.filter (fun x => decide (d x < n) || decide (d x = n))
        = L.filter (fun x => decide (d x < n + 1)) := by
      apply List.filter_congr
      intro x _
      by_cases ha : d x < n
      · simp [ha]; omega
      · by_cases hb : d x = n
        · simp [hb]
        · have : ¬ d x < n + 1 := by omega
          simp [ha, hb, this]
    rw [← h3]
    exact h1.trans h2

theorem bucket_perm {α : Type} (d : α → Nat) (n : Nat) (L : List α) (hd : ∀ x ∈ L, d x < n) :
    ((List.range n).flatMap (fun c => L.filter (fun x => decide (d x = c)))).Perm L := by
  have h := bucket_perm_lt d L n
  have : L.filter (fun x => decide (d x < n)) = L := by
    rw [List.filter_eq_self]
    intro x hx
    simpa using hd x hx
  rw [this] at h
  exact h

theorem bucket_sorted {α : Type} (kold d : α → Nat) (m n : Nat) (L : List α)
    (hs : L.Pairwise (fun a b => kold a ≤ kold b)) (hk : ∀ x, kold x < m) :
    ((List.range n).flatMap (fun c => L.filter (fun x => decide (d x = c)))).Pairwise
      (fun a b => kold a + m * d a ≤ kold b + m * d b) := by
  rw [List.pairwise_flatMap]
  constructor
  · intro c _
    have h1 : (L.filter (fun x => decide (d x = c))).Pairwise (fun a b => kold a ≤ kold b) :=
      hs.sublist (List.filter_sublist L)
    refine h1.imp_of_mem ?_
    intro a b ha hb hab
    have e1 : d a = c := by simpa using (List.mem_filter.mp ha).2
    have e2 : d b = c := by simpa using (List.mem_filter.mp hb).2
    rw [e1, e2]
    omega
  · refine (List.pairwise_lt_range n).imp ?_
    intro c1 c2 hlt x hx y hy
    have e1 : d x = c1 := by simpa using (List.mem_filter.mp hx).2
    have e2 : d y = c2 := by simpa using (List.mem_filter.mp hy).2
    rw [e1, e2]
    have h1 := hk x
    have h2 : m * (c1 + 1) ≤ m * c2 := Nat.mul_le_mul_left m hlt
    rw [Nat.mul_add, Nat.mul_one] at h2
    omega

/-- One round of a bottom up radix sort: bucketing a list that is stably sorted by the low part
of the key by the next digit gives a list stably sorted by the two together. -/
theorem stable_step {α : Type} (kold d : α → Nat) (m n : Nat) (In0 L1 : List α)
    (h1 : IsStableSortBy kold In0 L1) (hk : ∀ x, kold x < m) (hd : ∀ x, d x < n) :
    IsStableSortBy (fun x => kold x + m * d x) In0
      ((List.range n).flatMap (fun c => L1.filter (fun x => decide (d x = c)))) := by
  obtain ⟨hp, hs, hf⟩ := h1
  refine ⟨(bucket_perm d n L1 (fun x _ => hd x)).trans hp, bucket_sorted kold d m n L1 hs hk, ?_⟩
  intro c
  have hsplit : ∀ x : α, decide (kold x + m * d x = c)
      = (decide (d x = c / m) && decide (kold x = c % m)) := by
    intro x
    have hx := hk x
    have hm : 0 < m := by omega
    have e1 : (kold x + m * d x) / m = d x := by
      rw [Nat.add_mul_div_left _ _ hm, Nat.div_eq_of_lt hx, Nat.zero_add]
    have e2 : (kold x + m * d x) % m = kold x := by
      rw [Nat.add_mul_mod_self_left, Nat.mod_eq_of_lt hx]
    by_cases h : kold x + m * d x = c
    · have h1 : d x = c / m := by rw [← h, e1]
      have h2 : kold x = c % m := by rw [← h, e2]
      simp [h, h1.symm, h2.symm]
    · have : ¬ (d x = c / m ∧ kold x = c % m) := by
        rintro ⟨h1, h2⟩
        apply h
        rw [h1, h2, Nat.add_comm]
        exact Nat.div_add_mod c m
      simp only [h, decide_False]
      by_cases h1 : d x = c / m
      · have h2 : ¬ kold x = c % m := fun h2 => this ⟨h1, h2⟩
        simp [h2]
      · simp [h1]
  have hc1 : ∀ (L : List α), L.filter (fun x => decide (kold x + m * d x = c))
      = L.filter (fun x => decide (d x = c / m) && decide (kold x = c % m)) :=
    fun L => List.filter_congr (fun x _ => hsplit x)
  rw [hc1, hc1, bucket_filter d n L1 (fun x _ => hd x) (fun x => decide (kold x = c % m)) (c / m),
    ← List.filter_filter, ← List.filter_filter, hf (c % m)]

/-! ## The bottom up radix sort `seq_radix_sort_` -/

theorem IsStableSortBy.self {α : Type} (key : α → Nat) (xs : List α)
    (h : xs.Pairwise (fun a b => key a ≤ key b)) : IsStableSortBy key xs xs :=
  ⟨List.Perm.refl _, h, fun _ => rfl⟩

theorem IsStableSortBy.congr {α : Type} (k1 k2 : α → Nat) (xs ys : List α)
    (hk : ∀ x ∈ xs, k1 x = k2 x) (h : IsStableSortBy k1 xs ys) : IsStableSortBy k2 xs ys := by
  obtain ⟨hp, hs, hf⟩ := h
  have hky : ∀ x ∈ ys, k1 x = k2 x := fun x hx => hk x (hp.subset hx)
  refine ⟨hp, hs.imp_of_mem ?_, ?_⟩
  · intro a b ha hb hab
    rw [← hky a ha, ← hky b hb]
    exact hab
  · intro k
    have e1 : ys.filter (fun x => decide (k2 x = k)) = ys.filter (fun x => decide (k1 x = k)) :=
      List.filter_congr (fun x hx => by rw [hky x hx])
    have e2 : xs.filter (fun x => decide (k2 x = k)) = xs.filter (fun x => decide (k1 x = k)) :=
      List.filter_congr (fun x hx => by rw [hk x hx])
    rw [e1, e2]
    exact hf k

/-- The digit read by `get_key`: `(k >> off) & ((1 << rb) - 1)` is the digit
`k / 2^off mod 2^rb`. -/
theorem digit_eq (k off rb : Nat) :
    (k >>> off) &&& ((1 <<< rb) - 1) = k / 2 ^ off % 2 ^ rb := by
  rw [Nat.shiftRight_eq_div_pow, Nat.one_shiftLeft, Nat.and_pow_two_sub_one_eq_mod]

/-- The loop of `seq_radix_sort_`, when the bits to sort by are within the width of the keys:
it ends, and it extends a stable sort by the bits below `bit_offset` to a stable sort by the
bits below `bit_offset + bits`; the sorted data is in the buffer the handle `In` denotes when
the loop ends. -/
theorem radixLoop_spec {α : Type} (width : Nat) (g : α → Nat) (In0 : List α) :
    ∀ (fuel : Nat) (In Out : List α) (bits off : Nat) (swapped : Bool), bits ≤ fuel →
      off + bits ≤ width →
      IsStableSortBy (fun x => g x % 2 ^ off) In0 In →
      ∃ r, radixLoop width g fuel In Out bits off swapped = some r
        ∧ IsStableSortBy (fun x => g x % 2 ^ (off + bits)) In0 r.1 := by
  intro fuel
  induction fuel with
  | zero =>
    intro In Out bits off swapped hb _ h
    have : bits = 0 := by omega
    subst this
    exact ⟨_, rfl, h⟩
  | succ fuel ih =>
    intro In Out bits off swapped hb hw h
    unfold radixLoop
    by_cases hpos : bits > 0
    · rw [if_pos hpos, if_pos (by omega)]
      dsimp only
      have hrb : 0 < min radix bits := by
        have : (0 : Nat) < radix := by decide
        omega
      have hrb2 : min radix bits ≤ bits := Nat.min_le_right _ _
      have hstep : IsStableSortBy (fun x => g x % 2 ^ (off + min radix bits)) In0
          (seq_count_sort_ In (delayed_seq In.length
            (fun i => (keyAt g In i >>> off) &&& ((1 <<< min radix bits) - 1)))
            (1 <<< min radix bits)) := by
        rw [seq_count_sort_eq g (fun k => (k >>> off) &&& ((1 <<< min radix bits) - 1)) In
          (1 <<< min radix bits)]
        have hs := stable_step (fun x => g x % 2 ^ off)
          (fun x => (g x >>> off) &&& ((1 <<< min radix bits) - 1)) (2 ^ off)
          (1 <<< min radix bits) In0 In h
          (fun x => Nat.mod_lt _ (Nat.two_pow_pos off))
          (fun x => by
            show (g x >>> off) &&& ((1 <<< min radix bits) - 1) < 1 <<< min radix bits
            rw [digit_eq, Nat.one_shiftLeft]
            exact Nat.mod_lt _ (Nat.two_pow_pos _))
        refine IsStableSortBy.congr _ _ _ _ ?_ hs
        intro x _
        show g x % 2 ^ off + 2 ^ off * ((g x >>> off) &&& ((1 <<< min radix bits) - 1))
          = g x % 2 ^ (off + min radix bits)
        rw [digit_eq, pow_add, Nat.mod_mul]
      obtain ⟨r, hr, hres⟩ := ih _ In (bits - min radix bits) (off + min radix bits) (!swapped)
        (by omega) (by omega) hstep
      have e : off + min radix bits + (bits - min radix bits) = off + bits := by omega
      rw [e] at hres
      exact ⟨r, hr, hres⟩
    · rw [if_neg hpos]
      have : bits = 0 := by omega
      subst this
      exact ⟨_, rfl, h⟩

/-- In each of the four cases of `inplace` and `swapped`, the slice that `seq_radix_sort_`
designates for the result ends with the data the loop produced. -/
theorem seq_radix_sort__final {α : Type} (width : Nat) (In Out : List α) (g : α → Nat)
    (bits : Nat) (inplace : Bool) (hn : In.length ≠ 0) (r : List α × List α × Bool)
    (hr : radixLoop width g bits In Out bits 0 false = some r) :
    ∃ res, seq_radix_sort_ width In Out g bits inplace = some res
      ∧ (if inplace then res.1 else res.2) = r.1 := by
  unfold seq_radix_sort_
  rw [if_neg hn, hr]
  refine ⟨_, rfl, ?_⟩
  dsimp only
  cases inplace <;> cases r.2.2 <;> simp

set_option maxRecDepth 100000 in
theorem seq_radix_sort__wide :
    seq_radix_sort_ 64 [1, 256] [0, 0] id 72 true = none
    ∧ radixLoop 64 id 1 [1, 256] [1, 256] 8 64 false = none := by
  refine ⟨by rfl, by rfl⟩

set_option maxRecDepth 100000 in
theorem seq_radix_sort__full :
    seq_count_sort_ [1, 256]
        (delayed_seq 2 (fun i => (keyAt id [1, 256] i >>> (64 % 64)) &&& 255)) 256 = [256, 1]
    ∧ seq_radix_sort_ 64 [1, 256] [0, 0] id 64 true = some ([1, 256], [1, 256]) := by
  refine ⟨by rfl, by rfl⟩

/-- C20, refuted as stated: on the 64-bit keys 1 and 256 with `bits = 72`, the ninth round of
`seq_radix_sort_` (entered with both slices holding 1, 256, eight bits left and
`bit_offset = 64`) shifts the keys by 64, the width of their type, which the language leaves
undefined: the call has no defined result.  Where the processor takes the shift count modulo
64, the ninth round buckets by the low byte again and leaves 256 before 1.  With `bits = 64`
the slice is sorted. -/
theorem radix_sort_stable_counterexample :
    seq_radix_sort_ 64 [1, 256] [0, 0] id 72 true = none
    ∧ radixLoop 64 id 1 [1, 256] [1, 256] 8 64 false = none
    ∧ seq_count_sort_ [1, 256]
        (delayed_seq 2 (fun i => (keyAt id [1, 256] i >>> (64 % 64)) &&& 255)) 256 = [256, 1]
    ∧ seq_radix_sort_ 64 [1, 256] [0, 0] id 64 true = some ([1, 256], [1, 256]) :=
  ⟨seq_radix_sort__wide.1, seq_radix_sort__wide.2, seq_radix_sort__full.1,
    seq_radix_sort__full.2⟩

/-- C20, amended: for keys of `width` bits (every key is below `2^width`) and `bits ≤ width`,
`seq_radix_sort_(In, Out, g, bits, inplace)` on slices of the same length has a result, in
which the slice `In` (when `inplace`) or `Out` (otherwise) holds a stable sort of the original
contents of `In` by `g(x) mod 2^bits`; this is a stable sort by `g` when every key is below
`2^bits`, and for `bits = 0` the slice holds the original contents of `In` unchanged. -/
theorem radix_sort_stable {α : Type} (width : Nat) (In Out : List α) (g : α → Nat) (bits : Nat)
    (inplace : Bool) (hlen : Out.length = In.length) (hkey : ∀ x ∈ In, g x < 2 ^ width)
    (hbits : bits ≤ width) :
    ∃ res, seq_radix_sort_ width In Out g bits inplace = some res
      ∧ IsStableSortBy (fun x => g x % 2 ^ bits) In (if inplace then res.1 else res.2)
      ∧ ((∀ x ∈ In, g x < 2 ^ bits) →
          IsStableSortBy g In (if inplace then res.1 else res.2))
      ∧ (bits = 0 → (if inplace then res.1 else res.2) = In) := by
  have _ := hkey
  by_cases hn : In.length = 0
  · have hIn : In = [] := List.length_eq_zero.mp hn
    have hOut : Out = [] := List.length_eq_zero.mp (by rw [hlen, hn])
    subst hIn
    subst hOut
    refine ⟨([], []), by simp [seq_radix_sort_], ?_⟩
    have e : (if inplace then (([], []) : List α × List α).1
        else (([], []) : List α × List α).2) = [] := by
      cases inplace <;> rfl
    rw [e]
    exact ⟨IsStableSortBy.self _ _ List.Pairwise.nil,
      fun _ => IsStableSortBy.self _ _ List.Pairwise.nil, fun _ => rfl⟩
  · have h0 : IsStableSortBy (fun x => g x % 2 ^ 0) In In := by
      refine ⟨List.Perm.refl _, ?_, fun _ => rfl⟩
      refine List.pairwise_of_forall ?_
      intro a b
      simp [Nat.mod_one]
    obtain ⟨r, hr, h⟩ := radixLoop_spec width g In bits In Out bits 0 false (Nat.le_refl _)
      (by omega) h0
    rw [Nat.zero_add] at h
    obtain ⟨res, hres, hfin⟩ := seq_radix_sort__final width In Out g bits inplace hn r hr
    refine ⟨res, hres, ?_⟩
    rw [hfin]
    refine ⟨h, ?_, ?_⟩
    · intro hk
      exact IsStableSortBy.congr _ _ _ _ (fun x hx => Nat.mod_eq_of_lt (hk x hx)) h
    · intro hb
      subst hb
      have : radixLoop width g 0 In Out 0 0 false = some (In, Out, false) := rfl
      rw [this] at hr
      cases hr
      rfl

/-- C20 (amended) at four 64-bit keys sorted in place on their 16 low bits. -/
theorem radix_sort_stable_witness :
    ([0, 0, 0, 0] : List Nat).length = [513, 2, 257, 1].length
      ∧ (∀ x ∈ ([513, 2, 257, 1] : List Nat), id x < 2 ^ 64) ∧ 16 ≤ 64
      ∧ ∃ res, seq_radix_sort_ 64 [513, 2, 257, 1] [0, 0, 0, 0] id 16 true = some res
          ∧ IsStableSortBy (fun x => id x % 2 ^ 16) [513, 2, 257, 1] res.1 :=
  ⟨rfl, by decide, by decide,
    (radix_sort_stable 64 [513, 2, 257, 1] [0, 0, 0, 0] id 16 true rfl (by decide)
      (by decide)).imp (fun _ h => ⟨h.1, h.2.1⟩)⟩

/-! ## `integer_sort` at concrete inputs -/

set_option maxRecDepth 10000 in
/-- Below `2^15` elements and with `key_bits > 0`, `integer_sort_r` is `seq_radix_sort`. -/
theorem integer_sort_r_small {α : Type} (width : Nat) (g : α → Nat) (fuel : Nat) (B : Bufs α)
    (key_bits : Nat) (inplace : Bool) (h0 : key_bits ≠ 0) (hn : B.In.length < 1 <<< 15) :
    integer_sort_r width g fuel B key_bits inplace = seq_radix_sort width B g key_bits inplace := by
  unfold integer_sort_r
  rw [if_neg h0, if_pos hn]

set_option maxRecDepth 100000 in
/-- Two rounds of `seq_radix_sort` on three distinct buffers, out of place: the second round
buckets from `Out` into `In`. -/
theorem seq_radix_sort_two_rounds (out0 tmp0 : List Nat) :
    seq_radix_sort 64 { In := [1, 0], Out := out0, Tmp := tmp0, same := false } id 9 false
      = some { In := [0, 1], Out := [0, 1], Tmp := tmp0, same := false } := by
  unfold seq_radix_sort
  simp only [Bool.false_eq_true, if_false]
  rfl

set_option maxRecDepth 100000 in
/-- One round of `seq_radix_sort` on the two low bits of the keys 1 and 4. -/
theorem seq_radix_sort_two_bits (out0 tmp0 : List Nat) :
    seq_radix_sort 64 { In := [1, 4], Out := out0, Tmp := tmp0, same := false } id 2 false
      = some { In := [1, 4], Out := [4, 1], Tmp := tmp0, same := false } := by
  unfold seq_radix_sort
  simp only [Bool.false_eq_true, if_false]
  rfl

/-- C11: on the input `[1, 4]` of 64-bit keys with the identity as key function and
`key_bits = 0`, `integer_sort` returns `[4, 1]`, whatever the fresh buffers hold, and the keys
of `[4, 1]` are not in non-decreasing order.  The minimum 1 is not above `4 / 4`, so the
unshifted keys are sorted on the `log2_up (4 - 1 + 1) = 2` bits that were computed for the
shifted ones. -/
theorem integer_sort_auto_bits (out0 tmp0 : List Nat) :
    integer_sort 64 [1, 4] id 0 out0 tmp0 = some [4, 1]
      ∧ ¬ List.Pairwise (fun a b => id a ≤ id b) ([4, 1] : List Nat) := by
  constructor
  · unfold integer_sort integer_sort_
    rw [if_neg (by decide), if_pos rfl]
    have h1 : minmax (delayed_seq [1, 4].length (fun i => keyAt id [1, 4] i)) = (1, 4) := by rfl
    have h2 : log2_up ((4 + 2 ^ 64 - 1 + 1) % 2 ^ 64) = 2 := by rfl
    dsimp only
    rw [h1]
    dsimp only
    rw [h2, if_neg (by decide),
      integer_sort_r_small _ _ _ _ _ _ (by decide) (by show 2 < 1 <<< 15; decide),
      seq_radix_sort_two_bits]
    rfl
  · simp

/-- C12: sorting `In = [1, 0]` (64-bit keys) out of place by the identity with `key_bits = 9`,
with `In`, `Out` and `Tmp` three distinct buffers of any initial contents, leaves `[0, 1]` in
`In` (and in `Out`): the contents of `In` are not what they were before the call. -/
theorem integer_sort_out_of_place (out0 tmp0 : List Nat) :
    integer_sort_ 64 { In := [1, 0], Out := out0, Tmp := tmp0, same := false } false id 9 false
        = some { In := [0, 1], Out := [0, 1], Tmp := tmp0, same := false }
      ∧ ([0, 1] : List Nat) ≠ [1, 0] := by
  constructor
  · unfold integer_sort_
    rw [if_neg (by decide), if_neg (by decide),
      integer_sort_r_small _ _ _ _ _ _ (by decide) (by show 2 < 1 <<< 15; decide),
      seq_radix_sort_two_rounds]
  · decide

end SpecFor
